import Mathlib

/-!
# A separate-chaining hash table (`hash_table.c`, `hash_table.h`)

Shallow embedding of the C library and theorems about it.

Modelling conventions.

* A key (`const char*`) is the list of `char` values that precede the terminating NUL.
  A `char` is an integer: its range is `-128..127` where `char` is signed and `0..255`
  where it is unsigned; the definitions work for both.
* A chain (`hash_table_item*` with its `next` links) is the list of its items, head first;
  the bucket array is a list of chains.  A `hash_table_item**` returned by `find` is a
  `slot`: the bucket index and the number of links followed from the bucket head.
* The functions are embedded a second time over an explicit memory of blocks and
  pointers (names ending in `_heap`), for the statements about which storage two tables
  share; `represents` relates a table in memory to its content.
* `malloc`/`calloc` are taken to succeed (every statement of the development is about runs
  without allocation failure), so the `return false` branches behind them do not appear.
* `unsigned int` quantities are natural numbers, reduced modulo `2 ^ 32` where the code
  does arithmetic on them (`hash`, the counter of `hash_table_count`).  The loop counters
  `int i` range over the bucket indices `0 .. size - 1`; a table of more than `INT_MAX`
  buckets, on which `i++` would overflow, is outside the model.
-/

namespace HashTable

/-- `#define HASH_TABLE_DEFAULT_SIZE 157` -/
def HASH_TABLE_DEFAULT_SIZE : Nat := 157

/-- `#define HASH_TABLE_MAX_KEY_LENGTH 50` -/
def HASH_TABLE_MAX_KEY_LENGTH : Nat := 50

/-- `typedef long item_type;` (values are only stored and copied, never computed with). -/
abbrev item_type := Int

/-- The bytes of a C string before its terminating NUL. -/
abbrev Key := List Int

/-- Width of `unsigned int`. -/
def UINT_MOD : Nat := 2 ^ 32

/-- One allocated chain node.  `value` and `key` are the fields of the C struct; the `next`
field is the tail of the list the node stands in.  `freed` is ghost state: it records
that the node (and its key buffer) has been passed to `free` while a bucket head or a
`next` link still points to it. -/
structure hash_table_item where
  value : item_type
  key : Key
  freed : Bool
deriving DecidableEq, Repr

/-- The table: `unsigned int size; hash_table_item** buckets;`. -/
structure hash_table where
  size : Nat
  buckets : List (List hash_table_item)
deriving DecidableEq, Repr

/-- Value of a `hash_table_item**`: which bucket, and how many `next` links from its head. -/
structure slot where
  index : Nat
  pos : Nat
deriving DecidableEq, Repr

/-- `strnlen(s, maxlen)`. -/
def strnlen (s : Key) (maxlen : Nat) : Nat := min s.length maxlen

/-- `s[i]` for `i` up to the position of the terminator (which reads as `0`). -/
def char_at (s : Key) (i : Nat) : Int := s.getD i 0

/-- `strncmp(s1, s2, n) == 0`: the first `n` characters agree, or both strings end
before that at the same place. -/
def strncmp_eq : Key → Key → Nat → Bool
  | _, _, 0 => true
  | [], [], _ + 1 => true
  | a :: s1, b :: s2, n + 1 => if a = b then strncmp_eq s1 s2 n else false
  | [], _ :: _, _ + 1 => false
  | _ :: _, [], _ + 1 => false

/-- `strcpy_s(dest, destsz, src)`: the string left in `dest`.  When `src` with its
terminator does not fit in `destsz` bytes, `dest` is left holding the empty string. -/
def strcpy_s (destsz : Nat) (src : Key) : Key :=
  if src.length < destsz then src else []

/-- `relation(item, key)`: `strncmp(key, item->key, HASH_TABLE_MAX_KEY_LENGTH) == 0`. -/
def relation (item : hash_table_item) (key : Key) : Bool :=
  strncmp_eq key item.key HASH_TABLE_MAX_KEY_LENGTH

/-- Conversion of a `char` to `unsigned int` (`c = *key++`). -/
def char_to_uint (c : Int) : Nat := (c % (UINT_MOD : Int)).toNat

/-- `hash(key)`: `hash = 5381; while ((c = *key++)) hash += (hash << 5) + c;`
in `unsigned int` arithmetic. -/
def hash (key : Key) : Nat :=
  key.foldl (fun h c => (h + ((h <<< 5) % UINT_MOD + char_to_uint c) % UINT_MOD) % UINT_MOD) 5381

/-- `table->buckets[i]`, as the chain hanging from that head. -/
def bucket_at (table : hash_table) (i : Nat) : List hash_table_item :=
  table.buckets.getD i []

/-- `*prev`: the item a slot points to, `none` for a null pointer. -/
def slot_get (table : hash_table) (prev : slot) : Option hash_table_item :=
  (bucket_at table prev.index).get? prev.pos

/-- `*prev = p`, where `p` heads the chain `tail`: everything before the slot is kept and
the slot now leads to `tail`. -/
def slot_set (table : hash_table) (prev : slot) (tail : List hash_table_item) : hash_table :=
  { table with
    buckets := table.buckets.set prev.index ((bucket_at table prev.index).take prev.pos ++ tail) }

/-- A store into a field of the item a slot points to: that node now holds `item`, and
its place in the chain is unchanged. -/
def slot_write (table : hash_table) (prev : slot) (item : hash_table_item) : hash_table :=
  { table with
    buckets := table.buckets.set prev.index ((bucket_at table prev.index).set prev.pos item) }

/-- The loop of `find`: the number of links followed before reaching an item related to
`key`, or the end of the chain. -/
def find_walk (key : Key) : List hash_table_item → Nat
  | [] => 0
  | item :: rest => if relation item key then 0 else find_walk key rest + 1

/-- `find(table, key)`. -/
def find (table : hash_table) (key : Key) : slot :=
  let index := hash key % table.size
  { index := index, pos := find_walk key (bucket_at table index) }

/-- `alloc_item(prev, key, length, value)`: links a fresh node holding a copy of the key. -/
def alloc_item (table : hash_table) (prev : slot) (key : Key) (length : Nat)
    (value : item_type) : Bool × hash_table :=
  let length := length + 1
  let item : hash_table_item := { value := value, key := strcpy_s length key, freed := false }
  (true, slot_set table prev [item])

/-- `hash_table_init(table_addr, size)`: the new content of `*table_addr`, given its
content before the call (`none` for a null pointer). -/
def hash_table_init (table_addr : Option hash_table) (size : Nat) : Option hash_table :=
  if size < 2 then table_addr
  else some { size := size, buckets := List.replicate size [] }

/-- `hash_table_default_init(a)`. -/
def hash_table_default_init (table_addr : Option hash_table) : Option hash_table :=
  hash_table_init table_addr HASH_TABLE_DEFAULT_SIZE

/-- `hash_table_clean(table)`: every item of every chain is freed.  Nothing is stored into
`table->buckets[i]` or into a `next` field, so heads and links keep pointing at the freed
nodes. -/
def hash_table_clean (table : hash_table) : hash_table :=
  { table with
    buckets := table.buckets.map (fun chain => chain.map (fun item => { item with freed := true })) }

/-- `hash_table_search(table, key, out_value)`: `none` for `false`, `some v` for `true`
with `v` the value written through `out_value`. -/
def hash_table_search (table : hash_table) (key : Key) : Option item_type :=
  match slot_get table (find table key) with
  | none => none
  | some item => some item.value

/-- `hash_table_insert(table, key, value)`: the returned flag and the table afterwards. -/
def hash_table_insert (table : hash_table) (key : Key) (value : item_type) :
    Bool × hash_table :=
  let length := strnlen key HASH_TABLE_MAX_KEY_LENGTH
  if length < 1 ∨ char_at key length ≠ 0 then (false, table)
  else
    let prev := find table key
    match slot_get table prev with
    | some _ => (false, table)
    | none => alloc_item table prev key length value

/-- `hash_table_upsert(table, key, value)`. -/
def hash_table_upsert (table : hash_table) (key : Key) (value : item_type) :
    Bool × hash_table :=
  let length := strnlen key HASH_TABLE_MAX_KEY_LENGTH
  if length < 1 ∨ char_at key length ≠ 0 then (false, table)
  else
    let prev := find table key
    match slot_get table prev with
    | some item => (true, slot_write table prev { item with value := value })
    | none => alloc_item table prev key length value

/-- `hash_table_update(table, key, value)`. -/
def hash_table_update (table : hash_table) (key : Key) (value : item_type) :
    Bool × hash_table :=
  let tmp := find table key
  match slot_get table tmp with
  | none => (false, table)
  | some item => (true, slot_write table tmp { item with value := value })

/-- `hash_table_delete(table, key)`: `*prev = item->next`, then the item is freed. -/
def hash_table_delete (table : hash_table) (key : Key) : Bool × hash_table :=
  let prev := find table key
  match slot_get table prev with
  | none => (false, table)
  | some _ => (true, slot_set table prev ((bucket_at table prev.index).drop (prev.pos + 1)))

/-- The items of a table in the order the loops `for i < size` / `while (item)` visit
them. -/
def items (table : hash_table) : List hash_table_item :=
  ((List.range table.size).map (bucket_at table)).flatten

/-- The loop of `hash_table_copy` over the items still to visit: `fn` is applied to each
in turn and the loop returns `false` at the first failure. -/
def copy_loop (fn : hash_table → Key → item_type → Bool × hash_table) :
    hash_table → List hash_table_item → Bool × hash_table
  | dest, [] => (true, dest)
  | dest, item :: rest =>
    let r := fn dest item.key item.value
    if r.1 = false then (false, r.2) else copy_loop fn r.2 rest

/-- `hash_table_copy(dest, source, overwrite)`, for `dest` and `source` distinct tables. -/
def hash_table_copy (dest source : hash_table) (overwrite : Bool) : Bool × hash_table :=
  let fn := if overwrite then hash_table_upsert else hash_table_insert
  copy_loop fn dest (items source)

/-- `hash_table_resize(table_addr, size)`: the table `*table_addr` refers to afterwards.
`new_table` is the (indeterminate) initial value of the local variable of that name, which
the code reads only when `size < 2`: `none` for a null pointer, `some t` for a pointer to a
live table `t` that is another object than `*table_addr`.  The table that
`hash_table_close` destroys (the partial new one on failure, the old one on success) is the
one that is not returned.  A local that happens to hold the address of `*table_addr` itself
is not covered here: the code then closes the very table `*table_addr` refers to, and no
table is left (`hash_table_resize_heap` below acts on pointers and covers that case). -/
def hash_table_resize (old_table : hash_table) (size : Nat) (new_table : Option hash_table) :
    hash_table :=
  match hash_table_init new_table size with
  | none => old_table
  | some new_table =>
    let r := hash_table_copy new_table old_table false
    if r.1 = false then old_table else r.2

/-- `hash_table_clone(dest_addr, source)`: the new content of `*dest_addr`.  `table` is the
(indeterminate) initial value of the local variable of that name.  On a failed copy the
partial table is closed and `*dest_addr` is left as it was. -/
def hash_table_clone (dest_addr : Option hash_table) (source : hash_table)
    (table : Option hash_table) : Option hash_table :=
  match hash_table_init table source.size with
  | none => dest_addr
  | some table =>
    let r := hash_table_copy table source false
    if r.1 = false then dest_addr else some r.2

/-- `hash_table_size(table)`. -/
def hash_table_size (table : hash_table) : Nat := table.size

/-- `hash_table_is_empty(table)`: no bucket head is non-null. -/
def hash_table_is_empty (table : hash_table) : Bool :=
  (List.range table.size).all (fun i => (bucket_at table i).isEmpty)

/-- `hash_table_count(table)`: one `count++` per item visited, in `unsigned int`. -/
def hash_table_count (table : hash_table) : Nat :=
  (items table).foldl (fun count _ => (count + 1) % UINT_MOD) 0

/-- A key that `hash_table_insert` accepts: length in `[1, HASH_TABLE_MAX_KEY_LENGTH]`. -/
def valid_key (key : Key) : Prop :=
  1 ≤ key.length ∧ key.length ≤ HASH_TABLE_MAX_KEY_LENGTH

instance (key : Key) : Decidable (valid_key key) := by
  unfold valid_key; infer_instance

/-- The keys stored in a table, in traversal order. -/
def keys (table : hash_table) : List Key := (items table).map (fun item => item.key)

/-- Some entry of the table has key `key`. -/
def present (table : hash_table) (key : Key) : Prop := key ∈ keys table

instance (table : hash_table) (key : Key) : Decidable (present table key) := by
  unfold present; infer_instance

/-- The invariants of an initialized table: at least two buckets, as many chains as `size`
says, and in every chain: no key twice, every key of valid length, every item in the bucket
its hash selects, every node allocated. -/
def well_formed (table : hash_table) : Prop :=
  2 ≤ table.size ∧ table.buckets.length = table.size ∧
  ∀ i < table.size,
    ((bucket_at table i).map (fun item => item.key)).Nodup ∧
    ∀ item ∈ bucket_at table i,
      valid_key item.key ∧ hash item.key % table.size = i ∧ item.freed = false

instance (table : hash_table) : Decidable (well_formed table) := by
  unfold well_formed; infer_instance

/-- A C string: no byte before the terminator is zero. -/
def c_string (key : Key) : Prop := ∀ c ∈ key, c ≠ 0

instance (key : Key) : Decidable (c_string key) := by
  unfold c_string; infer_instance

/-- The entry that `alloc_item` creates for a valid key. -/
def new_item (key : Key) (value : item_type) : hash_table_item :=
  { value := value, key := key, freed := false }

/-- The store `item->value = value` that a successful update does. -/
def set_value_of (key : Key) (value : item_type) (item : hash_table_item) : hash_table_item :=
  if item.key = key then { item with value := value } else item

/-- One call of a single-key mutator. -/
inductive call where
  | insert (key : Key) (value : item_type)
  | upsert (key : Key) (value : item_type)
  | update (key : Key) (value : item_type)
  | delete (key : Key)
deriving DecidableEq, Repr

/-- The key argument of a call. -/
def call.key : call → Key
  | call.insert key _ => key
  | call.upsert key _ => key
  | call.update key _ => key
  | call.delete key => key

/-- The effect of one call: the returned flag and the table afterwards. -/
def apply_call (table : hash_table) : call → Bool × hash_table
  | call.insert key value => hash_table_insert table key value
  | call.upsert key value => hash_table_upsert table key value
  | call.update key value => hash_table_update table key value
  | call.delete key => hash_table_delete table key

/-- The table after a sequence of calls. -/
def run (table : hash_table) (calls : List call) : hash_table :=
  calls.foldl (fun t c => (apply_call t c).2) table

/-- The `w` low binary digits of `n`, low digit first, written with the bytes 1 and 2:
a family of pairwise distinct keys of length `w`. -/
def key_of_nat : Nat → Nat → Key
  | 0, _ => []
  | w + 1, n => (((n % 2 : Nat) : Int) + 1) :: key_of_nat w (n / 2)

/-- The calls `insert(key_of_nat 32 n, 0)` for `n = 0, …, 2 ^ 32 - 1`. -/
def many_inserts : List call :=
  (List.range (2 ^ 32)).map (fun n => call.insert (key_of_nat 32 n) 0)

/-- The keys that were successfully inserted or upserted and not deleted since, kept call
by call: a successful insert or upsert adds its key, a successful delete removes its key. -/
def live_step (table : hash_table) (live : Finset Key) : call → Finset Key
  | call.insert key value =>
    if (hash_table_insert table key value).1 = true then insert key live else live
  | call.upsert key value =>
    if (hash_table_upsert table key value).1 = true then insert key live else live
  | call.update _ _ => live
  | call.delete key =>
    if (hash_table_delete table key).1 = true then live.erase key else live

/-- The live keys after a sequence of calls that starts on `table` with `live`. -/
def live_keys : hash_table → Finset Key → List call → Finset Key
  | _, live, [] => live
  | table, live, c :: calls => live_keys (apply_call table c).2 (live_step table live c) calls

/-- Whether a call is not a delete that is given a key of more than 50 bytes and returns
true on `table`. -/
def long_delete_fails (table : hash_table) : call → Bool
  | call.delete key =>
    decide (key.length ≤ HASH_TABLE_MAX_KEY_LENGTH) || !(hash_table_delete table key).1
  | _ => true

/-- Whether, in a sequence of calls that starts on `table`, no delete that is given a key of
more than 50 bytes returns true. -/
def long_deletes_fail : hash_table → List call → Bool
  | _, [] => true
  | table, c :: calls =>
    long_delete_fails table c && long_deletes_fail (apply_call table c).2 calls

/-- The hash as the specification words it: seed 5381, then for each byte `c`,
`hash = hash * 33 + c` in a 32-bit unsigned accumulator.  Bytes are their values `0..255`. -/
def hash_spec (bytes : List Nat) : Nat :=
  bytes.foldl (fun h c => (h * 33 + c) % 2 ^ 32) 5381

/-- The value of the `char` that holds the byte `b` (`0..255`).  Whether `char` is signed is
left to the compiler: where it is unsigned the value is `b`; where it is signed (two's
complement, as with gcc on x86-64) it is `b` for `b < 128` and `b - 256` for `b ≥ 128`. -/
def char_of_byte (signed_char : Bool) (b : Nat) : Int :=
  if signed_char = true ∧ 128 ≤ b then Int.ofNat b - 256 else Int.ofNat b

/-- The key whose bytes are `bytes`, as the `char` values the code reads. -/
def key_of_bytes (signed_char : Bool) (bytes : List Nat) : Key :=
  bytes.map (char_of_byte signed_char)

/-- The `unsigned int` that `c = *key++` yields for the byte `b`: the byte value, except that
a byte of `0x80` or more held in a signed `char` is sign-extended, which adds
`2 ^ 32 - 256`. -/
def uint_of_byte (signed_char : Bool) (b : Nat) : Nat :=
  if signed_char = true ∧ 128 ≤ b then b + (2 ^ 32 - 256) else b

/-- The calls `insert(key, value)` for the pairs of a list, one after another: the flags
the calls return, in order, and the table at the end. -/
def insert_each : hash_table → List (Key × item_type) → List Bool × hash_table
  | table, [] => ([], table)
  | table, kv :: rest =>
    ((hash_table_insert table kv.1 kv.2).1 ::
        (insert_each (hash_table_insert table kv.1 kv.2).2 rest).1,
      (insert_each (hash_table_insert table kv.1 kv.2).2 rest).2)

/-- The keys `"k0"`, …, `"k9"`, each with its index as value. -/
def k0_to_k9 : List (Key × item_type) :=
  [([107, 48], 0), ([107, 49], 1), ([107, 50], 2), ([107, 51], 3), ([107, 52], 4),
   ([107, 53], 5), ([107, 54], 6), ([107, 55], 7), ([107, 56], 8), ([107, 57], 9)]

/-- The pairs `(key_of_nat 32 n, 0)` for `n = 0, …, 2 ^ 32 - 1`. -/
def many_pairs : List (Key × item_type) :=
  (List.range (2 ^ 32)).map (fun n => (key_of_nat 32 n, 0))

/-- The entries of `source`, in traversal order (bucket order, then chain order), that come
before the first entry whose key `dest` already holds; all of them when there is none. -/
def copied_entries (dest source : hash_table) : List hash_table_item :=
  (items source).takeWhile (fun item => decide (¬ present dest item.key))

/-- The tables a program reaches from `hash_table_init` with a size of at least 2 by calls
of insert, upsert, update, delete, copy (into a reached table, from a reached table), resize
to a size of at least 2, and clone.  A resize to a size below 2 reads the uninitialized
local `new_table` and has no defined result, so it is not among the steps. -/
inductive reachable : hash_table → Prop
  | init (table_addr : Option hash_table) (size : Nat) (table : hash_table) :
      2 ≤ size → hash_table_init table_addr size = some table → reachable table
  | insert (table : hash_table) (key : Key) (value : item_type) :
      reachable table → c_string key → reachable (hash_table_insert table key value).2
  | upsert (table : hash_table) (key : Key) (value : item_type) :
      reachable table → c_string key → reachable (hash_table_upsert table key value).2
  | update (table : hash_table) (key : Key) (value : item_type) :
      reachable table → c_string key → reachable (hash_table_update table key value).2
  | delete (table : hash_table) (key : Key) :
      reachable table → c_string key → reachable (hash_table_delete table key).2
  | copy (dest source : hash_table) (overwrite : Bool) :
      reachable dest → reachable source →
      reachable (hash_table_copy dest source overwrite).2
  | resize (table : hash_table) (size : Nat) (new_table : Option hash_table) :
      reachable table → 2 ≤ size → reachable (hash_table_resize table size new_table)
  | clone (dest_addr local_table : Option hash_table) (source clone : hash_table) :
      reachable source → hash_table_clone dest_addr source local_table = some clone →
      reachable clone

/-! ## The table in memory

The definitions above keep every chain by value, so they cannot say which blocks of memory
two tables occupy.  For the statements about storage the same functions are embedded once
more over an explicit memory: a table is a pointer, the chains are items linked by their
`next` pointers, and `malloc`, `free` and every store through a pointer act on one shared
memory.  `represents` ties the two embeddings together.

* An address is a natural number; `malloc` hands out the next address that was never used,
  so a freed address is not reused (any allocator returns a block that overlaps no live
  block, which is all that the statements rest on).
* A key argument (`const char*`) is given as the string it points to: no function stores
  into the buffer it is passed, and `alloc_item` copies the bytes into the buffer it has
  allocated.
* The C loops that follow `next` pointers are given as many steps as the memory has
  addresses; on a chain of distinct live items they end before that (`find_walk_heap_eq`,
  `chain_length_lt`).
* Dereferencing a pointer that does not point to a block of the expected kind has no
  defined behaviour; the functions then stop without a store. -/

/-- One block of allocated memory, by what the code keeps in it: a `hash_table` struct
(`size` and the pointer `buckets`), the bucket array (one head pointer per bucket), a
`hash_table_item` (`value`, the pointer `key`, the pointer `next`), or a key buffer (the
bytes before the terminating NUL).  A pointer is the address of a block, `none` when it is
null. -/
inductive block where
  | table (size : Nat) (buckets : Nat)
  | array (heads : List (Option Nat))
  | node (value : item_type) (key : Nat) (next : Option Nat)
  | chars (bytes : Key)
deriving DecidableEq, Repr

/-- The memory of the allocator: the block at each address, `none` once it is freed.  -/
abbrev heap := List (Option block)

/-- The block at an address, `none` if there is no live block there. -/
def heap_read (h : heap) (a : Nat) : Option block := h.getD a none

/-- A store into the block at an address: the block now holds `b`. -/
def heap_write (h : heap) (a : Nat) (b : block) : heap := h.set a (some b)

/-- The call `free(p)`: the block at that address is no longer live. -/
def free (h : heap) (a : Nat) : heap := h.set a none

/-- The calls `malloc` and `calloc`: a new block at an address that no block, live or
freed, has had before, holding `b` once the code has filled it. -/
def malloc (h : heap) (b : block) : Nat × heap := (h.length, h ++ [some b])

/-- Value of a `hash_table_item**` in memory: the address of a bucket head
(`&table->buckets[index]`) or of the `next` field of an item (`&item->next`). -/
inductive link where
  | bucket (array : Nat) (index : Nat)
  | next (item : Nat)
deriving DecidableEq, Repr

/-- The load `*prev`: the pointer kept in a link. -/
def load (h : heap) : link → Option Nat
  | link.bucket array index =>
    match heap_read h array with
    | some (block.array heads) => heads.getD index none
    | _ => none
  | link.next item =>
    match heap_read h item with
    | some (block.node _ _ next) => next
    | _ => none

/-- The store `*prev = p` into a link. -/
def store (h : heap) (p : Option Nat) : link → heap
  | link.bucket array index =>
    match heap_read h array with
    | some (block.array heads) => heap_write h array (block.array (heads.set index p))
    | _ => h
  | link.next item =>
    match heap_read h item with
    | some (block.node value key _) => heap_write h item (block.node value key p)
    | _ => h

/-- The string in the key buffer at an address. -/
def string_at (h : heap) (a : Nat) : Key :=
  match heap_read h a with
  | some (block.chars bytes) => bytes
  | _ => []

/-- `relation(item, key)` through the pointer `item`.  (A pointer to anything but an item
has no defined behaviour; the walk of `find` is made to stop there.) -/
def relation_heap (h : heap) (item : Nat) (key : Key) : Bool :=
  match heap_read h item with
  | some (block.node _ item_key _) =>
    strncmp_eq key (string_at h item_key) HASH_TABLE_MAX_KEY_LENGTH
  | _ => true

/-- The loop of `find` from the link `prev` on, for at most `fuel` items. -/
def find_walk_heap (h : heap) (key : Key) : Nat → link → link
  | 0, prev => prev
  | fuel + 1, prev =>
    match load h prev with
    | none => prev
    | some item =>
      if relation_heap h item key then prev else find_walk_heap h key fuel (link.next item)

/-- `find(table, key)` through the pointer `table`.  The loop is given as many steps as
there are addresses: a chain of distinct live items is shorter than that. -/
def find_heap (h : heap) (table : Nat) (key : Key) : link :=
  match heap_read h table with
  | some (block.table size buckets) =>
    find_walk_heap h key h.length (link.bucket buckets (hash key % size))
  | _ => link.bucket table 0

/-- `alloc_item(prev, key, length, value)` in memory: a new item block, a new key buffer
that receives a copy of the key bytes, and the store `*prev = item`. -/
def alloc_item_heap (h : heap) (prev : link) (key : Key) (length : Nat) (value : item_type) :
    Bool × heap :=
  let item := malloc h (block.node 0 0 none)
  let length := length + 1
  let item_key := malloc item.2 (block.chars (strcpy_s length key))
  let h2 := heap_write item_key.2 item.1 (block.node value item_key.1 none)
  (true, store h2 (some item.1) prev)

/-- `hash_table_init(table_addr, size)` in memory: the memory afterwards and the new
content of `*table_addr`. -/
def hash_table_init_heap (h : heap) (table_addr : Option Nat) (size : Nat) :
    heap × Option Nat :=
  if size < 2 then (h, table_addr)
  else
    let table := malloc h (block.table 0 0)
    let buckets := malloc table.2 (block.array (List.replicate size none))
    (heap_write buckets.2 table.1 (block.table size buckets.1), some table.1)

/-- `hash_table_size(table)` through the pointer `table`. -/
def hash_table_size_heap (h : heap) (table : Nat) : Nat :=
  match heap_read h table with
  | some (block.table size _) => size
  | _ => 0

/-- `hash_table_search(table, key, out_value)` through the pointer `table`. -/
def hash_table_search_heap (h : heap) (table : Nat) (key : Key) : Option item_type :=
  match load h (find_heap h table key) with
  | none => none
  | some item =>
    match heap_read h item with
    | some (block.node value _ _) => some value
    | _ => none

/-- `hash_table_insert(table, key, value)` through the pointer `table`: the returned flag
and the memory afterwards. -/
def hash_table_insert_heap (h : heap) (table : Nat) (key : Key) (value : item_type) :
    Bool × heap :=
  let length := strnlen key HASH_TABLE_MAX_KEY_LENGTH
  if length < 1 ∨ char_at key length ≠ 0 then (false, h)
  else
    let prev := find_heap h table key
    match load h prev with
    | some _ => (false, h)
    | none => alloc_item_heap h prev key length value

/-- `hash_table_upsert(table, key, value)` through the pointer `table`. -/
def hash_table_upsert_heap (h : heap) (table : Nat) (key : Key) (value : item_type) :
    Bool × heap :=
  let length := strnlen key HASH_TABLE_MAX_KEY_LENGTH
  if length < 1 ∨ char_at key length ≠ 0 then (false, h)
  else
    let prev := find_heap h table key
    match load h prev with
    | some item =>
      match heap_read h item with
      | some (block.node _ item_key next) =>
        (true, heap_write h item (block.node value item_key next))
      | _ => (true, h)
    | none => alloc_item_heap h prev key length value

/-- `hash_table_delete(table, key)` through the pointer `table`: `*prev = item->next`,
`free(item->key)`, `free(item)`. -/
def hash_table_delete_heap (h : heap) (table : Nat) (key : Key) : Bool × heap :=
  let prev := find_heap h table key
  match load h prev with
  | none => (false, h)
  | some item =>
    match heap_read h item with
    | some (block.node _ item_key next) => (true, free (free (store h next prev) item_key) item)
    | _ => (true, h)

/-- The inner loop of `hash_table_clean` on one chain, for at most `fuel` items. -/
def clean_chain_heap : Nat → heap → Option Nat → heap
  | 0, h, _ => h
  | _ + 1, h, none => h
  | fuel + 1, h, some item =>
    match heap_read h item with
    | some (block.node _ item_key next) =>
      clean_chain_heap fuel (free (free h item_key) item) next
    | _ => h

/-- `hash_table_clean(table)` through the pointer `table`. -/
def hash_table_clean_heap (h : heap) (table : Nat) : heap :=
  match heap_read h table with
  | some (block.table size buckets) =>
    (List.range size).foldl
      (fun h i => clean_chain_heap h.length h (load h (link.bucket buckets i))) h
  | _ => h

/-- `hash_table_close(table)` through the pointer `table`. -/
def hash_table_close_heap (h : heap) (table : Nat) : heap :=
  let h1 := hash_table_clean_heap h table
  match heap_read h1 table with
  | some (block.table _ buckets) => free (free h1 buckets) table
  | _ => h1

/-- The inner loop of `hash_table_copy` on one chain of the source, for at most `fuel`
items: `fn(dest, item->key, item->value)`, then `item = item->next` read after the call. -/
def copy_chain_heap (fn : heap → Nat → Key → item_type → Bool × heap) (dest : Nat) :
    Nat → heap → Option Nat → Bool × heap
  | 0, h, _ => (true, h)
  | _ + 1, h, none => (true, h)
  | fuel + 1, h, some item =>
    match heap_read h item with
    | some (block.node value item_key _) =>
      let r := fn h dest (string_at h item_key) value
      if r.1 = false then (false, r.2)
      else
        match heap_read r.2 item with
        | some (block.node _ _ next) => copy_chain_heap fn dest fuel r.2 next
        | _ => (true, r.2)
    | _ => (true, h)

/-- The outer loop of `hash_table_copy` over the bucket indices still to visit. -/
def copy_buckets_heap (fn : heap → Nat → Key → item_type → Bool × heap) (dest buckets : Nat) :
    List Nat → heap → Bool × heap
  | [], h => (true, h)
  | i :: rest, h =>
    let r := copy_chain_heap fn dest h.length h (load h (link.bucket buckets i))
    if r.1 = false then r else copy_buckets_heap fn dest buckets rest r.2

/-- `hash_table_copy(dest, source, overwrite)` through the pointers `dest` and `source`.
The fields of `*source` are read once: no function stores into a table struct after
`hash_table_init`. -/
def hash_table_copy_heap (h : heap) (dest source : Nat) (overwrite : Bool) : Bool × heap :=
  let fn := if overwrite then hash_table_upsert_heap else hash_table_insert_heap
  match heap_read h source with
  | some (block.table size buckets) => copy_buckets_heap fn dest buckets (List.range size) h
  | _ => (false, h)

/-- `hash_table_clone(dest_addr, source)` through the pointer `source`: the memory
afterwards and the new content of `*dest_addr`.  `table` is the (indeterminate) initial
value of the local variable of that name. -/
def hash_table_clone_heap (h : heap) (dest_addr : Option Nat) (source : Nat)
    (table : Option Nat) : heap × Option Nat :=
  let r := hash_table_init_heap h table (hash_table_size_heap h source)
  match r.2 with
  | none => (r.1, dest_addr)
  | some table =>
    let c := hash_table_copy_heap r.1 table source false
    if c.1 = false then (hash_table_close_heap c.2 table, dest_addr) else (c.2, some table)

/-- `hash_table_resize(table_addr, size)` in memory: the memory afterwards and the new
content of `*table_addr`, given its content `old_table` before the call.  `new_table` is
the (indeterminate) initial value of the local variable of that name; it may be any
pointer, also `old_table` itself. -/
def hash_table_resize_heap (h : heap) (old_table : Nat) (size : Nat) (new_table : Option Nat) :
    heap × Nat :=
  let r := hash_table_init_heap h new_table size
  match r.2 with
  | none => (r.1, old_table)
  | some new_table =>
    let c := hash_table_copy_heap r.1 new_table old_table false
    if c.1 = false then (hash_table_close_heap c.2 new_table, old_table)
    else (hash_table_close_heap c.2 old_table, new_table)

/-- Where the blocks of one table are: the table struct, the bucket array, and for every
bucket the items of its chain in order, each with the address of its key buffer. -/
structure layout where
  table : Nat
  buckets : Nat
  chains : List (List (Nat × Nat))
deriving DecidableEq, Repr

/-- The addresses of the blocks of one chain: every item and its key buffer. -/
def chain_blocks : List (Nat × Nat) → List Nat
  | [] => []
  | a :: chain => a.1 :: a.2 :: chain_blocks chain

/-- The addresses of all blocks of a table. -/
def layout.blocks (l : layout) : List Nat :=
  l.table :: l.buckets :: (l.chains.map chain_blocks).flatten

/-- The link reached from `prev` after following `n` items of a chain. -/
def link_after (prev : link) : List (Nat × Nat) → Nat → link
  | [], _ => prev
  | _ :: _, 0 => prev
  | p :: chain, n + 1 => link_after (link.next p.1) chain n

/-- The pointer `p` heads, in the memory `h`, a chain whose items sit at the addresses
`chain` and hold the entries `items`, in order, each with its key in its own buffer, the
last with a null `next`. -/
def chain_rep (h : heap) : Option Nat → List (Nat × Nat) → List hash_table_item → Prop
  | p, [], [] => p = none
  | p, a :: chain, item :: items =>
    p = some a.1 ∧ item.freed = false ∧ heap_read h a.2 = some (block.chars item.key) ∧
    ∃ next, heap_read h a.1 = some (block.node item.value a.2 next) ∧
      chain_rep h next chain items
  | _, _ :: _, [] => False
  | _, [], _ :: _ => False

/-- The memory `h` holds, in the blocks of `l`, pairwise distinct, a table with the content
`m`: the struct at `l.table` has `m.size` and points to the array at `l.buckets`, whose
`i`-th head starts the chain of the `i`-th bucket of `m`. -/
def represents (h : heap) (l : layout) (m : hash_table) : Prop :=
  l.blocks.Nodup ∧
  heap_read h l.table = some (block.table m.size l.buckets) ∧
  l.chains.length = m.size ∧ m.buckets.length = m.size ∧
  ∃ heads, heap_read h l.buckets = some (block.array heads) ∧ heads.length = m.size ∧
    ∀ i < m.size, chain_rep h (heads.getD i none) (l.chains.getD i []) (bucket_at m i)

/-- The address of the block that holds a link. -/
def link_cell : link → Nat
  | link.bucket array _ => array
  | link.next item => item

/-- A memory that holds one table of 2 buckets: `"k0"` with value 7 and `"k2"` with value 9
in the chain of bucket 0, `"k1"` with value 8 in the chain of bucket 1. -/
def sample_heap : heap :=
  [some (block.table 2 1), some (block.array [some 2, some 4]),
   some (block.node 7 3 (some 6)), some (block.chars [107, 48]),
   some (block.node 8 5 none), some (block.chars [107, 49]),
   some (block.node 9 7 none), some (block.chars [107, 50])]

/-- Where the blocks of the table in `sample_heap` are. -/
def sample_layout : layout :=
  { table := 0, buckets := 1, chains := [[(2, 3), (6, 7)], [(4, 5)]] }

/-- What the table in `sample_heap` holds. -/
def sample_content : hash_table :=
  { size := 2,
    buckets := [[⟨7, [107, 48], false⟩, ⟨9, [107, 50], false⟩], [⟨8, [107, 49], false⟩]] }

/-! ## Strings and chains -/

theorem strncmp_eq_iff (s1 s2 : Key) (n : Nat) :
    strncmp_eq s1 s2 n = true ↔ s1.take n = s2.take n := by
  induction n generalizing s1 s2 with
  | zero => simp [strncmp_eq]
  | succ n ih =>
    cases s1 with
    | nil => cases s2 <;> simp [strncmp_eq]
    | cons a s1 =>
      cases s2 with
      | nil => simp [strncmp_eq]
      | cons b s2 =>
        by_cases hab : a = b
        · simp [strncmp_eq, hab, ih]
        · simp [strncmp_eq, hab]

theorem relation_iff (item : hash_table_item) (key : Key) :
    relation item key = true ↔
      key.take HASH_TABLE_MAX_KEY_LENGTH = item.key.take HASH_TABLE_MAX_KEY_LENGTH := by
  unfold relation
  exact strncmp_eq_iff _ _ _

theorem relation_iff_eq (item : hash_table_item) (key : Key)
    (hi : item.key.length ≤ HASH_TABLE_MAX_KEY_LENGTH)
    (hk : key.length ≤ HASH_TABLE_MAX_KEY_LENGTH) :
    relation item key = true ↔ item.key = key := by
  rw [relation_iff, List.take_of_length_le hi, List.take_of_length_le hk]
  exact eq_comm

theorem relation_self (item : hash_table_item) : relation item item.key = true := by
  rw [relation_iff]

/-- What the walk of `find` sees: either no item of the chain is related to the key and
the walk stops at the end, or the chain splits at the first related item. -/
theorem find_walk_cases (key : Key) (chain : List hash_table_item) :
    (find_walk key chain = chain.length ∧ ∀ x ∈ chain, relation x key = false) ∨
    ∃ pre item post, chain = pre ++ item :: post ∧ find_walk key chain = pre.length ∧
      relation item key = true ∧ ∀ x ∈ pre, relation x key = false := by
  induction chain with
  | nil => left; simp [find_walk]
  | cons a rest ih =>
    by_cases ha : relation a key = true
    · right
      exact ⟨[], a, rest, by simp, by simp [find_walk, ha], ha, by simp⟩
    · have ha' : relation a key = false := by simpa using ha
      rcases ih with ⟨h1, h2⟩ | ⟨pre, item, post, h1, h2, h3, h4⟩
      · left
        refine ⟨by simp [find_walk, ha', h1], ?_⟩
        intro x hx
        rcases List.mem_cons.mp hx with rfl | hx
        · exact ha'
        · exact h2 x hx
      · right
        refine ⟨a :: pre, item, post, by simp [h1], by simp [find_walk, ha', h2], h3, ?_⟩
        intro x hx
        rcases List.mem_cons.mp hx with rfl | hx
        · exact ha'
        · exact h4 x hx

theorem get?_find_walk (key : Key) (chain : List hash_table_item) :
    chain.get? (find_walk key chain) = chain.find? (fun item => relation item key) := by
  induction chain with
  | nil => simp [find_walk]
  | cons a rest ih =>
    by_cases ha : relation a key = true
    · simp [find_walk, ha]
    · have ha' : relation a key = false := by simpa using ha
      simp only [find_walk, ha', Bool.false_eq_true, if_false, List.get?_cons_succ, ih]
      simp [List.find?_cons, ha']

/-! ## Slots, buckets and the key check -/

theorem bucket_at_set (table : hash_table) (i j : Nat) (chain : List hash_table_item)
    (hi : i < table.buckets.length) :
    bucket_at { table with buckets := table.buckets.set i chain } j =
      if j = i then chain else bucket_at table j := by
  unfold bucket_at
  simp only [List.getD_eq_getElem?_getD, List.getElem?_set]
  by_cases hji : j = i
  · subst hji; simp [hi]
  · have hij : ¬ i = j := fun h => hji h.symm
    simp [hji, hij]

theorem slot_get_find (table : hash_table) (key : Key) :
    slot_get table (find table key) =
      (bucket_at table (hash key % table.size)).find? (fun item => relation item key) := by
  unfold slot_get find
  exact get?_find_walk _ _

theorem hash_table_search_eq (table : hash_table) (key : Key) :
    hash_table_search table key =
      ((bucket_at table (hash key % table.size)).find? (fun item => relation item key)).map
        (fun item => item.value) := by
  unfold hash_table_search
  rw [slot_get_find]
  cases (bucket_at table (hash key % table.size)).find? (fun item => relation item key) <;> rfl

theorem search_eq_none_iff (table : hash_table) (key : Key) :
    hash_table_search table key = none ↔ slot_get table (find table key) = none := by
  unfold hash_table_search
  cases slot_get table (find table key) <;> simp

theorem key_check_of_valid (key : Key) (h : valid_key key) :
    ¬ (strnlen key HASH_TABLE_MAX_KEY_LENGTH < 1 ∨
        char_at key (strnlen key HASH_TABLE_MAX_KEY_LENGTH) ≠ 0) := by
  obtain ⟨h1, h2⟩ := h
  have hlen : strnlen key HASH_TABLE_MAX_KEY_LENGTH = key.length := by
    unfold strnlen; omega
  have hc : char_at key key.length = 0 := by
    unfold char_at
    simp [List.getD_eq_getElem?_getD]
  rw [hlen, hc]
  intro h
  rcases h with h | h
  · omega
  · exact h rfl

theorem key_check_of_invalid (key : Key) (h0 : c_string key) (h : ¬ valid_key key) :
    strnlen key HASH_TABLE_MAX_KEY_LENGTH < 1 ∨
      char_at key (strnlen key HASH_TABLE_MAX_KEY_LENGTH) ≠ 0 := by
  unfold valid_key at h
  by_cases hz : key.length < 1
  · left; unfold strnlen; omega
  · right
    have hlong : HASH_TABLE_MAX_KEY_LENGTH < key.length := by omega
    have hlen : strnlen key HASH_TABLE_MAX_KEY_LENGTH = HASH_TABLE_MAX_KEY_LENGTH := by
      unfold strnlen; omega
    rw [hlen]
    unfold char_at
    rw [List.getD_eq_getElem?_getD, List.getElem?_eq_getElem hlong]
    exact h0 _ (List.getElem_mem _)

theorem strnlen_of_valid (key : Key) (h : valid_key key) :
    strnlen key HASH_TABLE_MAX_KEY_LENGTH = key.length := by
  unfold strnlen; unfold valid_key at h; omega

/-! ## The single-key operations, case by case -/

theorem insert_of_invalid (table : hash_table) (key : Key) (value : item_type)
    (h0 : c_string key) (h : ¬ valid_key key) :
    hash_table_insert table key value = (false, table) := by
  unfold hash_table_insert
  simp only [if_pos (key_check_of_invalid key h0 h)]

theorem insert_of_found (table : hash_table) (key : Key) (value : item_type)
    (h : hash_table_search table key ≠ none) :
    hash_table_insert table key value = (false, table) := by
  rw [Ne, search_eq_none_iff] at h
  unfold hash_table_insert
  by_cases hc : strnlen key HASH_TABLE_MAX_KEY_LENGTH < 1 ∨
      char_at key (strnlen key HASH_TABLE_MAX_KEY_LENGTH) ≠ 0
  · simp only [if_pos hc]
  · simp only [if_neg hc]
    cases hs : slot_get table (find table key) with
    | none => exact absurd hs h
    | some item => rfl

theorem insert_of_absent (table : hash_table) (key : Key) (value : item_type)
    (hk : valid_key key) (h : hash_table_search table key = none) :
    hash_table_insert table key value =
      (true, { table with
        buckets := table.buckets.set (hash key % table.size)
          (bucket_at table (hash key % table.size) ++ [new_item key value]) }) := by
  rw [search_eq_none_iff] at h
  unfold hash_table_insert
  simp only [if_neg (key_check_of_valid key hk), h]
  have hpos : (find table key).pos = (bucket_at table (hash key % table.size)).length := by
    have h' := h
    unfold slot_get at h'
    rw [List.get?_eq_none] at h'
    rcases find_walk_cases key (bucket_at table (hash key % table.size)) with ⟨h1, _⟩ |
      ⟨pre, item, post, h1, h2, _, _⟩
    · exact h1
    · exfalso
      have : (find table key).pos = pre.length := h2
      have hl : (bucket_at table (find table key).index).length = pre.length + (post.length + 1) := by
        show (bucket_at table (hash key % table.size)).length = _
        rw [h1]; simp
      omega
  unfold alloc_item slot_set
  have hidx : (find table key).index = hash key % table.size := rfl
  rw [hidx, hpos, List.take_length, strnlen_of_valid key hk]
  unfold strcpy_s new_item
  simp

/-! ## Well-formed tables: membership and lookup -/

theorem mem_items (table : hash_table) (item : hash_table_item) :
    item ∈ items table ↔ ∃ i < table.size, item ∈ bucket_at table i := by
  unfold items
  simp only [List.mem_flatten, List.mem_map, List.mem_range]
  constructor
  · rintro ⟨l, ⟨i, hi, rfl⟩, h⟩
    exact ⟨i, hi, h⟩
  · rintro ⟨i, hi, h⟩
    exact ⟨_, ⟨i, hi, rfl⟩, h⟩

theorem present_iff (table : hash_table) (key : Key) :
    present table key ↔ ∃ i < table.size, ∃ item ∈ bucket_at table i, item.key = key := by
  unfold present keys
  simp only [List.mem_map, mem_items]
  constructor
  · rintro ⟨item, ⟨i, hi, h⟩, rfl⟩
    exact ⟨i, hi, item, h, rfl⟩
  · rintro ⟨i, hi, item, h, rfl⟩
    exact ⟨item, ⟨i, hi, h⟩, rfl⟩

theorem index_lt (table : hash_table) (h : well_formed table) (key : Key) :
    hash key % table.size < table.size :=
  Nat.mod_lt _ (by have := h.1; omega)

theorem index_lt_length (table : hash_table) (h : well_formed table) (key : Key) :
    hash key % table.size < table.buckets.length := by
  rw [h.2.1]; exact index_lt table h key

/-- In a well-formed table the comparison of `find` is equality of keys. -/
theorem relation_iff_of_wf (table : hash_table) (h : well_formed table) (key : Key)
    (hk : valid_key key) (item : hash_table_item)
    (hi : item ∈ bucket_at table (hash key % table.size)) :
    relation item key = true ↔ item.key = key :=
  relation_iff_eq item key
    ((h.2.2 _ (index_lt table h key)).2 item hi).1.2 hk.2

theorem search_none_iff_not_present (table : hash_table) (h : well_formed table) (key : Key)
    (hk : valid_key key) : hash_table_search table key = none ↔ ¬ present table key := by
  rw [hash_table_search_eq, Option.map_eq_none', List.find?_eq_none, present_iff]
  constructor
  · rintro hnone ⟨i, hi, item, hmem, hkey⟩
    have hidx : hash key % table.size = i := by
      have := ((h.2.2 i hi).2 item hmem).2.1
      rw [hkey] at this; exact this
    rw [← hidx] at hmem
    exact hnone item hmem ((relation_iff_of_wf table h key hk item hmem).mpr hkey)
  · intro hnp item hmem hrel
    exact hnp ⟨_, index_lt table h key, item, hmem,
      (relation_iff_of_wf table h key hk item hmem).mp hrel⟩

theorem search_after_insert (table : hash_table) (h : well_formed table) (key : Key)
    (value : item_type) (hk : valid_key key) (habs : hash_table_search table key = none) :
    hash_table_search (hash_table_insert table key value).2 key = some value := by
  rw [insert_of_absent table key value hk habs, hash_table_search_eq]
  rw [hash_table_search_eq, Option.map_eq_none'] at habs
  have hrel : relation (new_item key value) key = true := relation_self (new_item key value)
  have hfind : List.find? (fun item => relation item key) [new_item key value] =
      some (new_item key value) := by
    simp [List.find?_cons, hrel]
  simp only [bucket_at_set table _ _ _ (index_lt_length table h key), if_true,
    List.find?_append, habs, Option.none_or, hfind, Option.map_some']
  rfl

/-! ## Insert -/

/-- C1: in a well-formed table, inserting a key of length 1..50 that no entry has returns
true, and a search for the key afterwards returns true with the inserted value. -/
theorem insert_absent_then_search (table : hash_table) (key : Key) (value : item_type)
    (hwf : well_formed table) (hk : valid_key key) (habs : ¬ present table key) :
    (hash_table_insert table key value).1 = true ∧
    hash_table_search (hash_table_insert table key value).2 key = some value := by
  have hnone := (search_none_iff_not_present table hwf key hk).mpr habs
  refine ⟨?_, search_after_insert table hwf key value hk hnone⟩
  rw [insert_of_absent table key value hk hnone]

theorem insert_absent_then_search_witness :
    (hash_table_insert ⟨2, [[], []]⟩ [107, 48] 7).1 = true ∧
    hash_table_search (hash_table_insert ⟨2, [[], []]⟩ [107, 48] 7).2 [107, 48] = some 7 :=
  insert_absent_then_search ⟨2, [[], []]⟩ [107, 48] 7 (by decide) (by decide) (by decide)

/-- C2: after a successful insert of a valid key, a second insert of the same key returns
false and leaves the table as it was, and a search still returns the first value. -/
theorem insert_existing_key_fails (table : hash_table) (key : Key) (v v2 : item_type)
    (hwf : well_formed table) (hk : valid_key key)
    (hins : (hash_table_insert table key v).1 = true) :
    hash_table_insert (hash_table_insert table key v).2 key v2 =
      (false, (hash_table_insert table key v).2) ∧
    hash_table_search (hash_table_insert (hash_table_insert table key v).2 key v2).2 key =
      some v := by
  have hnone : hash_table_search table key = none := by
    by_contra hne
    rw [insert_of_found table key v hne] at hins
    exact Bool.false_ne_true hins
  have hs := search_after_insert table hwf key v hk hnone
  have hfail : hash_table_insert (hash_table_insert table key v).2 key v2 =
      (false, (hash_table_insert table key v).2) :=
    insert_of_found _ key v2 (by rw [hs]; exact Option.some_ne_none v)
  exact ⟨hfail, by rw [hfail]; exact hs⟩

theorem insert_existing_key_fails_witness :
    hash_table_insert (hash_table_insert ⟨2, [[], []]⟩ [107, 48] 7).2 [107, 48] 9 =
      (false, (hash_table_insert ⟨2, [[], []]⟩ [107, 48] 7).2) ∧
    hash_table_search
      (hash_table_insert (hash_table_insert ⟨2, [[], []]⟩ [107, 48] 7).2 [107, 48] 9).2
      [107, 48] = some 7 :=
  insert_existing_key_fails ⟨2, [[], []]⟩ [107, 48] 7 9 (by decide) (by decide) (by decide)

/-- C3: for a key (a string of non-zero bytes) that no entry of the table has, insert
returns false exactly when the length of the key is outside [1, 50], and a rejected key
leaves the table unchanged. -/
theorem insert_rejects_exactly_bad_lengths (table : hash_table) (key : Key) (value : item_type)
    (hwf : well_formed table) (h0 : c_string key) (habs : ¬ present table key) :
    ((hash_table_insert table key value).1 = false ↔
      (key.length < 1 ∨ HASH_TABLE_MAX_KEY_LENGTH < key.length)) ∧
    ((key.length < 1 ∨ HASH_TABLE_MAX_KEY_LENGTH < key.length) →
      (hash_table_insert table key value).2 = table) := by
  have hiff : ¬ valid_key key ↔ (key.length < 1 ∨ HASH_TABLE_MAX_KEY_LENGTH < key.length) := by
    unfold valid_key; omega
  constructor
  · constructor
    · intro hfalse
      by_contra hlen
      have hk : valid_key key := by
        by_contra hnv; exact hlen (hiff.mp hnv)
      have hnone := (search_none_iff_not_present table hwf key hk).mpr habs
      rw [insert_of_absent table key value hk hnone] at hfalse
      exact Bool.false_ne_true hfalse.symm
    · intro hlen
      rw [insert_of_invalid table key value h0 (hiff.mpr hlen)]
  · intro hlen
    rw [insert_of_invalid table key value h0 (hiff.mpr hlen)]

theorem insert_rejects_exactly_bad_lengths_witness :
    ((hash_table_insert ⟨2, [[], []]⟩ (List.replicate 51 65) 1).1 = false ↔
      ((List.replicate 51 (65 : Int)).length < 1 ∨
        HASH_TABLE_MAX_KEY_LENGTH < (List.replicate 51 (65 : Int)).length)) ∧
    (((List.replicate 51 (65 : Int)).length < 1 ∨
        HASH_TABLE_MAX_KEY_LENGTH < (List.replicate 51 (65 : Int)).length) →
      (hash_table_insert ⟨2, [[], []]⟩ (List.replicate 51 65) 1).2 = ⟨2, [[], []]⟩) :=
  insert_rejects_exactly_bad_lengths ⟨2, [[], []]⟩ (List.replicate 51 65) 1
    (by decide) (by decide) (by decide)

/-! ## Replacing one chain of a well-formed table -/

theorem range_map_bucket_at (table : hash_table) (h : table.buckets.length = table.size) :
    (List.range table.size).map (bucket_at table) = table.buckets := by
  apply List.ext_getElem?
  intro i
  rw [List.getElem?_map]
  by_cases hi : i < table.size
  · have hi' : i < table.buckets.length := by omega
    rw [List.getElem?_range hi]
    simp [bucket_at, List.getD_eq_getElem?_getD, List.getElem?_eq_getElem hi']
  · have hi' : table.buckets.length ≤ i := by omega
    rw [List.getElem?_eq_none hi', List.getElem?_eq_none (by simpa using hi)]
    rfl

theorem items_eq_flatten (table : hash_table) (h : table.buckets.length = table.size) :
    items table = table.buckets.flatten := by
  unfold items
  rw [range_map_bucket_at table h]

theorem buckets_split (table : hash_table) (i : Nat) (hi : i < table.buckets.length) :
    table.buckets = table.buckets.take i ++ bucket_at table i :: table.buckets.drop (i + 1) := by
  have hb : bucket_at table i = table.buckets[i] := by
    simp [bucket_at, List.getD_eq_getElem?_getD, List.getElem?_eq_getElem hi]
  rw [hb, List.getElem_cons_drop _ _ hi, List.take_append_drop]

theorem items_split (table : hash_table) (h : table.buckets.length = table.size) (i : Nat)
    (hi : i < table.size) :
    items table = (table.buckets.take i).flatten ++ bucket_at table i ++
      (table.buckets.drop (i + 1)).flatten := by
  rw [items_eq_flatten table h]
  conv_lhs => rw [buckets_split table i (by omega)]
  simp

theorem items_set (table : hash_table) (h : table.buckets.length = table.size) (i : Nat)
    (hi : i < table.size) (chain : List hash_table_item) :
    items { table with buckets := table.buckets.set i chain } =
      (table.buckets.take i).flatten ++ chain ++ (table.buckets.drop (i + 1)).flatten := by
  rw [items_eq_flatten _ (by simp [h])]
  show (table.buckets.set i chain).flatten = _
  rw [List.set_eq_take_append_cons_drop, if_pos (by omega)]
  simp

theorem well_formed_set (table : hash_table) (h : well_formed table) (i : Nat)
    (hi : i < table.size) (chain : List hash_table_item)
    (hnodup : (chain.map (fun item => item.key)).Nodup)
    (hitems : ∀ item ∈ chain,
      valid_key item.key ∧ hash item.key % table.size = i ∧ item.freed = false) :
    well_formed { table with buckets := table.buckets.set i chain } := by
  obtain ⟨h2, hlen, hall⟩ := h
  refine ⟨h2, by simp [hlen], ?_⟩
  intro j hj
  rw [bucket_at_set table i j chain (by omega)]
  by_cases hji : j = i
  · subst hji
    simp only [if_true]
    exact ⟨hnodup, hitems⟩
  · simp only [if_neg hji]
    exact hall j hj

/-! ## The entry `find` stops at -/

/-- When `find` returns a slot holding an item, the chain splits there: nothing before the
item is related to the key, and the item is. -/
theorem found_split (table : hash_table) (key : Key) (item : hash_table_item)
    (h : slot_get table (find table key) = some item) :
    ∃ pre post, bucket_at table (hash key % table.size) = pre ++ item :: post ∧
      (find table key).pos = pre.length ∧ relation item key = true ∧
      ∀ x ∈ pre, relation x key = false := by
  have hidx : (find table key).index = hash key % table.size := rfl
  have hpos : (find table key).pos = find_walk key (bucket_at table (hash key % table.size)) :=
    rfl
  unfold slot_get at h
  rw [hidx, hpos] at h
  rcases find_walk_cases key (bucket_at table (hash key % table.size)) with ⟨h1, _⟩ |
    ⟨pre, it, post, h1, h2, h3, h4⟩
  · rw [h1, List.get?_eq_none.mpr (Nat.le_refl _)] at h
    exact absurd h (by simp)
  · rw [h2] at h
    conv at h => lhs; rw [h1]
    have hit : it = item := by
      rw [List.get?_eq_getElem?, List.getElem?_append_right (Nat.le_refl _)] at h
      simpa using h
    subst hit
    exact ⟨pre, post, h1, by rw [hpos, h2], h3, h4⟩

theorem slot_write_found (table : hash_table) (key : Key) (pre post : List hash_table_item)
    (item item2 : hash_table_item)
    (hsplit : bucket_at table (hash key % table.size) = pre ++ item :: post)
    (hpos : (find table key).pos = pre.length) :
    slot_write table (find table key) item2 =
      { table with
        buckets := table.buckets.set (hash key % table.size) (pre ++ item2 :: post) } := by
  have hidx : (find table key).index = hash key % table.size := rfl
  unfold slot_write
  rw [hidx, hpos, hsplit]
  simp

theorem slot_set_found (table : hash_table) (key : Key) (pre post : List hash_table_item)
    (item : hash_table_item)
    (hsplit : bucket_at table (hash key % table.size) = pre ++ item :: post)
    (hpos : (find table key).pos = pre.length) :
    slot_set table (find table key)
        ((bucket_at table (find table key).index).drop ((find table key).pos + 1)) =
      { table with buckets := table.buckets.set (hash key % table.size) (pre ++ post) } := by
  have hidx : (find table key).index = hash key % table.size := rfl
  unfold slot_set
  rw [hidx, hpos, hsplit]
  simp

theorem update_of_found (table : hash_table) (key : Key) (value : item_type)
    (item : hash_table_item) (h : slot_get table (find table key) = some item) :
    hash_table_update table key value =
      (true, slot_write table (find table key) { item with value := value }) := by
  unfold hash_table_update
  simp only [h]

theorem update_of_absent (table : hash_table) (key : Key) (value : item_type)
    (h : hash_table_search table key = none) :
    hash_table_update table key value = (false, table) := by
  rw [search_eq_none_iff] at h
  unfold hash_table_update
  simp only [h]

theorem upsert_of_found (table : hash_table) (key : Key) (value : item_type)
    (hk : valid_key key) (item : hash_table_item)
    (h : slot_get table (find table key) = some item) :
    hash_table_upsert table key value =
      (true, slot_write table (find table key) { item with value := value }) := by
  unfold hash_table_upsert
  simp only [if_neg (key_check_of_valid key hk), h]

theorem upsert_of_absent (table : hash_table) (key : Key) (value : item_type)
    (hk : valid_key key) (h : hash_table_search table key = none) :
    hash_table_upsert table key value = hash_table_insert table key value := by
  rw [search_eq_none_iff] at h
  unfold hash_table_upsert hash_table_insert
  simp only [if_neg (key_check_of_valid key hk), h]

theorem upsert_of_invalid (table : hash_table) (key : Key) (value : item_type)
    (h0 : c_string key) (h : ¬ valid_key key) :
    hash_table_upsert table key value = (false, table) := by
  unfold hash_table_upsert
  simp only [if_pos (key_check_of_invalid key h0 h)]

theorem delete_of_found (table : hash_table) (key : Key) (item : hash_table_item)
    (h : slot_get table (find table key) = some item) :
    hash_table_delete table key =
      (true, slot_set table (find table key)
        ((bucket_at table (find table key).index).drop ((find table key).pos + 1))) := by
  unfold hash_table_delete
  simp only [h]

theorem delete_of_absent (table : hash_table) (key : Key)
    (h : hash_table_search table key = none) :
    hash_table_delete table key = (false, table) := by
  rw [search_eq_none_iff] at h
  unfold hash_table_delete
  simp only [h]

/-- The search result read off the chain that `find` walks. -/
theorem search_of_split (table : hash_table) (key : Key) (pre post : List hash_table_item)
    (item : hash_table_item)
    (hsplit : bucket_at table (hash key % table.size) = pre ++ item :: post)
    (hrel : relation item key = true) (hpre : ∀ x ∈ pre, relation x key = false) :
    hash_table_search table key = some item.value := by
  rw [hash_table_search_eq, hsplit, List.find?_append]
  have h1 : List.find? (fun item => relation item key) pre = none := by
    rw [List.find?_eq_none]
    intro x hx
    simp [hpre x hx]
  rw [h1, Option.none_or, List.find?_cons_of_pos _ (by simpa using hrel)]
  rfl

/-! ## Well-formedness is preserved -/

theorem well_formed_insert_valid (table : hash_table) (key : Key) (value : item_type)
    (h : well_formed table) (hk : valid_key key) :
    well_formed (hash_table_insert table key value).2 := by
  by_cases hs : hash_table_search table key = none
  · rw [insert_of_absent table key value hk hs]
    have hchain := h.2.2 _ (index_lt table h key)
    rw [hash_table_search_eq, Option.map_eq_none', List.find?_eq_none] at hs
    apply well_formed_set table h _ (index_lt table h key)
    · rw [List.map_append, List.nodup_append]
      refine ⟨hchain.1, by simp, ?_⟩
      intro a ha hb
      simp only [List.map_cons, List.map_nil, List.mem_singleton, new_item] at hb
      obtain ⟨x, hx, hxa⟩ := List.mem_map.mp ha
      have hrel : relation x key = true := by
        have : x.key = key := by rw [hxa, hb]
        rw [← this]; exact relation_self x
      exact hs x hx hrel
    · intro item hitem
      rcases List.mem_append.mp hitem with hitem | hitem
      · exact hchain.2 item hitem
      · simp only [List.mem_singleton] at hitem
        subst hitem
        exact ⟨hk, rfl, rfl⟩
  · rw [insert_of_found table key value hs]
    exact h

theorem well_formed_write (table : hash_table) (key : Key) (value : item_type)
    (h : well_formed table) (item : hash_table_item)
    (hf : slot_get table (find table key) = some item) :
    well_formed (slot_write table (find table key) { item with value := value }) := by
  obtain ⟨pre, post, hsplit, hpos, _, _⟩ := found_split table key item hf
  rw [slot_write_found table key pre post item _ hsplit hpos]
  have hchain := h.2.2 _ (index_lt table h key)
  rw [hsplit] at hchain
  apply well_formed_set table h _ (index_lt table h key)
  · simpa using hchain.1
  · intro x hx
    rcases List.mem_append.mp hx with hx | hx
    · exact hchain.2 x (List.mem_append_left _ hx)
    · rcases List.mem_cons.mp hx with rfl | hx
      · exact hchain.2 item (List.mem_append_right _ (List.mem_cons_self _ _))
      · exact hchain.2 x (List.mem_append_right _ (List.mem_cons_of_mem _ hx))

theorem well_formed_update (table : hash_table) (key : Key) (value : item_type)
    (h : well_formed table) : well_formed (hash_table_update table key value).2 := by
  cases hf : slot_get table (find table key) with
  | none =>
    rw [update_of_absent table key value ((search_eq_none_iff table key).mpr hf)]
    exact h
  | some item =>
    rw [update_of_found table key value item hf]
    exact well_formed_write table key value h item hf

theorem well_formed_upsert_valid (table : hash_table) (key : Key) (value : item_type)
    (h : well_formed table) (hk : valid_key key) :
    well_formed (hash_table_upsert table key value).2 := by
  cases hf : slot_get table (find table key) with
  | none =>
    rw [upsert_of_absent table key value hk ((search_eq_none_iff table key).mpr hf)]
    exact well_formed_insert_valid table key value h hk
  | some item =>
    rw [upsert_of_found table key value hk item hf]
    exact well_formed_write table key value h item hf

theorem well_formed_delete (table : hash_table) (key : Key) (h : well_formed table) :
    well_formed (hash_table_delete table key).2 := by
  cases hf : slot_get table (find table key) with
  | none =>
    rw [delete_of_absent table key ((search_eq_none_iff table key).mpr hf)]
    exact h
  | some item =>
    rw [delete_of_found table key item hf]
    obtain ⟨pre, post, hsplit, hpos, _, _⟩ := found_split table key item hf
    rw [slot_set_found table key pre post item hsplit hpos]
    have hchain := h.2.2 _ (index_lt table h key)
    rw [hsplit] at hchain
    apply well_formed_set table h _ (index_lt table h key)
    · have hsub : List.Sublist (pre ++ post) (pre ++ item :: post) :=
        List.Sublist.append_left (List.sublist_cons_self item post) pre
      exact List.Nodup.sublist (List.Sublist.map _ hsub) hchain.1
    · intro x hx
      rcases List.mem_append.mp hx with hx | hx
      · exact hchain.2 x (List.mem_append_left _ hx)
      · exact hchain.2 x (List.mem_append_right _ (List.mem_cons_of_mem _ hx))

theorem well_formed_insert (table : hash_table) (key : Key) (value : item_type)
    (h : well_formed table) (h0 : c_string key) :
    well_formed (hash_table_insert table key value).2 := by
  by_cases hk : valid_key key
  · exact well_formed_insert_valid table key value h hk
  · rw [insert_of_invalid table key value h0 hk]; exact h

theorem well_formed_upsert (table : hash_table) (key : Key) (value : item_type)
    (h : well_formed table) (h0 : c_string key) :
    well_formed (hash_table_upsert table key value).2 := by
  by_cases hk : valid_key key
  · exact well_formed_upsert_valid table key value h hk
  · rw [upsert_of_invalid table key value h0 hk]; exact h

theorem well_formed_init (table_addr : Option hash_table) (size : Nat) (h : 2 ≤ size) :
    ∃ table, hash_table_init table_addr size = some table ∧ well_formed table ∧
      table.size = size ∧ table.buckets = List.replicate size [] := by
  refine ⟨{ size := size, buckets := List.replicate size [] }, ?_, ?_, rfl, rfl⟩
  · unfold hash_table_init
    rw [if_neg (by omega)]
  · refine ⟨h, by simp, ?_⟩
    intro i hi
    have hb : bucket_at { size := size, buckets := List.replicate size [] } i = [] := by
      simp [bucket_at, List.getD_eq_getElem?_getD, List.getElem?_replicate, hi]
    rw [hb]
    simp

/-! ## Counting -/

theorem count_fold (l : List hash_table_item) (c : Nat) :
    l.foldl (fun count _ => (count + 1) % UINT_MOD) (c % UINT_MOD) =
      (c + l.length) % UINT_MOD := by
  induction l generalizing c with
  | nil => simp
  | cons a l ih =>
    rw [List.foldl_cons, Nat.mod_add_mod, ih (c + 1), List.length_cons]
    congr 1
    omega

theorem hash_table_count_eq (table : hash_table) :
    hash_table_count table = (items table).length % UINT_MOD := by
  unfold hash_table_count
  have h := count_fold (items table) 0
  rw [Nat.zero_mod, Nat.zero_add] at h
  exact h

theorem length_keys (table : hash_table) : (keys table).length = (items table).length := by
  unfold keys; simp

/-! ## Overwriting a value in place -/

theorem search_after_write (table : hash_table) (key : Key) (value : item_type)
    (h : well_formed table) (item : hash_table_item)
    (hf : slot_get table (find table key) = some item) :
    hash_table_search (slot_write table (find table key) { item with value := value }) key =
      some value := by
  obtain ⟨pre, post, hsplit, hpos, hrel, hpre⟩ := found_split table key item hf
  rw [slot_write_found table key pre post item _ hsplit hpos]
  exact search_of_split _ key pre post { item with value := value }
    (by
      show bucket_at _ (hash key % table.size) = _
      rw [bucket_at_set table _ _ _ (index_lt_length table h key), if_pos rfl])
    hrel hpre

theorem keys_after_write (table : hash_table) (key : Key) (value : item_type)
    (h : well_formed table) (item : hash_table_item)
    (hf : slot_get table (find table key) = some item) :
    keys (slot_write table (find table key) { item with value := value }) = keys table := by
  obtain ⟨pre, post, hsplit, hpos, _, _⟩ := found_split table key item hf
  rw [slot_write_found table key pre post item _ hsplit hpos]
  unfold keys
  rw [items_set table h.2.1 _ (index_lt table h key),
    items_split table h.2.1 _ (index_lt table h key), hsplit]
  simp

/-! ## Upsert -/

theorem upsert_returns_true (table : hash_table) (key : Key) (value : item_type)
    (hk : valid_key key) : (hash_table_upsert table key value).1 = true := by
  cases hf : slot_get table (find table key) with
  | none =>
    have hs := (search_eq_none_iff table key).mpr hf
    rw [upsert_of_absent table key value hk hs, insert_of_absent table key value hk hs]
  | some item => rw [upsert_of_found table key value hk item hf]

theorem search_after_upsert (table : hash_table) (key : Key) (value : item_type)
    (h : well_formed table) (hk : valid_key key) :
    hash_table_search (hash_table_upsert table key value).2 key = some value := by
  cases hf : slot_get table (find table key) with
  | none =>
    have hs := (search_eq_none_iff table key).mpr hf
    rw [upsert_of_absent table key value hk hs]
    exact search_after_insert table h key value hk hs
  | some item =>
    rw [upsert_of_found table key value hk item hf]
    exact search_after_write table key value h item hf

theorem keys_after_upsert_found (table : hash_table) (key : Key) (value : item_type)
    (h : well_formed table) (hk : valid_key key)
    (hs : hash_table_search table key ≠ none) :
    keys (hash_table_upsert table key value).2 = keys table := by
  cases hf : slot_get table (find table key) with
  | none => exact absurd ((search_eq_none_iff table key).mpr hf) hs
  | some item =>
    rw [upsert_of_found table key value hk item hf]
    exact keys_after_write table key value h item hf

/-- C4: for a valid key, present or not, in a well-formed table: upsert returns true; a
second upsert of the same key returns true and adds no entry (the stored keys and the
count are the same before and after it); a search then returns the second value. -/
theorem upsert_twice (table : hash_table) (key : Key) (v v2 : item_type)
    (hwf : well_formed table) (hk : valid_key key) :
    (hash_table_upsert table key v).1 = true ∧
    (hash_table_upsert (hash_table_upsert table key v).2 key v2).1 = true ∧
    keys (hash_table_upsert (hash_table_upsert table key v).2 key v2).2 =
      keys (hash_table_upsert table key v).2 ∧
    hash_table_count (hash_table_upsert (hash_table_upsert table key v).2 key v2).2 =
      hash_table_count (hash_table_upsert table key v).2 ∧
    hash_table_search (hash_table_upsert (hash_table_upsert table key v).2 key v2).2 key =
      some v2 := by
  have hwf1 := well_formed_upsert_valid table key v hwf hk
  have hs1 := search_after_upsert table key v hwf hk
  have hkeys := keys_after_upsert_found (hash_table_upsert table key v).2 key v2 hwf1 hk
    (by rw [hs1]; exact Option.some_ne_none v)
  refine ⟨upsert_returns_true table key v hk, upsert_returns_true _ key v2 hk, hkeys, ?_,
    search_after_upsert _ key v2 hwf1 hk⟩
  rw [hash_table_count_eq, hash_table_count_eq, ← length_keys, ← length_keys, hkeys]

theorem upsert_twice_witness :
    (hash_table_upsert ⟨2, [[], []]⟩ [107, 48] 7).1 = true ∧
    (hash_table_upsert (hash_table_upsert ⟨2, [[], []]⟩ [107, 48] 7).2 [107, 48] 9).1 = true ∧
    keys (hash_table_upsert (hash_table_upsert ⟨2, [[], []]⟩ [107, 48] 7).2 [107, 48] 9).2 =
      keys (hash_table_upsert ⟨2, [[], []]⟩ [107, 48] 7).2 ∧
    hash_table_count
        (hash_table_upsert (hash_table_upsert ⟨2, [[], []]⟩ [107, 48] 7).2 [107, 48] 9).2 =
      hash_table_count (hash_table_upsert ⟨2, [[], []]⟩ [107, 48] 7).2 ∧
    hash_table_search
        (hash_table_upsert (hash_table_upsert ⟨2, [[], []]⟩ [107, 48] 7).2 [107, 48] 9).2
        [107, 48] = some 9 :=
  upsert_twice ⟨2, [[], []]⟩ [107, 48] 7 9 (by decide) (by decide)

/-! ## Delete -/

/-- Two stored keys that `find` cannot tell apart for some searched key are equal. -/
theorem key_eq_of_related (x y : hash_table_item) (key : Key)
    (hx : x.key.length ≤ HASH_TABLE_MAX_KEY_LENGTH)
    (hy : y.key.length ≤ HASH_TABLE_MAX_KEY_LENGTH)
    (hrx : relation x key = true) (hry : relation y key = true) : x.key = y.key := by
  rw [relation_iff] at hrx hry
  rw [List.take_of_length_le hx] at hrx
  rw [List.take_of_length_le hy] at hry
  rw [← hrx, ← hry]

theorem search_after_delete (table : hash_table) (key : Key) (h : well_formed table) :
    hash_table_search (hash_table_delete table key).2 key = none := by
  cases hf : slot_get table (find table key) with
  | none =>
    have hs := (search_eq_none_iff table key).mpr hf
    rw [delete_of_absent table key hs]
    exact hs
  | some item =>
    rw [delete_of_found table key item hf]
    obtain ⟨pre, post, hsplit, hpos, hrel, hpre⟩ := found_split table key item hf
    rw [slot_set_found table key pre post item hsplit hpos, hash_table_search_eq,
      Option.map_eq_none', List.find?_eq_none]
    show ∀ x ∈ bucket_at _ (hash key % table.size), _
    rw [bucket_at_set table _ _ _ (index_lt_length table h key), if_pos rfl]
    have hchain := h.2.2 _ (index_lt table h key)
    rw [hsplit] at hchain
    intro x hx hrx
    rcases List.mem_append.mp hx with hx | hx
    · rw [hpre x hx] at hrx
      exact Bool.false_ne_true hrx
    · have hxv := (hchain.2 x (List.mem_append_right _ (List.mem_cons_of_mem _ hx))).1
      have hiv := (hchain.2 item (List.mem_append_right _ (List.mem_cons_self _ _))).1
      have hkey : x.key = item.key := key_eq_of_related x item key hxv.2 hiv.2 hrx hrel
      have hnd := hchain.1
      rw [List.map_append, List.map_cons] at hnd
      have hnd2 := (List.nodup_cons.mp (List.nodup_append.mp hnd).2.1).1
      exact hnd2 (by rw [← hkey]; exact List.mem_map_of_mem _ hx)

theorem delete_returns_true (table : hash_table) (key : Key)
    (hs : hash_table_search table key ≠ none) : (hash_table_delete table key).1 = true := by
  cases hf : slot_get table (find table key) with
  | none => exact absurd ((search_eq_none_iff table key).mpr hf) hs
  | some item => rw [delete_of_found table key item hf]

/-- Delete for keys of 1 to 50 bytes: after a successful insert of a valid key, delete of
that key returns true and a search for it then returns false; and delete of a valid key
that no entry has, or of any key for which a search returns false, returns false and
leaves the table unchanged. -/
theorem delete_after_insert (table : hash_table) (key : Key) (value : item_type)
    (hwf : well_formed table) (hk : valid_key key)
    (hins : (hash_table_insert table key value).1 = true) :
    (hash_table_delete (hash_table_insert table key value).2 key).1 = true ∧
    hash_table_search (hash_table_delete (hash_table_insert table key value).2 key).2 key =
      none ∧
    (∀ k, valid_key k → ¬ present table k → hash_table_delete table k = (false, table)) ∧
    (∀ k, hash_table_search table k = none → hash_table_delete table k = (false, table)) := by
  have hnone : hash_table_search table key = none := by
    by_contra hne
    rw [insert_of_found table key value hne] at hins
    exact Bool.false_ne_true hins
  have hs := search_after_insert table hwf key value hk hnone
  have hwf1 := well_formed_insert_valid table key value hwf hk
  refine ⟨delete_returns_true _ key (by rw [hs]; exact Option.some_ne_none value),
    search_after_delete _ key hwf1, ?_, ?_⟩
  · intro k hkv hab
    exact delete_of_absent table k ((search_none_iff_not_present table hwf k hkv).mpr hab)
  · intro k hsn
    exact delete_of_absent table k hsn

theorem delete_after_insert_witness :
    (hash_table_delete (hash_table_insert ⟨2, [[], []]⟩ [107, 48] 7).2 [107, 48]).1 = true ∧
    hash_table_search
      (hash_table_delete (hash_table_insert ⟨2, [[], []]⟩ [107, 48] 7).2 [107, 48]).2
      [107, 48] = none ∧
    hash_table_delete ⟨2, [[], []]⟩ [107, 49] = (false, ⟨2, [[], []]⟩) :=
  have h := delete_after_insert ⟨2, [[], []]⟩ [107, 48] 7 (by decide) (by decide) (by decide)
  ⟨h.1, h.2.1, h.2.2.1 [107, 49] (by decide) (by decide)⟩

/-- C5 (evaluation): the table reached by inserting the 50-byte key `AA…A` with value 1
into a fresh 2-bucket table holds that one entry; the 51-byte key `AA…AB` is a string that
no entry has, so it is absent; delete with it returns true and unlinks the entry of the
50-byte key, which is not found afterwards. -/
theorem delete_overlong_key_unlinks_entry :
    hash_table_insert ⟨2, [[], []]⟩ (List.replicate 50 65) 1 =
      (true, ⟨2, [[], [⟨1, List.replicate 50 65, false⟩]]⟩) ∧
    well_formed ⟨2, [[], [⟨1, List.replicate 50 65, false⟩]]⟩ ∧
    c_string (List.replicate 50 65 ++ [66]) ∧
    ¬ present ⟨2, [[], [⟨1, List.replicate 50 65, false⟩]]⟩ (List.replicate 50 65 ++ [66]) ∧
    hash_table_search ⟨2, [[], [⟨1, List.replicate 50 65, false⟩]]⟩ (List.replicate 50 65) =
      some 1 ∧
    hash_table_delete ⟨2, [[], [⟨1, List.replicate 50 65, false⟩]]⟩
        (List.replicate 50 65 ++ [66]) = (true, ⟨2, [[], []]⟩) ∧
    hash_table_search ⟨2, [[], []]⟩ (List.replicate 50 65) = none := by
  decide

/-! ## Update -/

theorem set_value_of_key (key : Key) (value : item_type) (item : hash_table_item) :
    (set_value_of key value item).key = item.key := by
  unfold set_value_of
  split <;> rfl

theorem map_set_value_of_eq_self (key : Key) (value : item_type) (l : List hash_table_item)
    (h : ∀ x ∈ l, x.key ≠ key) : l.map (set_value_of key value) = l := by
  induction l with
  | nil => rfl
  | cons a l ih =>
    rw [List.map_cons, ih (fun x hx => h x (List.mem_cons_of_mem _ hx))]
    have ha : set_value_of key value a = a := by
      unfold set_value_of
      rw [if_neg (h a (List.mem_cons_self _ _))]
    rw [ha]

/-- For a valid key, the slot `find` stops at holds the entry with exactly that key, and
no other entry of the chain has it. -/
theorem found_split_valid (table : hash_table) (key : Key) (item : hash_table_item)
    (h : well_formed table) (hk : valid_key key)
    (hf : slot_get table (find table key) = some item) :
    ∃ pre post, bucket_at table (hash key % table.size) = pre ++ item :: post ∧
      (find table key).pos = pre.length ∧ item.key = key ∧
      (∀ x ∈ pre, x.key ≠ key) ∧ ∀ x ∈ post, x.key ≠ key := by
  obtain ⟨pre, post, hsplit, hpos, hrel, _⟩ := found_split table key item hf
  have hchain := h.2.2 _ (index_lt table h key)
  rw [hsplit] at hchain
  have hkey : item.key = key :=
    (relation_iff_eq item key
      (hchain.2 item (List.mem_append_right _ (List.mem_cons_self _ _))).1.2 hk.2).mp hrel
  have hnd := hchain.1
  rw [List.map_append, List.map_cons, hkey] at hnd
  refine ⟨pre, post, hsplit, hpos, hkey, ?_, ?_⟩
  · intro x hx hxk
    exact (List.nodup_append.mp hnd).2.2 (List.mem_map_of_mem _ hx)
      (by rw [hxk]; exact List.mem_cons_self _ _) 
  · intro x hx hxk
    exact (List.nodup_cons.mp (List.nodup_append.mp hnd).2.1).1
      (by rw [← hxk]; exact List.mem_map_of_mem _ hx)

/-- What a successful update of a valid key does to the table: in every chain the entry
with that key, if any, gets the new value and nothing else changes. -/
theorem update_valid_buckets (table : hash_table) (key : Key) (value : item_type)
    (h : well_formed table) (hk : valid_key key) (item : hash_table_item)
    (hf : slot_get table (find table key) = some item) (i : Nat) :
    bucket_at (hash_table_update table key value).2 i =
      (bucket_at table i).map (set_value_of key value) := by
  obtain ⟨pre, post, hsplit, hpos, hkey, hpre, hpost⟩ :=
    found_split_valid table key item h hk hf
  rw [update_of_found table key value item hf,
    slot_write_found table key pre post item _ hsplit hpos,
    bucket_at_set table _ _ _ (index_lt_length table h key)]
  by_cases hi : i = hash key % table.size
  · rw [if_pos hi, hi, hsplit, List.map_append, List.map_cons,
      map_set_value_of_eq_self key value pre hpre,
      map_set_value_of_eq_self key value post hpost]
    unfold set_value_of
    rw [if_pos hkey]
  · rw [if_neg hi]
    symm
    apply map_set_value_of_eq_self
    intro x hx hxk
    by_cases hlt : i < table.size
    · have := ((h.2.2 i hlt).2 x hx).2.1
      rw [hxk] at this
      exact hi this.symm
    · have hnil : bucket_at table i = [] := by
        unfold bucket_at
        rw [List.getD_eq_getElem?_getD, List.getElem?_eq_none (by rw [h.2.1]; omega)]
        rfl
      rw [hnil] at hx
      exact absurd hx (List.not_mem_nil _)

theorem find?_map_set_value_of (key k2 : Key) (value : item_type) (l : List hash_table_item)
    (hl : ∀ x ∈ l, relation x k2 = true → x.key ≠ key) :
    (l.map (set_value_of key value)).find? (fun item => relation item k2) =
      l.find? (fun item => relation item k2) := by
  induction l with
  | nil => rfl
  | cons a l ih =>
    have hrel : relation (set_value_of key value a) k2 = relation a k2 := by
      unfold relation; rw [set_value_of_key]
    rw [List.map_cons, List.find?_cons, List.find?_cons, hrel]
    cases ha : relation a k2 with
    | true =>
      have : set_value_of key value a = a := by
        unfold set_value_of
        rw [if_neg (hl a (List.mem_cons_self _ _) ha)]
      rw [this]
    | false => exact ih (fun x hx => hl x (List.mem_cons_of_mem _ hx))

/-- Update of a valid key in a well-formed table.  If no entry has the key, update
returns false and the table is unchanged.  If an entry has it, update returns true, a
search for the key returns the new value, and the bucket count, the stored keys chain by
chain, the count and the result of a search for any other valid key are unchanged. -/
theorem update_valid_key_frame (table : hash_table) (key : Key) (v2 : item_type)
    (hwf : well_formed table) (hk : valid_key key) :
    (¬ present table key → hash_table_update table key v2 = (false, table)) ∧
    (present table key →
      (hash_table_update table key v2).1 = true ∧
      hash_table_search (hash_table_update table key v2).2 key = some v2 ∧
      hash_table_size (hash_table_update table key v2).2 = hash_table_size table ∧
      (∀ i, bucket_at (hash_table_update table key v2).2 i =
        (bucket_at table i).map (set_value_of key v2)) ∧
      (∀ i, (bucket_at (hash_table_update table key v2).2 i).map (fun item => item.key) =
        (bucket_at table i).map (fun item => item.key)) ∧
      hash_table_count (hash_table_update table key v2).2 = hash_table_count table ∧
      ∀ k2, valid_key k2 → k2 ≠ key →
        hash_table_search (hash_table_update table key v2).2 k2 =
          hash_table_search table k2) := by
  constructor
  · intro hab
    exact update_of_absent table key v2
      ((search_none_iff_not_present table hwf key hk).mpr hab)
  · intro hpr
    have hs : hash_table_search table key ≠ none := fun hn =>
      (search_none_iff_not_present table hwf key hk).mp hn hpr
    cases hf : slot_get table (find table key) with
    | none => exact absurd ((search_eq_none_iff table key).mpr hf) hs
    | some item =>
      have hb := update_valid_buckets table key v2 hwf hk item hf
      have hsize : (hash_table_update table key v2).2.size = table.size := by
        rw [update_of_found table key v2 item hf]; rfl
      have hkeys : keys (hash_table_update table key v2).2 = keys table := by
        rw [update_of_found table key v2 item hf]
        exact keys_after_write table key v2 hwf item hf
      refine ⟨by rw [update_of_found table key v2 item hf], ?_, hsize, hb, ?_, ?_, ?_⟩
      · rw [update_of_found table key v2 item hf]
        exact search_after_write table key v2 hwf item hf
      · intro i
        rw [hb i, List.map_map]
        apply List.map_congr_left
        intro x _
        exact set_value_of_key key v2 x
      · rw [hash_table_count_eq, hash_table_count_eq, ← length_keys, ← length_keys, hkeys]
      · intro k2 hk2 hne
        rw [hash_table_search_eq, hash_table_search_eq, hsize, hb,
          find?_map_set_value_of key k2 v2]
        intro x hx hrel
        rw [(relation_iff_of_wf table hwf k2 hk2 x hx).mp hrel]
        exact hne
/-- C6 (evaluation): a table holding only the 50-byte key `AA…A` with value 1, and the
51-byte key `AA…AB`, which no entry has.  `strncmp` compares 50 bytes, so `find` takes the
stored entry for the 51-byte key: a search for it returns true, and `update` with it returns
true and overwrites the value stored under the 50-byte key. -/
theorem update_overlong_key_overwrites_prefix :
    well_formed ⟨2, [[], [⟨1, List.replicate 50 65, false⟩]]⟩ ∧
    c_string (List.replicate 50 65 ++ [66]) ∧
    ¬ present ⟨2, [[], [⟨1, List.replicate 50 65, false⟩]]⟩ (List.replicate 50 65 ++ [66]) ∧
    hash_table_search ⟨2, [[], [⟨1, List.replicate 50 65, false⟩]]⟩ (List.replicate 50 65) =
      some 1 ∧
    hash_table_search ⟨2, [[], [⟨1, List.replicate 50 65, false⟩]]⟩
      (List.replicate 50 65 ++ [66]) = some 1 ∧
    hash_table_update ⟨2, [[], [⟨1, List.replicate 50 65, false⟩]]⟩
        (List.replicate 50 65 ++ [66]) 9 =
      (true, ⟨2, [[], [⟨9, List.replicate 50 65, false⟩]]⟩) ∧
    hash_table_search ⟨2, [[], [⟨9, List.replicate 50 65, false⟩]]⟩ (List.replicate 50 65) =
      some 9 := by
  decide

/-! ## The stored keys and the count -/

theorem keys_nodup (table : hash_table) (h : well_formed table) : (keys table).Nodup := by
  unfold keys items
  rw [List.map_flatten, List.map_map, List.nodup_flatten]
  constructor
  · intro l hl
    obtain ⟨i, hi, rfl⟩ := List.mem_map.mp hl
    exact (h.2.2 i (List.mem_range.mp hi)).1
  · rw [List.pairwise_map]
    refine List.Pairwise.imp_of_mem ?_ (List.pairwise_lt_range table.size)
    intro i j hi hj hij
    rw [List.mem_range] at hi hj
    intro k hki hkj
    obtain ⟨x, hx, hxk⟩ := List.mem_map.mp hki
    obtain ⟨y, hy, hyk⟩ := List.mem_map.mp hkj
    have h1 := ((h.2.2 i hi).2 x hx).2.1
    have h2 := ((h.2.2 j hj).2 y hy).2.1
    rw [hxk] at h1
    rw [hyk] at h2
    omega

theorem mem_keys_iff (table : hash_table) (h : well_formed table) (key : Key) :
    key ∈ keys table ↔ valid_key key ∧ hash_table_search table key ≠ none := by
  constructor
  · intro hmem
    have hv : valid_key key := by
      obtain ⟨i, hi, item, hitem, hkey⟩ := (present_iff table key).mp hmem
      rw [← hkey]
      exact ((h.2.2 i hi).2 item hitem).1
    exact ⟨hv, fun hn => (search_none_iff_not_present table h key hv).mp hn hmem⟩
  · rintro ⟨hv, hs⟩
    by_contra hnot
    exact hs ((search_none_iff_not_present table h key hv).mpr hnot)

theorem ncard_live_keys (table : hash_table) (h : well_formed table) :
    Set.ncard {key | valid_key key ∧ hash_table_search table key ≠ none} =
      (items table).length := by
  have hset : {key | valid_key key ∧ hash_table_search table key ≠ none} =
      ((keys table).toFinset : Set Key) := by
    ext key
    simp only [Set.mem_setOf_eq, List.coe_toFinset]
    exact (mem_keys_iff table h key).symm
  rw [hset, Set.ncard_coe_Finset, List.toFinset_card_of_nodup (keys_nodup table h),
    length_keys]

theorem well_formed_apply_call (table : hash_table) (h : well_formed table) (c : call)
    (h0 : c_string c.key) : well_formed (apply_call table c).2 := by
  cases c with
  | insert key value => exact well_formed_insert table key value h h0
  | upsert key value => exact well_formed_upsert table key value h h0
  | update key value => exact well_formed_update table key value h
  | delete key => exact well_formed_delete table key h

theorem well_formed_run (table : hash_table) (h : well_formed table) (calls : List call)
    (h0 : ∀ c ∈ calls, c_string c.key) : well_formed (run table calls) := by
  induction calls generalizing table with
  | nil => exact h
  | cons c calls ih =>
    unfold run
    rw [List.foldl_cons]
    exact ih _ (well_formed_apply_call table h c (h0 c (List.mem_cons_self _ _)))
      (fun c2 hc2 => h0 c2 (List.mem_cons_of_mem _ hc2))

theorem keys_after_insert_absent (table : hash_table) (key : Key) (value : item_type)
    (h : well_formed table) (hk : valid_key key) (hs : hash_table_search table key = none) :
    List.Perm (keys (hash_table_insert table key value).2) (key :: keys table) := by
  rw [insert_of_absent table key value hk hs]
  unfold keys
  rw [items_set table h.2.1 _ (index_lt table h key),
    items_split table h.2.1 _ (index_lt table h key)]
  simp only [List.map_append, List.map_cons, List.map_nil, List.append_assoc,
    List.singleton_append, new_item]
  refine List.Perm.trans ?_ List.perm_middle
  refine List.Perm.append_left _ ?_
  exact List.perm_middle

/-- Inserting pairwise distinct valid keys that the table does not hold adds them all. -/
theorem keys_after_inserts (table : hash_table) (h : well_formed table) (ks : List Key)
    (value : item_type) (hv : ∀ k ∈ ks, valid_key k) (hnd : ks.Nodup)
    (hnew : ∀ k ∈ ks, k ∉ keys table) :
    List.Perm (keys (run table (ks.map (fun k => call.insert k value)))) (ks ++ keys table) := by
  induction ks generalizing table with
  | nil => exact List.Perm.refl _
  | cons k ks ih =>
    have hkv := hv k (List.mem_cons_self _ _)
    have hs : hash_table_search table k = none :=
      (search_none_iff_not_present table h k hkv).mpr (hnew k (List.mem_cons_self _ _))
    have hperm := keys_after_insert_absent table k value h hkv hs
    have hwf1 := well_formed_insert_valid table k value h hkv
    have hnd2 := List.nodup_cons.mp hnd
    have hnew1 : ∀ k2 ∈ ks, k2 ∉ keys (hash_table_insert table k value).2 := by
      intro k2 hk2 hmem
      rcases List.mem_cons.mp (hperm.subset hmem) with rfl | hmem
      · exact hnd2.1 hk2
      · exact hnew k2 (List.mem_cons_of_mem _ hk2) hmem
    have hrec := ih (hash_table_insert table k value).2 hwf1
      (fun k2 hk2 => hv k2 (List.mem_cons_of_mem _ hk2)) hnd2.2 hnew1
    unfold run at hrec ⊢
    rw [List.map_cons, List.foldl_cons]
    refine hrec.trans ?_
    refine (List.Perm.append_left ks hperm).trans ?_
    exact List.perm_middle

theorem length_key_of_nat (w n : Nat) : (key_of_nat w n).length = w := by
  induction w generalizing n with
  | zero => rfl
  | succ w ih => simp [key_of_nat, ih]

theorem c_string_key_of_nat (w n : Nat) : c_string (key_of_nat w n) := by
  induction w generalizing n with
  | zero => intro c hc; simp [key_of_nat] at hc
  | succ w ih =>
    intro c hc
    simp only [key_of_nat, List.mem_cons] at hc
    rcases hc with rfl | hc
    · omega
    · exact ih _ c hc

theorem key_of_nat_injective (w n m : Nat) (hn : n < 2 ^ w) (hm : m < 2 ^ w)
    (h : key_of_nat w n = key_of_nat w m) : n = m := by
  induction w generalizing n m with
  | zero => simp at hn hm; omega
  | succ w ih =>
    simp only [key_of_nat, List.cons.injEq] at h
    have h1 : n % 2 = m % 2 := by omega
    have h2 : n / 2 = m / 2 :=
      ih (n / 2) (m / 2) (by rw [Nat.pow_succ] at hn; omega) (by rw [Nat.pow_succ] at hm; omega)
        h.2
    omega

theorem keys_after_many_inserts (size : Nat) (hsize : 2 ≤ size) :
    well_formed (run ⟨size, List.replicate size []⟩ many_inserts) ∧
    (items (run ⟨size, List.replicate size []⟩ many_inserts)).length = 2 ^ 32 := by
  obtain ⟨t, ht, hwf, _, _⟩ := well_formed_init none size hsize
  have ht2 : t = ⟨size, List.replicate size []⟩ := by
    unfold hash_table_init at ht
    rw [if_neg (by omega)] at ht
    exact (Option.some.inj ht).symm
  rw [ht2] at hwf
  have hkeys0 : keys (⟨size, List.replicate size []⟩ : hash_table) = [] := by
    unfold keys
    rw [items_eq_flatten _ (by simp)]
    simp
  have hmap : many_inserts =
      ((List.range (2 ^ 32)).map (key_of_nat 32)).map (fun k => call.insert k 0) := by
    unfold many_inserts
    rw [List.map_map]
    rfl
  have hperm := keys_after_inserts ⟨size, List.replicate size []⟩ hwf
    ((List.range (2 ^ 32)).map (key_of_nat 32)) 0
    (by
      intro k hk
      obtain ⟨n, _, rfl⟩ := List.mem_map.mp hk
      unfold valid_key HASH_TABLE_MAX_KEY_LENGTH
      rw [length_key_of_nat]
      omega)
    (by
      refine List.Nodup.map_on ?_ (List.nodup_range _)
      intro n hn m hm hnm
      exact key_of_nat_injective 32 n m (List.mem_range.mp hn) (List.mem_range.mp hm) hnm)
    (by
      intro k _
      rw [hkeys0]
      exact List.not_mem_nil _)
  rw [← hmap, hkeys0, List.append_nil] at hperm
  refine ⟨?_, ?_⟩
  · apply well_formed_run _ hwf
    intro c hc
    unfold many_inserts at hc
    obtain ⟨n, _, rfl⟩ := List.mem_map.mp hc
    exact c_string_key_of_nat 32 n
  · rw [← length_keys, hperm.length_eq, List.length_map, List.length_range]

/-! ## Lookup by membership -/

theorem search_eq_some_iff (table : hash_table) (h : well_formed table) (key : Key)
    (hk : valid_key key) (value : item_type) :
    hash_table_search table key = some value ↔
      ∃ item ∈ items table, item.key = key ∧ item.value = value := by
  have hidx := index_lt table h key
  have hchain := h.2.2 _ hidx
  constructor
  · intro hs
    rw [hash_table_search_eq, Option.map_eq_some'] at hs
    obtain ⟨item, hfind, hval⟩ := hs
    have hmem := List.mem_of_find?_eq_some hfind
    have hrel := List.find?_some hfind
    exact ⟨item, (mem_items table item).mpr ⟨_, hidx, hmem⟩,
      (relation_iff_of_wf table h key hk item hmem).mp hrel, hval⟩
  · rintro ⟨item, hmem, hkey, hval⟩
    obtain ⟨i, hi, hmi⟩ := (mem_items table item).mp hmem
    have hii : hash key % table.size = i := by
      have := ((h.2.2 i hi).2 item hmi).2.1
      rw [hkey] at this; exact this
    rw [← hii] at hmi
    rw [hash_table_search_eq, Option.map_eq_some']
    cases hfind : (bucket_at table (hash key % table.size)).find?
        (fun item => relation item key) with
    | none =>
      rw [List.find?_eq_none] at hfind
      exact absurd ((relation_iff_of_wf table h key hk item hmi).mpr hkey) (hfind item hmi)
    | some item2 =>
      have hmem2 := List.mem_of_find?_eq_some hfind
      have hrel2 := List.find?_some hfind
      have hkey2 := (relation_iff_of_wf table h key hk item2 hmem2).mp hrel2
      have heq : item2 = item :=
        List.inj_on_of_nodup_map hchain.1 hmem2 hmi (by rw [hkey2, hkey])
      exact ⟨item2, rfl, by rw [heq]; exact hval⟩

/-- Two well-formed tables holding the same entries answer every search for a valid key
alike. -/
theorem search_eq_of_same_items (t1 t2 : hash_table) (h1 : well_formed t1)
    (h2 : well_formed t2) (hsame : ∀ item, item ∈ items t1 ↔ item ∈ items t2) (key : Key)
    (hk : valid_key key) : hash_table_search t1 key = hash_table_search t2 key := by
  cases hs : hash_table_search t2 key with
  | none =>
    rw [search_none_iff_not_present t2 h2 key hk] at hs
    rw [search_none_iff_not_present t1 h1 key hk]
    intro hp
    apply hs
    unfold present keys at hp ⊢
    obtain ⟨item, hmem, hkey⟩ := List.mem_map.mp hp
    exact List.mem_map.mpr ⟨item, (hsame item).mp hmem, hkey⟩
  | some v =>
    rw [search_eq_some_iff t2 h2 key hk] at hs
    rw [search_eq_some_iff t1 h1 key hk]
    obtain ⟨item, hmem, hkey, hval⟩ := hs
    exact ⟨item, (hsame item).mpr hmem, hkey, hval⟩

theorem count_eq_of_same_items (t1 t2 : hash_table) (h1 : well_formed t1)
    (h2 : well_formed t2) (hsame : ∀ item, item ∈ items t1 ↔ item ∈ items t2) :
    hash_table_count t1 = hash_table_count t2 := by
  have hperm : List.Perm (keys t1) (keys t2) := by
    rw [List.perm_ext_iff_of_nodup (keys_nodup t1 h1) (keys_nodup t2 h2)]
    intro k
    unfold keys
    simp only [List.mem_map]
    constructor
    · rintro ⟨item, hmem, hkey⟩
      exact ⟨item, (hsame item).mp hmem, hkey⟩
    · rintro ⟨item, hmem, hkey⟩
      exact ⟨item, (hsame item).mpr hmem, hkey⟩
  rw [hash_table_count_eq, hash_table_count_eq, ← length_keys, ← length_keys,
    hperm.length_eq]

/-! ## Copying into a fresh table -/

theorem new_item_eq (item : hash_table_item) (h : item.freed = false) :
    new_item item.key item.value = item := by
  cases item
  simp only [new_item] at h ⊢
  subst h
  rfl

/-- The loop of `hash_table_copy` with `hash_table_insert`, started on a table whose bucket
`i` holds the already copied items that hash to `i`: no insert fails, and at the end bucket
`i` holds all the items that hash to `i`, in the order they were visited. -/
theorem copy_loop_insert (size : Nat) (hsize : 0 < size) (rest done : List hash_table_item)
    (dest : hash_table) (hds : dest.size = size) (hdl : dest.buckets.length = size)
    (hinv : ∀ i < size, bucket_at dest i = done.filter (fun it => hash it.key % size = i))
    (hvalid : ∀ it ∈ done ++ rest, valid_key it.key ∧ it.freed = false)
    (hnodup : ((done ++ rest).map (fun it => it.key)).Nodup) :
    ∃ result, copy_loop hash_table_insert dest rest = (true, result) ∧ result.size = size ∧
      result.buckets.length = size ∧
      ∀ i < size, bucket_at result i =
        (done ++ rest).filter (fun it => hash it.key % size = i) := by
  induction rest generalizing done dest with
  | nil =>
    refine ⟨dest, rfl, hds, hdl, ?_⟩
    intro i hi
    rw [List.append_nil]
    exact hinv i hi
  | cons item rest ih =>
    have hiv := hvalid item (List.mem_append_right _ (List.mem_cons_self _ _))
    have hidx : hash item.key % dest.size < size := by
      rw [hds]; exact Nat.mod_lt _ hsize
    have hs : hash_table_search dest item.key = none := by
      rw [hash_table_search_eq, Option.map_eq_none', List.find?_eq_none, hinv _ hidx]
      intro x hx hrel
      have hxd : x ∈ done := (List.mem_filter.mp hx).1
      have hxv := hvalid x (List.mem_append_left _ hxd)
      have hkey : x.key = item.key :=
        (relation_iff_eq x item.key hxv.1.2 hiv.1.2).mp (by simpa using hrel)
      rw [List.map_append, List.map_cons] at hnodup
      exact (List.nodup_append.mp hnodup).2.2 (List.mem_map_of_mem _ hxd)
        (by rw [hkey]; exact List.mem_cons_self _ _)
    have hins := insert_of_absent dest item.key item.value hiv.1 hs
    rw [new_item_eq item hiv.2] at hins
    have hrec := ih (done ++ [item])
      { dest with
        buckets := dest.buckets.set (hash item.key % dest.size)
          (bucket_at dest (hash item.key % dest.size) ++ [item]) }
      hds (by simp [hdl])
      (by
        intro i hi
        rw [bucket_at_set dest _ _ _ (by rw [hdl]; exact hidx), List.filter_append]
        by_cases hii : i = hash item.key % dest.size
        · rw [if_pos hii, ← hii, hinv i hi]
          have : hash item.key % size = i := by rw [hii, hds]
          simp [this]
        · rw [if_neg hii, hinv i hi]
          have : ¬ hash item.key % size = i := by
            rw [← hds]; exact fun h => hii h.symm
          simp [this])
      (by simpa using hvalid)
      (by simpa using hnodup)
    obtain ⟨result, hres, h1, h2, h3⟩ := hrec
    refine ⟨result, ?_, h1, h2, ?_⟩
    · unfold copy_loop
      simp only [hins]
      exact hres
    · intro i hi
      rw [h3 i hi]
      simp

/-- `hash_table_copy(dest, source, false)` for a well-formed source and a freshly
initialized destination of `size` buckets: the copy returns true, and bucket `i` of the
destination holds the source items whose key hashes to `i`, in source order. -/
theorem copy_into_fresh (source : hash_table) (h : well_formed source) (size : Nat)
    (hsize : 2 ≤ size) :
    ∃ result, hash_table_copy ⟨size, List.replicate size []⟩ source false = (true, result) ∧
      result.size = size ∧ result.buckets.length = size ∧
      (∀ i < size, bucket_at result i =
        (items source).filter (fun it => hash it.key % size = i)) ∧
      well_formed result ∧ ∀ item, item ∈ items result ↔ item ∈ items source := by
  have hvalid : ∀ it ∈ items source, valid_key it.key ∧ it.freed = false := by
    intro it hit
    obtain ⟨i, hi, hmem⟩ := (mem_items source it).mp hit
    exact ⟨((h.2.2 i hi).2 it hmem).1, ((h.2.2 i hi).2 it hmem).2.2⟩
  obtain ⟨result, hres, h1, h2, h3⟩ := copy_loop_insert size (by omega) (items source) []
    ⟨size, List.replicate size []⟩ rfl (by simp)
    (by
      intro i hi
      simp [bucket_at, List.getD_eq_getElem?_getD, List.getElem?_replicate, hi])
    (by simpa using hvalid)
    (by simpa using keys_nodup source h)
  rw [List.nil_append] at h3
  refine ⟨result, ?_, h1, h2, h3, ?_, ?_⟩
  · unfold hash_table_copy
    simp only [Bool.false_eq_true, if_false]
    exact hres
  · refine ⟨by rw [h1]; exact hsize, by rw [h2, h1], ?_⟩
    intro i hi
    rw [h1] at hi
    rw [h3 i hi]
    constructor
    · have hsub : List.Sublist
          ((items source).filter (fun it => hash it.key % size = i)) (items source) :=
        List.filter_sublist _
      exact List.Nodup.sublist (List.Sublist.map _ hsub) (keys_nodup source h)
    · intro item hitem
      rw [List.mem_filter] at hitem
      have hv := hvalid item hitem.1
      refine ⟨hv.1, ?_, hv.2⟩
      rw [h1]
      simpa using hitem.2
  · intro item
    rw [mem_items, h1]
    constructor
    · rintro ⟨i, hi, hmem⟩
      rw [h3 i hi] at hmem
      exact (List.mem_filter.mp hmem).1
    · intro hmem
      refine ⟨hash item.key % size, Nat.mod_lt _ (by omega), ?_⟩
      rw [h3 _ (Nat.mod_lt _ (by omega))]
      exact List.mem_filter.mpr ⟨hmem, by simp⟩

/-! ## Clone and resize -/

theorem init_of_two_le (table_addr : Option hash_table) (size : Nat) (h : 2 ≤ size) :
    hash_table_init table_addr size = some ⟨size, List.replicate size []⟩ := by
  unfold hash_table_init
  rw [if_neg (by omega)]

theorem clone_eq (dest_addr table : Option hash_table) (source : hash_table)
    (h : well_formed source) :
    ∃ result, hash_table_clone dest_addr source table = some result ∧
      result.size = source.size ∧ well_formed result ∧
      ∀ item, item ∈ items result ↔ item ∈ items source := by
  obtain ⟨result, hcopy, h1, _, _, hwf, hsame⟩ := copy_into_fresh source h source.size h.1
  refine ⟨result, ?_, h1, hwf, hsame⟩
  unfold hash_table_clone
  simp only [init_of_two_le table source.size h.1, hcopy, Bool.true_eq_false, if_false]

theorem resize_eq (table : hash_table) (h : well_formed table) (size : Nat) (hsize : 2 ≤ size)
    (new_table : Option hash_table) :
    (hash_table_resize table size new_table).size = size ∧
    well_formed (hash_table_resize table size new_table) ∧
    ∀ item, item ∈ items (hash_table_resize table size new_table) ↔ item ∈ items table := by
  obtain ⟨result, hcopy, h1, _, _, hwf, hsame⟩ := copy_into_fresh table h size hsize
  have hres : hash_table_resize table size new_table = result := by
    unfold hash_table_resize
    simp only [init_of_two_le new_table size hsize, hcopy, Bool.true_eq_false, if_false]
  rw [hres]
  exact ⟨h1, hwf, hsame⟩

theorem valid_of_present (table : hash_table) (h : well_formed table) (key : Key)
    (hp : present table key) : valid_key key :=
  ((mem_keys_iff table h key).mp hp).1

/-- C9: resizing a well-formed table to `size ≥ 2` buckets leaves the count as it was, and
every key that was present is still found, with the value it had. -/
theorem resize_preserves_count_and_search (table : hash_table) (size : Nat)
    (new_table : Option hash_table) (hwf : well_formed table) (hsize : 2 ≤ size) :
    hash_table_count (hash_table_resize table size new_table) = hash_table_count table ∧
    ∀ key, present table key →
      ∃ value, hash_table_search table key = some value ∧
        hash_table_search (hash_table_resize table size new_table) key = some value := by
  obtain ⟨_, hwfr, hsame⟩ := resize_eq table hwf size hsize new_table
  refine ⟨count_eq_of_same_items _ table hwfr hwf hsame, ?_⟩
  intro key hp
  have hk := valid_of_present table hwf key hp
  have hne := ((mem_keys_iff table hwf key).mp hp).2
  cases hs : hash_table_search table key with
  | none => exact absurd hs hne
  | some value =>
    exact ⟨value, rfl, by rw [search_eq_of_same_items _ table hwfr hwf hsame key hk, hs]⟩

theorem resize_preserves_count_and_search_witness :
    hash_table_count (hash_table_resize ⟨2, [[⟨7, [97], false⟩], [⟨5, [98], false⟩]]⟩ 3 none) =
      hash_table_count ⟨2, [[⟨7, [97], false⟩], [⟨5, [98], false⟩]]⟩ ∧
    ∃ value, hash_table_search ⟨2, [[⟨7, [97], false⟩], [⟨5, [98], false⟩]]⟩ [97] =
        some value ∧
      hash_table_search (hash_table_resize ⟨2, [[⟨7, [97], false⟩], [⟨5, [98], false⟩]]⟩ 3 none)
        [97] = some value :=
  have h := resize_preserves_count_and_search ⟨2, [[⟨7, [97], false⟩], [⟨5, [98], false⟩]]⟩ 3
    none (by decide) (by decide)
  ⟨h.1, h.2 [97] (by decide)⟩

/-! ## Clean -/

theorem bucket_at_clean (table : hash_table) (i : Nat) :
    bucket_at (hash_table_clean table) i =
      (bucket_at table i).map (fun item => { item with freed := true }) := by
  unfold bucket_at hash_table_clean
  simp only [List.getD_eq_getElem?_getD, List.getElem?_map]
  cases table.buckets[i]? <;> rfl

/-- `hash_table_clean` stores nothing into the bucket array: a bucket head that was
non-null still is, so `hash_table_is_empty` answers as before the call. -/
theorem is_empty_clean (table : hash_table) :
    hash_table_is_empty (hash_table_clean table) = hash_table_is_empty table := by
  unfold hash_table_is_empty
  have hsize : (hash_table_clean table).size = table.size := rfl
  rw [hsize]
  congr 1
  funext i
  rw [bucket_at_clean]
  cases bucket_at table i <;> rfl

theorem freed_of_mem_items_clean (table : hash_table) (item : hash_table_item)
    (h : item ∈ items (hash_table_clean table)) : item.freed = true := by
  obtain ⟨i, _, hmem⟩ := (mem_items _ item).mp h
  rw [bucket_at_clean] at hmem
  obtain ⟨x, _, rfl⟩ := List.mem_map.mp hmem
  rfl

/-- C10 (evaluation): `hash_table_default_init`, insert of the key `k0`, then
`hash_table_clean`.  The table is empty after the init and non-empty after the insert; after
the clean its size is still 157, its one node has been freed, and `hash_table_is_empty`
returns false, because bucket 9 still holds the pointer to that node. -/
theorem clean_leaves_table_non_empty :
    hash_table_default_init none = some ⟨157, List.replicate 157 []⟩ ∧
    hash_table_is_empty ⟨157, List.replicate 157 []⟩ = true ∧
    (hash_table_insert ⟨157, List.replicate 157 []⟩ [107, 48] 7).1 = true ∧
    hash_table_is_empty (hash_table_insert ⟨157, List.replicate 157 []⟩ [107, 48] 7).2 =
      false ∧
    hash_table_size
      (hash_table_clean (hash_table_insert ⟨157, List.replicate 157 []⟩ [107, 48] 7).2) =
      157 ∧
    bucket_at
      (hash_table_clean (hash_table_insert ⟨157, List.replicate 157 []⟩ [107, 48] 7).2) 9 =
      [⟨7, [107, 48], true⟩] ∧
    hash_table_is_empty
      (hash_table_clean (hash_table_insert ⟨157, List.replicate 157 []⟩ [107, 48] 7).2) =
      false := by
  decide

/-! ## The keys that are live after a sequence of calls -/

theorem keys_after_delete_found (table : hash_table) (key : Key) (h : well_formed table)
    (item : hash_table_item) (hf : slot_get table (find table key) = some item) :
    List.Perm (keys table) (item.key :: keys (hash_table_delete table key).2) := by
  obtain ⟨pre, post, hsplit, hpos, _, _⟩ := found_split table key item hf
  rw [delete_of_found table key item hf, slot_set_found table key pre post item hsplit hpos]
  unfold keys
  rw [items_set table h.2.1 _ (index_lt table h key),
    items_split table h.2.1 _ (index_lt table h key), hsplit]
  simp only [List.map_append, List.map_cons, List.append_assoc]
  refine List.Perm.trans ?_ List.perm_middle
  refine List.Perm.append_left _ ?_
  exact List.perm_middle

/-- A key of at most 50 bytes that `find` finds is the key of the entry found. -/
theorem key_eq_of_found (table : hash_table) (h : well_formed table) (key : Key)
    (hlen : key.length ≤ HASH_TABLE_MAX_KEY_LENGTH) (item : hash_table_item)
    (hf : slot_get table (find table key) = some item) : item.key = key := by
  obtain ⟨pre, post, hsplit, _, hrel, _⟩ := found_split table key item hf
  have hmem : item ∈ bucket_at table (hash key % table.size) := by
    rw [hsplit]; exact List.mem_append_right _ (List.mem_cons_self _ _)
  exact (relation_iff_eq item key
    ((h.2.2 _ (index_lt table h key)).2 item hmem).1.2 hlen).mp hrel

theorem live_step_eq (table : hash_table) (h : well_formed table) (c : call)
    (h0 : c_string c.key) (hlen : long_delete_fails table c = true) :
    (keys (apply_call table c).2).toFinset = live_step table (keys table).toFinset c := by
  cases c with
  | insert key value =>
    simp only [call.key] at h0
    simp only [apply_call, live_step]
    by_cases hk : valid_key key
    · by_cases hs : hash_table_search table key = none
      · have hperm := keys_after_insert_absent table key value h hk hs
        rw [List.toFinset_eq_of_perm _ _ hperm, List.toFinset_cons,
          insert_of_absent table key value hk hs]
        simp
      · rw [insert_of_found table key value hs]
        simp
    · rw [insert_of_invalid table key value h0 hk]
      simp
  | upsert key value =>
    simp only [call.key] at h0
    simp only [apply_call, live_step]
    by_cases hk : valid_key key
    · rw [if_pos (upsert_returns_true table key value hk)]
      by_cases hs : hash_table_search table key = none
      · rw [upsert_of_absent table key value hk hs,
          List.toFinset_eq_of_perm _ _ (keys_after_insert_absent table key value h hk hs),
          List.toFinset_cons]
      · rw [keys_after_upsert_found table key value h hk hs]
        have hmem : key ∈ (keys table).toFinset :=
          List.mem_toFinset.mpr ((mem_keys_iff table h key).mpr ⟨hk, hs⟩)
        exact (Finset.insert_eq_of_mem hmem).symm
    · rw [upsert_of_invalid table key value h0 hk]
      simp
  | update key value =>
    simp only [apply_call, live_step]
    cases hf : slot_get table (find table key) with
    | none => rw [update_of_absent table key value ((search_eq_none_iff table key).mpr hf)]
    | some item =>
      rw [update_of_found table key value item hf, keys_after_write table key value h item hf]
  | delete key =>
    simp only [apply_call, live_step]
    cases hf : slot_get table (find table key) with
    | none =>
      rw [delete_of_absent table key ((search_eq_none_iff table key).mpr hf)]
      simp
    | some item =>
      have hlen2 : key.length ≤ HASH_TABLE_MAX_KEY_LENGTH := by
        simp only [long_delete_fails] at hlen
        rw [delete_of_found table key item hf] at hlen
        simpa using hlen
      have hperm := keys_after_delete_found table key h item hf
      rw [key_eq_of_found table h key hlen2 item hf] at hperm
      have hnd : (key :: keys (hash_table_delete table key).2).Nodup :=
        (List.Perm.nodup_iff hperm).mp (keys_nodup table h)
      have hnot : key ∉ (keys (hash_table_delete table key).2).toFinset := by
        rw [List.mem_toFinset]; exact (List.nodup_cons.mp hnd).1
      have htrue : (hash_table_delete table key).1 = true := by
        rw [delete_of_found table key item hf]
      rw [if_pos htrue, List.toFinset_eq_of_perm _ _ hperm, List.toFinset_cons,
        Finset.erase_insert hnot]

theorem live_keys_eq (table : hash_table) (h : well_formed table) (calls : List call)
    (h0 : ∀ c ∈ calls, c_string c.key) (hlen : long_deletes_fail table calls = true) :
    live_keys table (keys table).toFinset calls = (keys (run table calls)).toFinset := by
  induction calls generalizing table with
  | nil => rfl
  | cons c calls ih =>
    have hc0 := h0 c (List.mem_cons_self _ _)
    unfold long_deletes_fail at hlen
    rw [Bool.and_eq_true] at hlen
    unfold live_keys run
    rw [List.foldl_cons, ← live_step_eq table h c hc0 hlen.1]
    exact ih _ (well_formed_apply_call table h c hc0)
      (fun c2 hc2 => h0 c2 (List.mem_cons_of_mem _ hc2)) hlen.2

/-- A sequence in which no delete call is given a key of more than 50 bytes. -/
theorem long_deletes_fail_of_short_keys (table : hash_table) (calls : List call)
    (hlen : ∀ key, call.delete key ∈ calls → key.length ≤ HASH_TABLE_MAX_KEY_LENGTH) :
    long_deletes_fail table calls = true := by
  induction calls generalizing table with
  | nil => rfl
  | cons c calls ih =>
    unfold long_deletes_fail
    rw [Bool.and_eq_true]
    refine ⟨?_, ih _ (fun key hkey => hlen key (List.mem_cons_of_mem _ hkey))⟩
    cases c with
    | delete key =>
      unfold long_delete_fails
      simp [hlen key (List.mem_cons_self _ _)]
    | insert key value => rfl
    | upsert key value => rfl
    | update key value => rfl

/-! ## Sequences of calls and the count -/

theorem count_after_many_inserts :
    hash_table_count (run ⟨2 ^ 30, List.replicate (2 ^ 30) []⟩ many_inserts) = 0 ∧
    Set.ncard {key | valid_key key ∧
      hash_table_search (run ⟨2 ^ 30, List.replicate (2 ^ 30) []⟩ many_inserts) key ≠ none} =
      2 ^ 32 := by
  obtain ⟨hwf, hlen⟩ := keys_after_many_inserts (2 ^ 30) (by norm_num)
  constructor
  · rw [hash_table_count_eq, hlen]
    exact Nat.mod_self _
  · rw [ncard_live_keys _ hwf, hlen]

theorem c_string_many_inserts : ∀ c ∈ many_inserts, c_string c.key := by
  intro c hc
  unfold many_inserts at hc
  obtain ⟨n, _, rfl⟩ := List.mem_map.mp hc
  exact c_string_key_of_nat 32 n

/-- C7 (counterexample), two runs from a fresh table.  First: `2 ^ 32` inserts of pairwise
distinct valid keys into `2 ^ 30` buckets; every key is stored and found, so `2 ^ 32` keys
are live, and the `unsigned int` counter of `hash_table_count` has wrapped to 0.  Second:
insert of the 50-byte key `AA…A` into 2 buckets, then delete with the 51-byte key `AA…AB`;
the delete returns true and unlinks the entry of the 50-byte key, so the count is 0 although
the one key that was inserted was never passed to delete. -/
theorem count_differs_from_live_keys :
    (hash_table_init none (2 ^ 30) = some ⟨2 ^ 30, List.replicate (2 ^ 30) []⟩ ∧
      (∀ c ∈ many_inserts, c_string c.key) ∧
      hash_table_count (run ⟨2 ^ 30, List.replicate (2 ^ 30) []⟩ many_inserts) = 0 ∧
      Set.ncard {key | valid_key key ∧
        hash_table_search (run ⟨2 ^ 30, List.replicate (2 ^ 30) []⟩ many_inserts) key ≠
          none} = 2 ^ 32) ∧
    (hash_table_init none 2 = some ⟨2, [[], []]⟩ ∧
      apply_call (run ⟨2, [[], []]⟩ [call.insert (List.replicate 50 65) 1])
          (call.delete (List.replicate 50 65 ++ [66])) = (true, ⟨2, [[], []]⟩) ∧
      live_keys ⟨2, [[], []]⟩ ∅
          [call.insert (List.replicate 50 65) 1, call.delete (List.replicate 50 65 ++ [66])] =
        {List.replicate 50 65} ∧
      hash_table_count
        (run ⟨2, [[], []]⟩
          [call.insert (List.replicate 50 65) 1, call.delete (List.replicate 50 65 ++ [66])]) =
        0) := by
  refine ⟨⟨init_of_two_le none _ (by norm_num), c_string_many_inserts,
    count_after_many_inserts.1, count_after_many_inserts.2⟩, ?_⟩
  decide

/-- C7 (amended): for a table reached from a freshly initialized one by any sequence of
insert, upsert, update and delete calls, the stored keys are pairwise distinct and are
exactly the valid keys for which search returns true; `hash_table_count` returns their
number modulo `2 ^ 32`, hence their number whenever that is below `2 ^ 32`; and when no
delete that was given a key of more than 50 bytes returned true (so in particular when no
delete was given such a key), they are the keys that were successfully inserted or upserted
and not deleted since, so the count is the number of those modulo `2 ^ 32`. -/
theorem count_eq_live_keys_mod (table_addr : Option hash_table) (size : Nat)
    (table : hash_table) (calls : List call) (hsize : 2 ≤ size)
    (hinit : hash_table_init table_addr size = some table)
    (h0 : ∀ c ∈ calls, c_string c.key) :
    (keys (run table calls)).Nodup ∧
    (∀ key, key ∈ keys (run table calls) ↔
      valid_key key ∧ hash_table_search (run table calls) key ≠ none) ∧
    hash_table_count (run table calls) =
      Set.ncard {key | valid_key key ∧ hash_table_search (run table calls) key ≠ none} %
        UINT_MOD ∧
    (Set.ncard {key | valid_key key ∧ hash_table_search (run table calls) key ≠ none} <
        UINT_MOD →
      hash_table_count (run table calls) =
        Set.ncard {key | valid_key key ∧ hash_table_search (run table calls) key ≠ none}) ∧
    ((long_deletes_fail table calls = true ∨
        ∀ key, call.delete key ∈ calls → key.length ≤ HASH_TABLE_MAX_KEY_LENGTH) →
      (∀ key, key ∈ live_keys table ∅ calls ↔
        valid_key key ∧ hash_table_search (run table calls) key ≠ none) ∧
      hash_table_count (run table calls) = (live_keys table ∅ calls).card % UINT_MOD) := by
  have htable : table = ⟨size, List.replicate size []⟩ := by
    rw [init_of_two_le table_addr size hsize] at hinit
    exact (Option.some.inj hinit).symm
  obtain ⟨t, ht, hwf0, _, _⟩ := well_formed_init table_addr size hsize
  rw [hinit] at ht
  have htt : table = t := Option.some.inj ht
  rw [← htt] at hwf0
  have hwf := well_formed_run table hwf0 calls h0
  have hcount : hash_table_count (run table calls) =
      Set.ncard {key | valid_key key ∧ hash_table_search (run table calls) key ≠ none} %
        UINT_MOD := by
    rw [ncard_live_keys _ hwf, hash_table_count_eq]
  refine ⟨keys_nodup _ hwf, mem_keys_iff _ hwf, hcount, ?_, ?_⟩
  · intro hlt
    rw [hcount, Nat.mod_eq_of_lt hlt]
  · intro hlen
    have hkeys0 : (keys table).toFinset = ∅ := by
      rw [htable]
      unfold keys
      rw [items_eq_flatten _ (by simp)]
      simp
    have hlive := live_keys_eq table hwf0 calls h0
      (hlen.elim id (long_deletes_fail_of_short_keys table calls))
    rw [hkeys0] at hlive
    constructor
    · intro key
      rw [hlive, List.mem_toFinset]
      exact mem_keys_iff _ hwf key
    · rw [hlive, List.toFinset_card_of_nodup (keys_nodup _ hwf), length_keys,
        hash_table_count_eq]

theorem count_eq_live_keys_mod_witness :
    hash_table_count
        (run ⟨2, [[], []]⟩
          [call.insert [107, 48] 0, call.insert (List.replicate 51 65) 5,
            call.insert [107, 49] 1, call.delete [107, 48],
            call.delete (List.replicate 51 65)]) =
      Set.ncard {key | valid_key key ∧
        hash_table_search
          (run ⟨2, [[], []]⟩
            [call.insert [107, 48] 0, call.insert (List.replicate 51 65) 5,
              call.insert [107, 49] 1, call.delete [107, 48],
              call.delete (List.replicate 51 65)])
          key ≠ none} % UINT_MOD ∧
    live_keys ⟨2, [[], []]⟩ ∅
        [call.insert [107, 48] 0, call.insert (List.replicate 51 65) 5,
          call.insert [107, 49] 1, call.delete [107, 48],
          call.delete (List.replicate 51 65)] = {[107, 49]} ∧
    hash_table_count
        (run ⟨2, [[], []]⟩
          [call.insert [107, 48] 0, call.insert (List.replicate 51 65) 5,
            call.insert [107, 49] 1, call.delete [107, 48],
            call.delete (List.replicate 51 65)]) =
      (live_keys ⟨2, [[], []]⟩ ∅
        [call.insert [107, 48] 0, call.insert (List.replicate 51 65) 5,
          call.insert [107, 49] 1, call.delete [107, 48],
          call.delete (List.replicate 51 65)]).card % UINT_MOD :=
  have h := count_eq_live_keys_mod none 2 ⟨2, [[], []]⟩
    [call.insert [107, 48] 0, call.insert (List.replicate 51 65) 5,
      call.insert [107, 49] 1, call.delete [107, 48], call.delete (List.replicate 51 65)]
    (by decide) (by decide) (by decide)
  ⟨h.2.2.1, by decide, (h.2.2.2.2 (Or.inl (by decide))).2⟩

/-! ## The hash function -/

theorem char_to_uint_of_byte (signed_char : Bool) (b : Nat) (h : b ≤ 255) :
    char_to_uint (char_of_byte signed_char b) = uint_of_byte signed_char b := by
  unfold char_to_uint char_of_byte uint_of_byte UINT_MOD
  by_cases hs : signed_char = true ∧ 128 ≤ b
  · rw [if_pos hs, if_pos hs]
    have h128 := hs.2
    simp only [Int.ofNat_eq_coe]
    omega
  · rw [if_neg hs, if_neg hs]
    simp only [Int.ofNat_eq_coe]
    omega

theorem uint_of_byte_of_plain (signed_char : Bool) (b : Nat)
    (h : signed_char = false ∨ b < 128) : uint_of_byte signed_char b = b := by
  unfold uint_of_byte
  have hs : ¬ (signed_char = true ∧ 128 ≤ b) := by
    rintro ⟨h1, h2⟩
    rcases h with h | h
    · rw [h] at h1
      exact Bool.noConfusion h1
    · omega
  rw [if_neg hs]

theorem hash_step_eq (h c : Nat) :
    (h + ((h <<< 5) % UINT_MOD + c) % UINT_MOD) % UINT_MOD = (h * 33 + c) % 2 ^ 32 := by
  rw [Nat.shiftLeft_eq]
  unfold UINT_MOD
  omega

theorem hash_fold_eq (signed_char : Bool) (bytes : List Nat) (hb : ∀ c ∈ bytes, c ≤ 255)
    (h : Nat) :
    (key_of_bytes signed_char bytes).foldl
        (fun h c => (h + ((h <<< 5) % UINT_MOD + char_to_uint c) % UINT_MOD) % UINT_MOD) h =
      bytes.foldl (fun h c => (h * 33 + uint_of_byte signed_char c) % 2 ^ 32) h := by
  induction bytes generalizing h with
  | nil => rfl
  | cons c bytes ih =>
    unfold key_of_bytes
    rw [List.map_cons, List.foldl_cons, List.foldl_cons]
    rw [char_to_uint_of_byte signed_char c (hb c (List.mem_cons_self _ _)), hash_step_eq]
    exact ih (fun c2 hc2 => hb c2 (List.mem_cons_of_mem _ hc2)) _

theorem fold_uint_of_byte_eq (signed_char : Bool) (bytes : List Nat)
    (hb : signed_char = false ∨ ∀ c ∈ bytes, c < 128) (h : Nat) :
    bytes.foldl (fun h c => (h * 33 + uint_of_byte signed_char c) % 2 ^ 32) h =
      bytes.foldl (fun h c => (h * 33 + c) % 2 ^ 32) h := by
  induction bytes generalizing h with
  | nil => rfl
  | cons c bytes ih =>
    rw [List.foldl_cons, List.foldl_cons]
    have hc : uint_of_byte signed_char c = c :=
      uint_of_byte_of_plain signed_char c
        (hb.imp id (fun hall => hall c (List.mem_cons_self _ _)))
    rw [hc]
    exact ih (hb.imp id (fun hall c2 hc2 => hall c2 (List.mem_cons_of_mem _ hc2))) _

theorem c_string_key_of_bytes (signed_char : Bool) (bytes : List Nat)
    (hb : ∀ c ∈ bytes, 1 ≤ c ∧ c ≤ 255) : c_string (key_of_bytes signed_char bytes) := by
  unfold c_string key_of_bytes
  intro c hmem hc0
  obtain ⟨b, hbmem, hb0⟩ := List.mem_map.mp hmem
  have h1 := hb b hbmem
  unfold char_of_byte at hb0
  simp only [Int.ofNat_eq_coe] at hb0
  split at hb0 <;> omega

/-- C14 (counterexample): where `char` is signed, the one-byte key `0xE9` (233) is the `char`
`-23`; `c = *key++` sign-extends it, so `hash` returns `5381 * 33 - 23 = 177550`, while the
fold over the byte value gives `5381 * 33 + 233 = 177806`. -/
theorem hash_of_high_byte_differs_from_fold :
    key_of_bytes true [233] = [-23] ∧
    c_string (key_of_bytes true [233]) ∧
    hash (key_of_bytes true [233]) = 177550 ∧
    hash_spec [233] = 177806 ∧
    hash (key_of_bytes true [233]) ≠ hash_spec [233] := by
  decide

/-- C14 (amended): for a key given by its non-zero bytes, whether `char` is signed or not,
`hash` is the left fold from 5381 of `h ↦ (h * 33 + c) mod 2 ^ 32` in which `c` is the
`char` converted to `unsigned int`: the byte value, or the byte value plus `2 ^ 32 - 256`
for a byte of `0x80` or more in a signed `char`.  The chain `find` walks for the key is the
one at index `hash(key) mod size`: the slot it returns lies in that bucket, at the position
where the walk of that chain stops.  Where `char` is unsigned, and for every key whose bytes
are all below `0x80`, the fold is the one over the byte values themselves. -/
theorem hash_refines_spec (signed_char : Bool) (bytes : List Nat) (table : hash_table)
    (hb : ∀ c ∈ bytes, 1 ≤ c ∧ c ≤ 255) :
    c_string (key_of_bytes signed_char bytes) ∧
    hash (key_of_bytes signed_char bytes) =
      bytes.foldl (fun h c => (h * 33 + uint_of_byte signed_char c) % 2 ^ 32) 5381 ∧
    (find table (key_of_bytes signed_char bytes)).index =
      bytes.foldl (fun h c => (h * 33 + uint_of_byte signed_char c) % 2 ^ 32) 5381 %
        hash_table_size table ∧
    (find table (key_of_bytes signed_char bytes)).pos =
      find_walk (key_of_bytes signed_char bytes)
        (bucket_at table
          (bytes.foldl (fun h c => (h * 33 + uint_of_byte signed_char c) % 2 ^ 32) 5381 %
            hash_table_size table)) ∧
    ((signed_char = false ∨ ∀ c ∈ bytes, c < 128) →
      hash (key_of_bytes signed_char bytes) = hash_spec bytes ∧
      (find table (key_of_bytes signed_char bytes)).index =
        hash_spec bytes % hash_table_size table ∧
      (find table (key_of_bytes signed_char bytes)).pos =
        find_walk (key_of_bytes signed_char bytes)
          (bucket_at table (hash_spec bytes % hash_table_size table))) := by
  have hh : hash (key_of_bytes signed_char bytes) =
      bytes.foldl (fun h c => (h * 33 + uint_of_byte signed_char c) % 2 ^ 32) 5381 := by
    unfold hash
    exact hash_fold_eq signed_char bytes (fun c hc => (hb c hc).2) 5381
  have hidx : (find table (key_of_bytes signed_char bytes)).index =
      hash (key_of_bytes signed_char bytes) % hash_table_size table := rfl
  have hpos : (find table (key_of_bytes signed_char bytes)).pos =
      find_walk (key_of_bytes signed_char bytes)
        (bucket_at table (hash (key_of_bytes signed_char bytes) % hash_table_size table)) :=
    rfl
  refine ⟨c_string_key_of_bytes signed_char bytes hb, hh, ?_, ?_, ?_⟩
  · rw [hidx, hh]
  · rw [hpos, hh]
  · intro hplain
    have hs : hash (key_of_bytes signed_char bytes) = hash_spec bytes := by
      rw [hh]
      unfold hash_spec
      exact fold_uint_of_byte_eq signed_char bytes hplain 5381
    refine ⟨hs, ?_, ?_⟩
    · rw [hidx, hs]
    · rw [hpos, hs]

theorem hash_refines_spec_witness :
    hash (key_of_bytes true [107, 233]) = 5863417 ∧
    (find ⟨2, [[], []]⟩ (key_of_bytes true [107, 233])).index = 1 ∧
    hash (key_of_bytes true [107, 48]) = hash_spec [107, 48] ∧
    (find ⟨2, [[], []]⟩ (key_of_bytes true [107, 48])).index = hash_spec [107, 48] % 2 ∧
    hash_spec [107, 48] = 5863488 :=
  have h := hash_refines_spec true [107, 233] ⟨2, [[], []]⟩ (by decide)
  have h2 := hash_refines_spec true [107, 48] ⟨2, [[], []]⟩ (by decide)
  ⟨h.2.1.trans (by decide), h.2.2.1.trans (by decide),
    (h2.2.2.2.2 (Or.inr (by decide))).1, (h2.2.2.2.2 (Or.inr (by decide))).2.1, by decide⟩

/-! ## The copy of a table into a fresh table of the same size -/

theorem flatten_map_single (n i : Nat) (chain : List hash_table_item) :
    ((List.range n).map (fun j => if j = i then chain else [])).flatten =
      if i < n then chain else [] := by
  induction n with
  | zero => simp
  | succ n ih =>
    rw [List.range_succ, List.map_append, List.flatten_append, ih]
    by_cases h1 : i < n
    · have h2 : ¬ n = i := by omega
      have h3 : i < n + 1 := by omega
      simp [h1, h2, h3]
    · by_cases h2 : n = i
      · have h3 : i < n + 1 := by omega
        simp [h1, h2, h3]
      · have h3 : ¬ i < n + 1 := by omega
        simp [h1, h2, h3]

/-- In a well-formed table the items whose key hashes to `i` are the chain of bucket `i`. -/
theorem filter_items_eq_bucket (table : hash_table) (h : well_formed table) (i : Nat)
    (hi : i < table.size) :
    (items table).filter (fun it => hash it.key % table.size = i) = bucket_at table i := by
  unfold items
  rw [List.filter_flatten, List.map_map]
  have hmap : (List.range table.size).map
      (List.filter (fun it => decide (hash it.key % table.size = i)) ∘ bucket_at table) =
      (List.range table.size).map (fun j => if j = i then bucket_at table i else []) := by
    apply List.map_congr_left
    intro j hj
    rw [List.mem_range] at hj
    show List.filter _ (bucket_at table j) = _
    by_cases hji : j = i
    · rw [if_pos hji, hji, List.filter_eq_self]
      intro it hit
      simpa using ((h.2.2 i hi).2 it hit).2.1
    · rw [if_neg hji, List.filter_eq_nil_iff]
      intro it hit
      have := ((h.2.2 j hj).2 it hit).2.1
      simp only [decide_eq_true_eq]
      omega
  rw [hmap, flatten_map_single, if_pos hi]

theorem hash_table_ext (t1 t2 : hash_table) (hsize : t1.size = t2.size)
    (hlen1 : t1.buckets.length = t1.size) (hlen2 : t2.buckets.length = t2.size)
    (hb : ∀ i < t1.size, bucket_at t1 i = bucket_at t2 i) : t1 = t2 := by
  cases t1 with
  | mk size1 buckets1 =>
    cases t2 with
    | mk size2 buckets2 =>
      simp only at hsize hlen1 hlen2
      subst hsize
      have : buckets1 = buckets2 := by
        apply List.ext_getElem (by rw [hlen1, hlen2])
        intro i h1 h2
        have := hb i (by rw [← hlen1]; exact h1)
        simp only [bucket_at, List.getD_eq_getElem?_getD, List.getElem?_eq_getElem h1,
          List.getElem?_eq_getElem h2, Option.getD_some] at this
        exact this
      rw [this]

/-- The table `hash_table_clone` builds from a well-formed source is the source, entry for
entry. -/
theorem clone_eq_source (dest_addr table : Option hash_table) (source : hash_table)
    (h : well_formed source) : hash_table_clone dest_addr source table = some source := by
  obtain ⟨result, hcopy, h1, h2, h3, _, _⟩ := copy_into_fresh source h source.size h.1
  have hres : hash_table_clone dest_addr source table = some result := by
    unfold hash_table_clone
    simp only [init_of_two_le table source.size h.1, hcopy, Bool.true_eq_false, if_false]
  rw [hres]
  congr 1
  apply hash_table_ext result source h1 (by rw [h2, h1]) h.2.1
  intro i hi
  rw [h1] at hi
  rw [h3 i hi, filter_items_eq_bucket source h i hi]

/-- C20: the clone of a well-formed table is structurally identical to it: the same bucket
count, and at every bucket index the same entries (key and value) in the same order. -/
theorem clone_structurally_identical (dest_addr table : Option hash_table)
    (source : hash_table) (hwf : well_formed source) :
    ∃ clone, hash_table_clone dest_addr source table = some clone ∧
      hash_table_size clone = hash_table_size source ∧
      ∀ i, bucket_at clone i = bucket_at source i ∧
        (bucket_at clone i).map (fun item => (item.key, item.value)) =
          (bucket_at source i).map (fun item => (item.key, item.value)) :=
  ⟨source, clone_eq_source dest_addr table source hwf, rfl, fun _ => ⟨rfl, rfl⟩⟩

theorem clone_structurally_identical_witness :
    ∃ clone,
      hash_table_clone none ⟨2, [[⟨7, [97], false⟩, ⟨9, [99], false⟩], [⟨5, [98], false⟩]]⟩
        none = some clone ∧
      hash_table_size clone =
        hash_table_size ⟨2, [[⟨7, [97], false⟩, ⟨9, [99], false⟩], [⟨5, [98], false⟩]]⟩ ∧
      bucket_at clone 0 = [⟨7, [97], false⟩, ⟨9, [99], false⟩] :=
  have h := clone_structurally_identical none none
    ⟨2, [[⟨7, [97], false⟩, ⟨9, [99], false⟩], [⟨5, [98], false⟩]]⟩ (by decide)
  h.elim fun clone hc => ⟨clone, hc.1, hc.2.1, (hc.2.2 0).1.trans (by decide)⟩

/-! ## Resize always succeeds -/

/-- C16: for a well-formed table and `n2 ≥ 2`, the copy with `overwrite = false` into the
freshly initialized table of `n2` buckets returns true, so resize replaces the table by that
copy, and the size afterwards is `n2`. -/
theorem resize_replaces_table (table : hash_table) (n2 : Nat) (new_table : Option hash_table)
    (hwf : well_formed table) (hn : 2 ≤ n2) :
    ∃ fresh, hash_table_init new_table n2 = some fresh ∧
      hash_table_is_empty fresh = true ∧ hash_table_size fresh = n2 ∧
      (hash_table_copy fresh table false).1 = true ∧
      hash_table_resize table n2 new_table = (hash_table_copy fresh table false).2 ∧
      hash_table_size (hash_table_resize table n2 new_table) = n2 := by
  obtain ⟨result, hcopy, h1, _, _, _, _⟩ := copy_into_fresh table hwf n2 hn
  refine ⟨⟨n2, List.replicate n2 []⟩, init_of_two_le new_table n2 hn, ?_, rfl, ?_, ?_, ?_⟩
  · unfold hash_table_is_empty
    rw [List.all_eq_true]
    intro i hi
    rw [List.mem_range] at hi
    simp [bucket_at, List.getD_eq_getElem?_getD, List.getElem?_replicate, hi]
  · rw [hcopy]
  · unfold hash_table_resize
    simp only [init_of_two_le new_table n2 hn, hcopy, Bool.true_eq_false, if_false]
  · unfold hash_table_resize
    simp only [init_of_two_le new_table n2 hn, hcopy, Bool.true_eq_false, if_false]
    exact h1

theorem resize_replaces_table_witness :
    ∃ fresh, hash_table_init none 3 = some fresh ∧
      (hash_table_copy fresh ⟨2, [[⟨7, [97], false⟩], [⟨5, [98], false⟩]]⟩ false).1 = true ∧
      hash_table_size
        (hash_table_resize ⟨2, [[⟨7, [97], false⟩], [⟨5, [98], false⟩]]⟩ 3 none) = 3 :=
  have h := resize_replaces_table ⟨2, [[⟨7, [97], false⟩], [⟨5, [98], false⟩]]⟩ 3 none
    (by decide) (by decide)
  h.elim fun fresh hf => ⟨fresh, hf.1, hf.2.2.2.1, hf.2.2.2.2.2⟩

/-! ## Delete leaves the other keys alone -/

theorem delete_found_buckets (table : hash_table) (key : Key) (h : well_formed table)
    (pre post : List hash_table_item) (item : hash_table_item)
    (hf : slot_get table (find table key) = some item)
    (hsplit : bucket_at table (hash key % table.size) = pre ++ item :: post)
    (hpos : (find table key).pos = pre.length) (i : Nat) :
    bucket_at (hash_table_delete table key).2 i =
      if i = hash key % table.size then pre ++ post else bucket_at table i := by
  rw [delete_of_found table key item hf, slot_set_found table key pre post item hsplit hpos,
    bucket_at_set table _ _ _ (index_lt_length table h key)]

theorem size_delete (table : hash_table) (key : Key) :
    (hash_table_delete table key).2.size = table.size := by
  cases hf : slot_get table (find table key) with
  | none => rw [delete_of_absent table key ((search_eq_none_iff table key).mpr hf)]
  | some item => rw [delete_of_found table key item hf]; rfl

/-- C19: in a well-formed table, for keys `k ≠ k2` of length 1..50, delete of `k` leaves
the result of a search for `k2` unchanged whether or not it succeeds; and when it succeeds,
the chain that held `k` is the old chain without the one entry of `k`, the other entries in
their order, and every other chain is unchanged. -/
theorem delete_frame (table : hash_table) (k k2 : Key) (hwf : well_formed table)
    (hk : valid_key k) (hk2 : valid_key k2) (hne : k ≠ k2) :
    hash_table_search (hash_table_delete table k).2 k2 = hash_table_search table k2 ∧
    ((hash_table_delete table k).1 = true →
      ∃ pre item post,
        bucket_at table (hash k % table.size) = pre ++ item :: post ∧ item.key = k ∧
        (∀ x ∈ pre ++ post, x.key ≠ k) ∧
        bucket_at (hash_table_delete table k).2 (hash k % table.size) = pre ++ post ∧
        ∀ i, i ≠ hash k % table.size →
          bucket_at (hash_table_delete table k).2 i = bucket_at table i) := by
  cases hf : slot_get table (find table k) with
  | none =>
    rw [delete_of_absent table k ((search_eq_none_iff table k).mpr hf)]
    exact ⟨rfl, fun h => absurd h (by simp)⟩
  | some item =>
    obtain ⟨pre, post, hsplit, hpos, hkey, hpre, hpost⟩ :=
      found_split_valid table k item hwf hk hf
    have hb := delete_found_buckets table k hwf pre post item hf hsplit hpos
    constructor
    · rw [hash_table_search_eq, hash_table_search_eq, size_delete, hb]
      by_cases hi : hash k2 % table.size = hash k % table.size
      · rw [if_pos hi, hi, hsplit, List.find?_append, List.find?_append]
        have hrel : ¬ relation item k2 = true := by
          intro hr
          have hmem : item ∈ bucket_at table (hash k2 % table.size) := by
            rw [hi, hsplit]; exact List.mem_append_right _ (List.mem_cons_self _ _)
          have := (relation_iff_of_wf table hwf k2 hk2 item hmem).mp hr
          exact hne (hkey.symm.trans this)
        have hcons : List.find? (fun item => relation item k2) (item :: post) =
            List.find? (fun item => relation item k2) post := by
          simp [List.find?_cons, hrel]
        rw [hcons]
      · rw [if_neg hi]
    · intro _
      refine ⟨pre, item, post, hsplit, hkey, ?_, ?_, ?_⟩
      · intro x hx
        rcases List.mem_append.mp hx with hx | hx
        · exact hpre x hx
        · exact hpost x hx
      · rw [hb, if_pos rfl]
      · intro i hi
        rw [hb, if_neg hi]

theorem delete_frame_witness :
    hash_table_search
        (hash_table_delete ⟨2, [[⟨7, [97], false⟩, ⟨9, [99], false⟩], [⟨5, [98], false⟩]]⟩
          [97]).2 [99] =
      hash_table_search ⟨2, [[⟨7, [97], false⟩, ⟨9, [99], false⟩], [⟨5, [98], false⟩]]⟩ [99] ∧
    bucket_at
        (hash_table_delete ⟨2, [[⟨7, [97], false⟩, ⟨9, [99], false⟩], [⟨5, [98], false⟩]]⟩
          [97]).2 0 = [⟨9, [99], false⟩] :=
  ⟨(delete_frame ⟨2, [[⟨7, [97], false⟩, ⟨9, [99], false⟩], [⟨5, [98], false⟩]]⟩ [97] [99]
      (by decide) (by decide) (by decide) (by decide)).1, by decide⟩

/-! ## Inserting a list of distinct keys -/

theorem search_after_insert_other (table : hash_table) (h : well_formed table) (key : Key)
    (value : item_type) (hk : valid_key key) (hs : hash_table_search table key = none)
    (k2 : Key) (hk2 : valid_key k2) (hne : k2 ≠ key) :
    hash_table_search (hash_table_insert table key value).2 k2 =
      hash_table_search table k2 := by
  rw [insert_of_absent table key value hk hs, hash_table_search_eq, hash_table_search_eq]
  show Option.map _ (List.find? _ (bucket_at _ (hash k2 % table.size))) = _
  rw [bucket_at_set table _ _ _ (index_lt_length table h key)]
  by_cases hi : hash k2 % table.size = hash key % table.size
  · rw [if_pos hi, hi, List.find?_append]
    have hrel : ¬ relation (new_item key value) k2 = true := by
      intro hr
      exact hne ((relation_iff_eq (new_item key value) k2 hk.2 hk2.2).mp hr).symm
    have hnew : List.find? (fun item => relation item k2) [new_item key value] = none := by
      simp [List.find?_cons, hrel]
    rw [hnew, Option.or_none]
  · rw [if_neg hi]

theorem size_insert (table : hash_table) (key : Key) (value : item_type) :
    (hash_table_insert table key value).2.size = table.size := by
  unfold hash_table_insert
  by_cases hc : strnlen key HASH_TABLE_MAX_KEY_LENGTH < 1 ∨
      char_at key (strnlen key HASH_TABLE_MAX_KEY_LENGTH) ≠ 0
  · simp only [if_pos hc]
  · simp only [if_neg hc]
    cases slot_get table (find table key) <;> rfl

theorem insert_each_run (table : hash_table) (kvs : List (Key × item_type)) :
    (insert_each table kvs).2 = run table (kvs.map (fun kv => call.insert kv.1 kv.2)) := by
  induction kvs generalizing table with
  | nil => rfl
  | cons kv kvs ih =>
    unfold insert_each run
    rw [List.map_cons, List.foldl_cons]
    exact ih _

/-- Inserting pairs with pairwise distinct valid keys, none of them in the table: every
insert returns true, the keys are added, and each key is found with its value. -/
theorem insert_each_spec (table : hash_table) (h : well_formed table)
    (kvs : List (Key × item_type)) (hv : ∀ kv ∈ kvs, valid_key kv.1)
    (hnd : (kvs.map Prod.fst).Nodup) (hnew : ∀ kv ∈ kvs, kv.1 ∉ keys table) :
    (insert_each table kvs).1 = List.replicate kvs.length true ∧
    well_formed (insert_each table kvs).2 ∧
    (insert_each table kvs).2.size = table.size ∧
    List.Perm (keys (insert_each table kvs).2) (kvs.map Prod.fst ++ keys table) ∧
    (∀ kv ∈ kvs, hash_table_search (insert_each table kvs).2 kv.1 = some kv.2) ∧
    ∀ k, valid_key k → k ∉ kvs.map Prod.fst →
      hash_table_search (insert_each table kvs).2 k = hash_table_search table k := by
  induction kvs generalizing table with
  | nil =>
    exact ⟨rfl, h, rfl, List.Perm.refl _, fun kv hkv => absurd hkv (List.not_mem_nil _),
      fun _ _ _ => rfl⟩
  | cons kv kvs ih =>
    have hkv := hv kv (List.mem_cons_self _ _)
    have hs : hash_table_search table kv.1 = none :=
      (search_none_iff_not_present table h kv.1 hkv).mpr (hnew kv (List.mem_cons_self _ _))
    have hperm := keys_after_insert_absent table kv.1 kv.2 h hkv hs
    have hwf1 := well_formed_insert_valid table kv.1 kv.2 h hkv
    rw [List.map_cons] at hnd
    have hnd2 := List.nodup_cons.mp hnd
    have hnew1 : ∀ kv2 ∈ kvs, kv2.1 ∉ keys (hash_table_insert table kv.1 kv.2).2 := by
      intro kv2 hkv2 hmem
      rcases List.mem_cons.mp (hperm.subset hmem) with heq | hmem
      · exact hnd2.1 (by rw [← heq]; exact List.mem_map_of_mem _ hkv2)
      · exact hnew kv2 (List.mem_cons_of_mem _ hkv2) hmem
    obtain ⟨ih1, ih2, ih3, ih4, ih5, ih6⟩ := ih (hash_table_insert table kv.1 kv.2).2 hwf1
      (fun kv2 hkv2 => hv kv2 (List.mem_cons_of_mem _ hkv2)) hnd2.2 hnew1
    have htrue : (hash_table_insert table kv.1 kv.2).1 = true := by
      rw [insert_of_absent table kv.1 kv.2 hkv hs]
    refine ⟨?_, ih2, ?_, ?_, ?_, ?_⟩
    · show (hash_table_insert table kv.1 kv.2).1 :: _ = _
      rw [htrue, ih1]
      rfl
    · show (insert_each (hash_table_insert table kv.1 kv.2).2 kvs).2.size = _
      rw [ih3, size_insert]
    · show List.Perm (keys (insert_each (hash_table_insert table kv.1 kv.2).2 kvs).2) _
      refine ih4.trans ?_
      rw [List.map_cons]
      refine (List.Perm.append_left _ hperm).trans ?_
      exact List.perm_middle
    · intro kv2 hkv2
      show hash_table_search (insert_each (hash_table_insert table kv.1 kv.2).2 kvs).2 _ = _
      rcases List.mem_cons.mp hkv2 with heq | hkv2
      · rw [heq, ih6 kv.1 hkv hnd2.1]
        exact search_after_insert table h kv.1 kv.2 hkv hs
      · exact ih5 kv2 hkv2
    · intro k hk hnot
      show hash_table_search (insert_each (hash_table_insert table kv.1 kv.2).2 kvs).2 _ = _
      rw [List.map_cons, List.mem_cons, not_or] at hnot
      rw [ih6 k hk hnot.2]
      exact search_after_insert_other table h kv.1 kv.2 hkv hs k hk hnot.1

theorem well_formed_fresh (n : Nat) (h : 2 ≤ n) :
    well_formed ⟨n, List.replicate n []⟩ := by
  obtain ⟨t, ht, hwf, _, _⟩ := well_formed_init none n h
  rw [init_of_two_le none n h] at ht
  rw [Option.some.inj ht]
  exact hwf

theorem keys_fresh (n : Nat) : keys (⟨n, List.replicate n []⟩ : hash_table) = [] := by
  unfold keys
  rw [items_eq_flatten _ (by simp)]
  simp

theorem many_pairs_spec :
    (∀ kv ∈ many_pairs, valid_key kv.1) ∧ (many_pairs.map Prod.fst).Nodup ∧
    many_pairs.length = 2 ^ 32 := by
  refine ⟨?_, ?_, ?_⟩
  · intro kv hkv
    unfold many_pairs at hkv
    obtain ⟨n, _, rfl⟩ := List.mem_map.mp hkv
    unfold valid_key HASH_TABLE_MAX_KEY_LENGTH
    rw [length_key_of_nat]
    omega
  · unfold many_pairs
    rw [List.map_map]
    refine List.Nodup.map_on ?_ (List.nodup_range _)
    intro n hn m hm hnm
    exact key_of_nat_injective 32 n m (List.mem_range.mp hn) (List.mem_range.mp hm) hnm
  · unfold many_pairs
    rw [List.length_map, List.length_range]

/-- C11 (counterexample): `2 ^ 32` pairwise distinct valid keys inserted into a fresh table
of `2 ^ 30` buckets.  Every insert returns true, and the `unsigned int` counter of
`hash_table_count` has wrapped to 0, which is not the number of keys. -/
theorem count_is_zero_after_two_pow_32_keys :
    hash_table_init none (2 ^ 30) = some ⟨2 ^ 30, List.replicate (2 ^ 30) []⟩ ∧
    (∀ kv ∈ many_pairs, valid_key kv.1) ∧ (many_pairs.map Prod.fst).Nodup ∧
    many_pairs.length = 2 ^ 32 ∧
    (insert_each ⟨2 ^ 30, List.replicate (2 ^ 30) []⟩ many_pairs).1 =
      List.replicate many_pairs.length true ∧
    hash_table_count (insert_each ⟨2 ^ 30, List.replicate (2 ^ 30) []⟩ many_pairs).2 = 0 := by
  obtain ⟨hv, hnd, hlen⟩ := many_pairs_spec
  obtain ⟨h1, _, _, h4, _, _⟩ := insert_each_spec ⟨2 ^ 30, List.replicate (2 ^ 30) []⟩
    (well_formed_fresh _ (by norm_num)) many_pairs hv hnd
    (by intro kv _; rw [keys_fresh]; exact List.not_mem_nil _)
  refine ⟨init_of_two_le none _ (by norm_num), hv, hnd, hlen, h1, ?_⟩
  rw [hash_table_count_eq, ← length_keys, h4.length_eq, keys_fresh, List.append_nil,
    List.length_map, hlen]
  exact Nat.mod_self _

/-- C11 (amended): pairwise distinct valid keys inserted one after another into a freshly
initialized table of `n ≥ 2` buckets.  Every insert returns true, the count is the number
of keys modulo `2 ^ 32` (the number of keys when that is below `2 ^ 32`), the size is
still `n`, and a search for each key returns the value it was inserted with. -/
theorem insert_distinct_keys (n : Nat) (kvs : List (Key × item_type)) (hn : 2 ≤ n)
    (hvalid : ∀ kv ∈ kvs, valid_key kv.1) (hnodup : (kvs.map Prod.fst).Nodup) :
    hash_table_init none n = some ⟨n, List.replicate n []⟩ ∧
    (insert_each ⟨n, List.replicate n []⟩ kvs).1 = List.replicate kvs.length true ∧
    hash_table_count (insert_each ⟨n, List.replicate n []⟩ kvs).2 =
      kvs.length % UINT_MOD ∧
    (kvs.length < UINT_MOD →
      hash_table_count (insert_each ⟨n, List.replicate n []⟩ kvs).2 = kvs.length) ∧
    hash_table_size (insert_each ⟨n, List.replicate n []⟩ kvs).2 = n ∧
    ∀ kv ∈ kvs, hash_table_search (insert_each ⟨n, List.replicate n []⟩ kvs).2 kv.1 =
      some kv.2 := by
  obtain ⟨h1, _, h3, h4, h5, _⟩ := insert_each_spec ⟨n, List.replicate n []⟩
    (well_formed_fresh n hn) kvs hvalid hnodup
    (by intro kv _; rw [keys_fresh]; exact List.not_mem_nil _)
  have hcount : hash_table_count (insert_each ⟨n, List.replicate n []⟩ kvs).2 =
      kvs.length % UINT_MOD := by
    rw [hash_table_count_eq, ← length_keys, h4.length_eq, keys_fresh, List.append_nil,
      List.length_map]
  refine ⟨init_of_two_le none n hn, h1, hcount, ?_, h3, h5⟩
  intro hlt
  rw [hcount, Nat.mod_eq_of_lt hlt]

theorem insert_distinct_keys_witness :
    (insert_each ⟨2, List.replicate 2 []⟩ k0_to_k9).1 = List.replicate k0_to_k9.length true ∧
    hash_table_count (insert_each ⟨2, List.replicate 2 []⟩ k0_to_k9).2 = k0_to_k9.length ∧
    k0_to_k9.length = 10 ∧
    hash_table_size (insert_each ⟨2, List.replicate 2 []⟩ k0_to_k9).2 = 2 ∧
    hash_table_search (insert_each ⟨2, List.replicate 2 []⟩ k0_to_k9).2 [107, 55] = some 7 :=
  have h := insert_distinct_keys 2 k0_to_k9 (by decide) (by decide) (by decide)
  ⟨h.2.1, h.2.2.2.1 (by decide), rfl, h.2.2.2.2.1, h.2.2.2.2.2 ([107, 55], 7) (by decide)⟩

/-! ## Copy without overwrite into any table -/

theorem takeWhile_congr_mem (p q : hash_table_item → Bool) (l : List hash_table_item)
    (h : ∀ x ∈ l, p x = q x) : l.takeWhile p = l.takeWhile q := by
  induction l with
  | nil => rfl
  | cons a l ih =>
    rw [List.takeWhile_cons, List.takeWhile_cons, h a (List.mem_cons_self _ _),
      ih (fun x hx => h x (List.mem_cons_of_mem _ hx))]

theorem present_after_insert_absent (table : hash_table) (key : Key) (value : item_type)
    (h : well_formed table) (hk : valid_key key) (hs : hash_table_search table key = none)
    (k2 : Key) :
    present (hash_table_insert table key value).2 k2 ↔ k2 = key ∨ present table k2 := by
  unfold present
  rw [(keys_after_insert_absent table key value h hk hs).mem_iff, List.mem_cons]

/-- The loop of `hash_table_copy` with `hash_table_insert` on any well-formed destination:
it returns true exactly when the destination holds none of the keys, and in every case
each bucket of the destination has kept its chain and gained, behind it, the items visited
before the first key the destination already held. -/
theorem copy_loop_insert_any_dest (l : List hash_table_item) (dest : hash_table)
    (hd : well_formed dest)
    (hvalid : ∀ it ∈ l, valid_key it.key ∧ it.freed = false)
    (hnodup : (l.map (fun it => it.key)).Nodup) :
    ((copy_loop hash_table_insert dest l).1 = true ↔ ∀ it ∈ l, ¬ present dest it.key) ∧
    well_formed (copy_loop hash_table_insert dest l).2 ∧
    (copy_loop hash_table_insert dest l).2.size = dest.size ∧
    ∀ i < dest.size, bucket_at (copy_loop hash_table_insert dest l).2 i =
      bucket_at dest i ++
        (l.takeWhile (fun it => decide (¬ present dest it.key))).filter
          (fun it => hash it.key % dest.size = i) := by
  induction l generalizing dest with
  | nil =>
    refine ⟨by simp [copy_loop], hd, rfl, ?_⟩
    intro i _
    simp [copy_loop]
  | cons it rest ih =>
    have hiv := hvalid it (List.mem_cons_self _ _)
    by_cases hp : present dest it.key
    · have hs : hash_table_search dest it.key ≠ none := fun hn =>
        (search_none_iff_not_present dest hd it.key hiv.1).mp hn hp
      have hloop : copy_loop hash_table_insert dest (it :: rest) = (false, dest) := by
        unfold copy_loop
        simp only [insert_of_found dest it.key it.value hs, if_true]
      rw [hloop]
      refine ⟨?_, hd, rfl, ?_⟩
      · constructor
        · intro hf; exact absurd hf (by simp)
        · intro hall; exact absurd hp (hall it (List.mem_cons_self _ _))
      · intro i _
        have htw : (it :: rest).takeWhile (fun it => decide (¬ present dest it.key)) = [] := by
          rw [List.takeWhile_cons]
          simp [hp]
        rw [htw]
        simp
    · have hs : hash_table_search dest it.key = none :=
        (search_none_iff_not_present dest hd it.key hiv.1).mpr hp
      have hins := insert_of_absent dest it.key it.value hiv.1 hs
      rw [new_item_eq it hiv.2] at hins
      have hwf1 := well_formed_insert_valid dest it.key it.value hd hiv.1
      have hloop : copy_loop hash_table_insert dest (it :: rest) =
          copy_loop hash_table_insert (hash_table_insert dest it.key it.value).2 rest := by
        conv_lhs => unfold copy_loop
        simp only [hins, Bool.true_eq_false, if_false]
      rw [List.map_cons] at hnodup
      have hnd2 := List.nodup_cons.mp hnodup
      obtain ⟨ih1, ih2, ih3, ih4⟩ := ih (hash_table_insert dest it.key it.value).2 hwf1
        (fun x hx => hvalid x (List.mem_cons_of_mem _ hx)) hnd2.2
      have hpres : ∀ x ∈ rest,
          (present (hash_table_insert dest it.key it.value).2 x.key ↔ present dest x.key) := by
        intro x hx
        rw [present_after_insert_absent dest it.key it.value hd hiv.1 hs]
        constructor
        · rintro (heq | hpx)
          · exact absurd (by rw [← heq]; exact List.mem_map_of_mem _ hx) hnd2.1
          · exact hpx
        · exact Or.inr
      have htake : rest.takeWhile
          (fun x => decide (¬ present (hash_table_insert dest it.key it.value).2 x.key)) =
          rest.takeWhile (fun x => decide (¬ present dest x.key)) := by
        apply takeWhile_congr_mem
        intro x hx
        simp only [hpres x hx]
      rw [hloop]
      refine ⟨?_, ih2, ?_, ?_⟩
      · rw [ih1]
        constructor
        · intro hall x hx
          rcases List.mem_cons.mp hx with rfl | hx
          · exact hp
          · exact fun hpx => hall x hx ((hpres x hx).mpr hpx)
        · intro hall x hx hpx
          exact hall x (List.mem_cons_of_mem _ hx) ((hpres x hx).mp hpx)
      · rw [ih3, size_insert]
      · intro i hi
        rw [ih4 i (by rw [size_insert]; exact hi), htake, size_insert]
        have htw : (it :: rest).takeWhile (fun it => decide (¬ present dest it.key)) =
            it :: rest.takeWhile (fun it => decide (¬ present dest it.key)) := by
          rw [List.takeWhile_cons]
          simp [hp]
        rw [htw, hins]
        show bucket_at { dest with buckets := _ } i ++ _ = _
        rw [bucket_at_set dest _ _ _ (index_lt_length dest hd it.key), List.filter_cons]
        by_cases hii : i = hash it.key % dest.size
        · have : hash it.key % dest.size = i := hii.symm
          simp [hii]
        · have : ¬ hash it.key % dest.size = i := fun h => hii h.symm
          simp [hii, this]

theorem takeWhile_split (p : hash_table_item → Bool) (l : List hash_table_item) :
    (∀ x ∈ l.takeWhile p, p x = true) ∧
    ((∀ x ∈ l, p x = true) ∨ ∃ a rest, l = l.takeWhile p ++ a :: rest ∧ p a = false) := by
  induction l with
  | nil => exact ⟨by simp, Or.inl (by simp)⟩
  | cons b l ih =>
    cases hb : p b with
    | false =>
      rw [List.takeWhile_cons, hb]
      exact ⟨by simp, Or.inr ⟨b, l, by simp, hb⟩⟩
    | true =>
      rw [List.takeWhile_cons, hb]
      refine ⟨?_, ?_⟩
      · intro x hx
        rcases List.mem_cons.mp hx with rfl | hx
        · exact hb
        · exact ih.1 x hx
      · rcases ih.2 with hall | ⟨a, rest, hl, ha⟩
        · left
          intro x hx
          rcases List.mem_cons.mp hx with rfl | hx
          · exact hb
          · exact hall x hx
        · right
          refine ⟨a, rest, ?_, ha⟩
          simp only [if_true, List.cons_append]
          rw [← hl]

theorem valid_of_mem_items (table : hash_table) (h : well_formed table)
    (item : hash_table_item) (hmem : item ∈ items table) :
    valid_key item.key ∧ item.freed = false := by
  obtain ⟨i, hi, hm⟩ := (mem_items table item).mp hmem
  exact ⟨((h.2.2 i hi).2 item hm).1, ((h.2.2 i hi).2 item hm).2.2⟩

/-- C12: for well-formed tables, `copy(dest, source, false)` returns false if and only if
some key of `source` is already present in `dest`.  In every case each chain of `dest` is
kept as it was and gains, behind it, the source entries that hash to it among those that
precede, in bucket order then chain order, the first entry whose key `dest` held; so when
the copy returns false, `dest` has gained exactly those entries and nothing is rolled
back. -/
theorem copy_without_overwrite (dest source : hash_table) (hd : well_formed dest)
    (hs : well_formed source) :
    ((hash_table_copy dest source false).1 = false ↔
      ∃ key, present source key ∧ present dest key) ∧
    ((hash_table_copy dest source false).1 = false →
      ∃ item rest, items source = copied_entries dest source ++ item :: rest ∧
        present dest item.key) ∧
    (∀ item ∈ copied_entries dest source, ¬ present dest item.key) ∧
    hash_table_size (hash_table_copy dest source false).2 = hash_table_size dest ∧
    (∀ i < dest.size, bucket_at (hash_table_copy dest source false).2 i =
      bucket_at dest i ++
        (copied_entries dest source).filter (fun it => hash it.key % dest.size = i)) ∧
    ∀ item, item ∈ items (hash_table_copy dest source false).2 ↔
      item ∈ items dest ∨ item ∈ copied_entries dest source := by
  have hcopy : hash_table_copy dest source false =
      copy_loop hash_table_insert dest (items source) := by
    unfold hash_table_copy
    simp only [Bool.false_eq_true, if_false]
  obtain ⟨h1, _, h3, h4⟩ := copy_loop_insert_any_dest (items source) dest hd
    (valid_of_mem_items source hs) (keys_nodup source hs)
  rw [← hcopy] at h1 h3 h4
  obtain ⟨hpre, hsplit⟩ := takeWhile_split (fun it => decide (¬ present dest it.key))
    (items source)
  have hiff : (hash_table_copy dest source false).1 = false ↔
      ∃ key, present source key ∧ present dest key := by
    rw [← Bool.not_eq_true, h1]
    constructor
    · intro hnot
      by_contra hex
      apply hnot
      intro it hit hp
      exact hex ⟨it.key, List.mem_map_of_mem _ hit, hp⟩
    · rintro ⟨key, hks, hkd⟩ hall
      obtain ⟨it, hit, rfl⟩ := List.mem_map.mp hks
      exact hall it hit hkd
  refine ⟨hiff, ?_, ?_, h3, h4, ?_⟩
  · intro hfalse
    rcases hsplit with hall | ⟨a, rest, hl, ha⟩
    · exfalso
      obtain ⟨key, hks, hkd⟩ := hiff.mp hfalse
      obtain ⟨it, hit, rfl⟩ := List.mem_map.mp hks
      have := hall it hit
      simp only [decide_eq_true_eq] at this
      exact this hkd
    · refine ⟨a, rest, hl, ?_⟩
      simpa using ha
  · intro item hitem
    have := hpre item hitem
    simpa using this
  · intro item
    rw [mem_items, h3]
    constructor
    · rintro ⟨i, hi, hmem⟩
      rw [h4 i hi] at hmem
      rcases List.mem_append.mp hmem with hm | hm
      · exact Or.inl ((mem_items dest item).mpr ⟨i, hi, hm⟩)
      · exact Or.inr (List.mem_filter.mp hm).1
    · rintro (hm | hm)
      · obtain ⟨i, hi, hmi⟩ := (mem_items dest item).mp hm
        exact ⟨i, hi, by rw [h4 i hi]; exact List.mem_append_left _ hmi⟩
      · have hlt : hash item.key % dest.size < dest.size :=
          Nat.mod_lt _ (by have := hd.1; omega)
        refine ⟨_, hlt, ?_⟩
        rw [h4 _ hlt]
        exact List.mem_append_right _ (List.mem_filter.mpr ⟨hm, by simp⟩)

theorem copy_without_overwrite_witness :
    (hash_table_copy ⟨2, [[⟨1, [99], false⟩], []]⟩
        ⟨2, [[⟨7, [97], false⟩, ⟨9, [99], false⟩], [⟨5, [98], false⟩]]⟩ false).1 = false ∧
    bucket_at
        (hash_table_copy ⟨2, [[⟨1, [99], false⟩], []]⟩
          ⟨2, [[⟨7, [97], false⟩, ⟨9, [99], false⟩], [⟨5, [98], false⟩]]⟩ false).2 0 =
      [⟨1, [99], false⟩, ⟨7, [97], false⟩] :=
  have h := copy_without_overwrite ⟨2, [[⟨1, [99], false⟩], []]⟩
    ⟨2, [[⟨7, [97], false⟩, ⟨9, [99], false⟩], [⟨5, [98], false⟩]]⟩ (by decide) (by decide)
  ⟨h.1.mpr ⟨[99], by decide, by decide⟩, (h.2.2.2.2.1 0 (by decide)).trans (by decide)⟩

/-! ## Copy with overwrite -/

theorem present_of_found (table : hash_table) (h : well_formed table) (key : Key)
    (hk : valid_key key) (hs : hash_table_search table key ≠ none) : present table key :=
  (mem_keys_iff table h key).mpr ⟨hk, hs⟩

theorem search_after_upsert_other (table : hash_table) (h : well_formed table) (key : Key)
    (value : item_type) (hk : valid_key key) (k2 : Key) (hk2 : valid_key k2)
    (hne : k2 ≠ key) :
    hash_table_search (hash_table_upsert table key value).2 k2 =
      hash_table_search table k2 := by
  cases hf : slot_get table (find table key) with
  | none =>
    have hs := (search_eq_none_iff table key).mpr hf
    rw [upsert_of_absent table key value hk hs]
    exact search_after_insert_other table h key value hk hs k2 hk2 hne
  | some item =>
    have hs : hash_table_search table key ≠ none := fun hn =>
      absurd ((search_eq_none_iff table key).mp hn) (by rw [hf]; simp)
    have heq : (hash_table_upsert table key value).2 = (hash_table_update table key value).2 := by
      rw [upsert_of_found table key value hk item hf, update_of_found table key value item hf]
    rw [heq]
    exact ((update_valid_key_frame table key value h hk).2
      (present_of_found table h key hk hs)).2.2.2.2.2.2 k2 hk2 hne

theorem size_upsert (table : hash_table) (key : Key) (value : item_type) :
    (hash_table_upsert table key value).2.size = table.size := by
  unfold hash_table_upsert
  by_cases hc : strnlen key HASH_TABLE_MAX_KEY_LENGTH < 1 ∨
      char_at key (strnlen key HASH_TABLE_MAX_KEY_LENGTH) ≠ 0
  · simp only [if_pos hc]
  · simp only [if_neg hc]
    cases slot_get table (find table key) <;> rfl

/-- The loop of `hash_table_copy` with `hash_table_upsert` over items with pairwise distinct
valid keys: no upsert fails; afterwards each of the keys is found with the value of its item
and the search for any other valid key gives what it gave before. -/
theorem copy_loop_upsert (l : List hash_table_item) (dest : hash_table)
    (hd : well_formed dest) (hvalid : ∀ it ∈ l, valid_key it.key)
    (hnodup : (l.map (fun it => it.key)).Nodup) :
    (copy_loop hash_table_upsert dest l).1 = true ∧
    well_formed (copy_loop hash_table_upsert dest l).2 ∧
    (copy_loop hash_table_upsert dest l).2.size = dest.size ∧
    (∀ it ∈ l, hash_table_search (copy_loop hash_table_upsert dest l).2 it.key =
      some it.value) ∧
    ∀ k, valid_key k → k ∉ l.map (fun it => it.key) →
      hash_table_search (copy_loop hash_table_upsert dest l).2 k =
        hash_table_search dest k := by
  induction l generalizing dest with
  | nil =>
    exact ⟨rfl, hd, rfl, fun it hit => absurd hit (List.not_mem_nil _), fun _ _ _ => rfl⟩
  | cons it rest ih =>
    have hiv := hvalid it (List.mem_cons_self _ _)
    have htrue := upsert_returns_true dest it.key it.value hiv
    have hloop : copy_loop hash_table_upsert dest (it :: rest) =
        copy_loop hash_table_upsert (hash_table_upsert dest it.key it.value).2 rest := by
      conv_lhs => unfold copy_loop
      simp only [htrue, Bool.true_eq_false, if_false]
    rw [List.map_cons] at hnodup
    have hnd2 := List.nodup_cons.mp hnodup
    obtain ⟨ih1, ih2, ih3, ih4, ih5⟩ := ih (hash_table_upsert dest it.key it.value).2
      (well_formed_upsert_valid dest it.key it.value hd hiv)
      (fun x hx => hvalid x (List.mem_cons_of_mem _ hx)) hnd2.2
    rw [hloop]
    refine ⟨ih1, ih2, by rw [ih3, size_upsert], ?_, ?_⟩
    · intro x hx
      rcases List.mem_cons.mp hx with rfl | hx
      · rw [ih5 x.key hiv hnd2.1]
        exact search_after_upsert dest x.key x.value hd hiv
      · exact ih4 x hx
    · intro k hk hnot
      rw [List.map_cons, List.mem_cons, not_or] at hnot
      rw [ih5 k hk hnot.2]
      exact search_after_upsert_other dest hd it.key it.value hiv k hk hnot.1

/-- Copy with overwrite between well-formed tables, for keys of valid length: the copy
returns true; afterwards a search in `dest` for a key present in `source` returns the value
`source` has for it, and a search for a valid key not present in `source` returns what it
returned before the copy. -/
theorem copy_with_overwrite_valid_keys (dest source : hash_table) (hd : well_formed dest)
    (hs : well_formed source) :
    (hash_table_copy dest source true).1 = true ∧
    well_formed (hash_table_copy dest source true).2 ∧
    hash_table_size (hash_table_copy dest source true).2 = hash_table_size dest ∧
    (∀ key, present source key →
      hash_table_search source key ≠ none ∧
      hash_table_search (hash_table_copy dest source true).2 key =
        hash_table_search source key) ∧
    ∀ key, valid_key key → ¬ present source key →
      hash_table_search (hash_table_copy dest source true).2 key =
        hash_table_search dest key := by
  have hcopy : hash_table_copy dest source true =
      copy_loop hash_table_upsert dest (items source) := by
    unfold hash_table_copy
    simp only [if_true]
  obtain ⟨h1, h2, h3, h4, h5⟩ := copy_loop_upsert (items source) dest hd
    (fun it hit => (valid_of_mem_items source hs it hit).1) (keys_nodup source hs)
  rw [← hcopy] at h1 h2 h3 h4 h5
  refine ⟨h1, h2, h3, ?_, ?_⟩
  · intro key hp
    obtain ⟨it, hit, rfl⟩ := List.mem_map.mp hp
    have hv := (valid_of_mem_items source hs it hit).1
    have hsrc : hash_table_search source it.key = some it.value :=
      (search_eq_some_iff source hs it.key hv it.value).mpr ⟨it, hit, rfl, rfl⟩
    exact ⟨by rw [hsrc]; exact Option.some_ne_none _, by rw [h4 it hit, hsrc]⟩
  · intro key hk hnp
    exact h5 key hk hnp

/-- C13 (evaluation): `dest` is an empty table of 2 buckets and `source` a table of 3
buckets holding only the 50-byte key `AA…A` with value 9.  The 51-byte key `AA…AB` is not
present in `source`, and a search for it returns false in `source` and, before the copy, in
`dest`.  After `copy(dest, source, true)`, which returns true and adds the entry of the
50-byte key, the search for the 51-byte key in `dest` returns true with value 9: in `dest`
both keys hash to bucket 1, and `find` compares 50 bytes only. -/
theorem copy_overwrite_changes_search_of_overlong_key :
    well_formed ⟨2, [[], []]⟩ ∧
    well_formed ⟨3, [[], [⟨9, List.replicate 50 65, false⟩], []]⟩ ∧
    c_string (List.replicate 50 65 ++ [66]) ∧
    ¬ present ⟨3, [[], [⟨9, List.replicate 50 65, false⟩], []]⟩
      (List.replicate 50 65 ++ [66]) ∧
    hash_table_search ⟨3, [[], [⟨9, List.replicate 50 65, false⟩], []]⟩
      (List.replicate 50 65 ++ [66]) = none ∧
    hash_table_search ⟨2, [[], []]⟩ (List.replicate 50 65 ++ [66]) = none ∧
    hash_table_copy ⟨2, [[], []]⟩ ⟨3, [[], [⟨9, List.replicate 50 65, false⟩], []]⟩ true =
      (true, ⟨2, [[], [⟨9, List.replicate 50 65, false⟩]]⟩) ∧
    hash_table_search
      (hash_table_copy ⟨2, [[], []]⟩ ⟨3, [[], [⟨9, List.replicate 50 65, false⟩], []]⟩
        true).2
      (List.replicate 50 65 ++ [66]) = some 9 := by
  decide

/-! ## Update with a key of invalid length -/

theorem update_empty_key (table : hash_table) (h : well_formed table) (value : item_type) :
    hash_table_update table [] value = (false, table) := by
  apply update_of_absent
  rw [hash_table_search_eq, Option.map_eq_none', List.find?_eq_none]
  intro x hx hrel
  have hv := ((h.2.2 _ (index_lt table h [])).2 x hx).1
  have hkey := (relation_iff_eq x [] hv.2 (by simp)).mp hrel
  unfold valid_key at hv
  rw [hkey] at hv
  simp at hv

/-- An update finds an entry exactly when the stored key equals the first 50 bytes of the
key it is given and lies in the bucket that the whole key hashes to. -/
theorem update_returns_true_iff (table : hash_table) (h : well_formed table) (key : Key)
    (value : item_type) :
    (hash_table_update table key value).1 = true ↔
      ∃ item ∈ bucket_at table (hash key % table.size),
        item.key = key.take HASH_TABLE_MAX_KEY_LENGTH := by
  cases hf : slot_get table (find table key) with
  | none =>
    rw [update_of_absent table key value ((search_eq_none_iff table key).mpr hf)]
    rw [slot_get_find, List.find?_eq_none] at hf
    constructor
    · intro hfalse; exact absurd hfalse (by simp)
    · rintro ⟨item, hmem, hkey⟩
      exfalso
      apply hf item hmem
      rw [relation_iff, ← hkey]
      have hv := ((h.2.2 _ (index_lt table h key)).2 item hmem).1
      rw [List.take_of_length_le hv.2]
  | some item =>
    rw [update_of_found table key value item hf]
    obtain ⟨pre, post, hsplit, _, hrel, _⟩ := found_split table key item hf
    have hmem : item ∈ bucket_at table (hash key % table.size) := by
      rw [hsplit]; exact List.mem_append_right _ (List.mem_cons_self _ _)
    have hv := ((h.2.2 _ (index_lt table h key)).2 item hmem).1
    rw [relation_iff, List.take_of_length_le hv.2] at hrel
    exact ⟨fun _ => ⟨item, hmem, hrel.symm⟩, fun _ => rfl⟩

/-- C15 (evaluation): a table of 3 buckets whose only entry is the 50-byte key `zz…z` with
value 4, and the 51-byte key `zz…zc`, whose length is outside [1, 50].  `update` with the
51-byte key finds the entry of the 50-byte key: it returns true and changes the stored
value from 4 to 8. -/
theorem update_with_overlong_key_finds_entry :
    well_formed ⟨3, [[], [], [⟨4, List.replicate 50 122, false⟩]]⟩ ∧
    c_string (List.replicate 50 122 ++ [99]) ∧
    ¬ valid_key (List.replicate 50 122 ++ [99]) ∧
    (List.replicate 50 122 ++ [99]).length = 51 ∧
    hash_table_update ⟨3, [[], [], [⟨4, List.replicate 50 122, false⟩]]⟩
        (List.replicate 50 122 ++ [99]) 8 =
      (true, ⟨3, [[], [], [⟨8, List.replicate 50 122, false⟩]]⟩) ∧
    hash_table_search ⟨3, [[], [], [⟨4, List.replicate 50 122, false⟩]]⟩
      (List.replicate 50 122) = some 4 ∧
    hash_table_search
      (hash_table_update ⟨3, [[], [], [⟨4, List.replicate 50 122, false⟩]]⟩
        (List.replicate 50 122 ++ [99]) 8).2 (List.replicate 50 122) = some 8 := by
  decide

/-! ## Resize to fewer than two buckets -/

theorem init_below_two (table_addr : Option hash_table) (size : Nat) (h : size < 2) :
    hash_table_init table_addr size = table_addr := by
  unfold hash_table_init
  rw [if_pos h]

/-- When the uninitialized local `new_table` happens to hold a null pointer, resize to
fewer than two buckets returns at `if (!new_table)` and the table is the original one. -/
theorem resize_below_two_of_null (table : hash_table) (size : Nat) (h : size < 2) :
    hash_table_resize table size none = table := by
  unfold hash_table_resize
  rw [init_below_two none size h]

/-- When the uninitialized local `new_table` holds a pointer to a table, resize to fewer
than two buckets copies into that table and, if the copy succeeds, makes it the table. -/
theorem resize_below_two_of_pointer (table stale : hash_table) (size : Nat) (h : size < 2) :
    hash_table_resize table size (some stale) =
      if (hash_table_copy stale table false).1 = false then table
      else (hash_table_copy stale table false).2 := by
  unfold hash_table_resize
  rw [init_below_two (some stale) size h]

/-- C17 (evaluation): `hash_table_resize(&T, 1)` on the 2-bucket table holding `"a"` and
`"b"`.  `hash_table_init` returns at `size < 2` without storing into `new_table`, so the
test `if (!new_table)` reads whatever the local held.  With a null pointer the table is the
original one; with a pointer to a 3-bucket table holding `"x"`, the entries are copied into
that table and it becomes the table: 3 buckets and one more entry. -/
theorem resize_to_one_bucket_with_stale_pointer :
    hash_table_init (some ⟨3, [[⟨42, [120], false⟩], [], []]⟩) 1 =
      some ⟨3, [[⟨42, [120], false⟩], [], []]⟩ ∧
    hash_table_resize ⟨2, [[⟨7, [97], false⟩], [⟨5, [98], false⟩]]⟩ 1 none =
      ⟨2, [[⟨7, [97], false⟩], [⟨5, [98], false⟩]]⟩ ∧
    hash_table_resize ⟨2, [[⟨7, [97], false⟩], [⟨5, [98], false⟩]]⟩ 1
        (some ⟨3, [[⟨42, [120], false⟩], [], []]⟩) =
      ⟨3, [[⟨42, [120], false⟩], [⟨7, [97], false⟩], [⟨5, [98], false⟩]]⟩ ∧
    hash_table_size
      (hash_table_resize ⟨2, [[⟨7, [97], false⟩], [⟨5, [98], false⟩]]⟩ 1
        (some ⟨3, [[⟨42, [120], false⟩], [], []]⟩)) = 3 ∧
    hash_table_size
      (hash_table_resize ⟨2, [[⟨7, [97], false⟩], [⟨5, [98], false⟩]]⟩ 0
        (some ⟨3, [[⟨42, [120], false⟩], [], []]⟩)) = 3 ∧
    hash_table_search
      (hash_table_resize ⟨2, [[⟨7, [97], false⟩], [⟨5, [98], false⟩]]⟩ 1
        (some ⟨3, [[⟨42, [120], false⟩], [], []]⟩)) [120] = some 42 ∧
    hash_table_search ⟨2, [[⟨7, [97], false⟩], [⟨5, [98], false⟩]]⟩ [120] = none := by
  decide

/-- C18 (evaluation): `hash_table_resize(&T, 1)` on the table `T` reached by
`hash_table_init` with 2 buckets and an insert of `"a"`, when the uninitialized local
`new_table` holds the address of `T` itself.  In memory `T` is the struct at address 0, with
its bucket array, one item and one key buffer at addresses 1 to 3; after the call all four
blocks are freed and `*table_addr` is still 0, so the table reached is freed memory.  Step
by step on the content: `hash_table_init` returns at `size < 2` without storing, so
`new_table` still points at `T`; the copy of `T` into itself fails at the first key; the code
then calls `hash_table_close(new_table)`, whose `hash_table_clean` frees every item of
`T`. -/
theorem resize_to_one_bucket_frees_the_table :
    hash_table_init_heap [] none 2 =
      ([some (block.table 2 1), some (block.array [none, none])], some 0) ∧
    hash_table_insert_heap [some (block.table 2 1), some (block.array [none, none])] 0 [97] 7 =
      (true, [some (block.table 2 1), some (block.array [some 2, none]),
        some (block.node 7 3 none), some (block.chars [97])]) ∧
    hash_table_search_heap
      [some (block.table 2 1), some (block.array [some 2, none]),
        some (block.node 7 3 none), some (block.chars [97])] 0 [97] = some 7 ∧
    hash_table_resize_heap
        [some (block.table 2 1), some (block.array [some 2, none]),
          some (block.node 7 3 none), some (block.chars [97])] 0 1 (some 0) =
      ([none, none, none, none], 0) ∧
    heap_read [none, none, none, none] 0 = none ∧
    hash_table_init none 2 = some ⟨2, [[], []]⟩ ∧
    hash_table_insert ⟨2, [[], []]⟩ [97] 7 = (true, ⟨2, [[⟨7, [97], false⟩], []]⟩) ∧
    hash_table_init (some ⟨2, [[⟨7, [97], false⟩], []]⟩) 1 =
      some ⟨2, [[⟨7, [97], false⟩], []]⟩ ∧
    hash_table_copy ⟨2, [[⟨7, [97], false⟩], []]⟩ ⟨2, [[⟨7, [97], false⟩], []]⟩ false =
      (false, ⟨2, [[⟨7, [97], false⟩], []]⟩) ∧
    items (hash_table_clean ⟨2, [[⟨7, [97], false⟩], []]⟩) = [⟨7, [97], true⟩] ∧
    ¬ well_formed (hash_table_clean ⟨2, [[⟨7, [97], false⟩], []]⟩) := by
  decide

/-! ## The invariants of every reachable table -/

theorem well_formed_copy (dest source : hash_table) (overwrite : Bool)
    (hd : well_formed dest) (hs : well_formed source) :
    well_formed (hash_table_copy dest source overwrite).2 := by
  cases overwrite with
  | true => exact (copy_with_overwrite_valid_keys dest source hd hs).2.1
  | false =>
    have hcopy : hash_table_copy dest source false =
        copy_loop hash_table_insert dest (items source) := by
      unfold hash_table_copy
      simp only [Bool.false_eq_true, if_false]
    rw [hcopy]
    exact (copy_loop_insert_any_dest (items source) dest hd (valid_of_mem_items source hs)
      (keys_nodup source hs)).2.1

theorem well_formed_of_reachable (table : hash_table) (h : reachable table) :
    well_formed table := by
  induction h with
  | init table_addr size table hsize hinit =>
    obtain ⟨t, ht, hwf, _, _⟩ := well_formed_init table_addr size hsize
    rw [hinit] at ht
    rw [Option.some.inj ht]
    exact hwf
  | insert table key value _ h0 ih => exact well_formed_insert table key value ih h0
  | upsert table key value _ h0 ih => exact well_formed_upsert table key value ih h0
  | update table key value _ _ ih => exact well_formed_update table key value ih
  | delete table key _ _ ih => exact well_formed_delete table key ih
  | copy dest source overwrite _ _ ihd ihs => exact well_formed_copy dest source overwrite ihd ihs
  | resize table size new_table _ hsize ih =>
    exact (resize_eq table ih size hsize new_table).2.1
  | clone dest_addr local_table source clone _ hclone ih =>
    rw [clone_eq_source dest_addr local_table source ih] at hclone
    rw [← Option.some.inj hclone]
    exact ih

/-- Every table reached from `hash_table_init` (size at least 2) by insert, upsert,
update, delete, copy, resize to a size of at least 2, and clone has at least 2 buckets, no
two entries with the same key, only keys of length 1..50, and every entry in the chain of
bucket `hash(key) mod bucket_count`. -/
theorem reachable_invariants (table : hash_table) (h : reachable table) :
    2 ≤ hash_table_size table ∧
    (keys table).Nodup ∧
    (∀ key ∈ keys table, 1 ≤ key.length ∧ key.length ≤ HASH_TABLE_MAX_KEY_LENGTH) ∧
    ∀ item ∈ items table, item ∈ bucket_at table (hash item.key % hash_table_size table) := by
  have hwf := well_formed_of_reachable table h
  refine ⟨hwf.1, keys_nodup table hwf, ?_, ?_⟩
  · intro key hkey
    obtain ⟨item, hitem, rfl⟩ := List.mem_map.mp hkey
    exact (valid_of_mem_items table hwf item hitem).1
  · intro item hitem
    obtain ⟨i, hi, hmem⟩ := (mem_items table item).mp hitem
    have hidx := ((hwf.2.2 i hi).2 item hmem).2.1
    show item ∈ bucket_at table (hash item.key % table.size)
    rw [hidx]
    exact hmem

theorem reachable_invariants_witness :
    2 ≤ hash_table_size (hash_table_insert ⟨2, [[], []]⟩ [107, 48] 7).2 ∧
    (keys (hash_table_insert ⟨2, [[], []]⟩ [107, 48] 7).2).Nodup ∧
    keys (hash_table_insert ⟨2, [[], []]⟩ [107, 48] 7).2 = [[107, 48]] :=
  have h := reachable_invariants (hash_table_insert ⟨2, [[], []]⟩ [107, 48] 7).2
    (reachable.insert ⟨2, [[], []]⟩ [107, 48] 7
      (reachable.init none 2 ⟨2, [[], []]⟩ (by decide) (by decide)) (by decide))
  ⟨h.1, h.2.1, by decide⟩

/-! ## Memory: blocks, links and the walk of `find` -/

theorem heap_read_lt (h : heap) (a : Nat) (b : block) (hr : heap_read h a = some b) :
    a < h.length := by
  by_contra hn
  unfold heap_read at hr
  rw [List.getD_eq_default _ _ (by omega)] at hr
  exact Option.noConfusion hr

theorem heap_read_append (h l : heap) (a : Nat) (ha : a < h.length) :
    heap_read (h ++ l) a = heap_read h a := by
  unfold heap_read
  rw [List.getD_eq_getElem?_getD, List.getD_eq_getElem?_getD, List.getElem?_append_left ha]

theorem heap_read_append_new (h : heap) (b : Option block) (l : heap) :
    heap_read (h ++ b :: l) h.length = b := by
  unfold heap_read
  rw [List.getD_eq_getElem?_getD, List.getElem?_append_right (le_refl _)]
  simp

theorem heap_read_write_ne (h : heap) (a x : Nat) (b : block) (hx : x ≠ a) :
    heap_read (heap_write h a b) x = heap_read h x := by
  unfold heap_read heap_write
  rw [List.getD_eq_getElem?_getD, List.getD_eq_getElem?_getD, List.getElem?_set_ne (Ne.symm hx)]

theorem heap_read_write_self (h : heap) (a : Nat) (b : block) (ha : a < h.length) :
    heap_read (heap_write h a b) a = some b := by
  unfold heap_read heap_write
  rw [List.getD_eq_getElem?_getD, List.getElem?_set_self ha]
  rfl

theorem heap_read_free_ne (h : heap) (a x : Nat) (hx : x ≠ a) :
    heap_read (free h a) x = heap_read h x := by
  unfold heap_read free
  rw [List.getD_eq_getElem?_getD, List.getD_eq_getElem?_getD, List.getElem?_set_ne (Ne.symm hx)]

theorem length_heap_write (h : heap) (a : Nat) (b : block) :
    (heap_write h a b).length = h.length := by
  unfold heap_write
  rw [List.length_set]

theorem length_free (h : heap) (a : Nat) : (free h a).length = h.length := by
  unfold free
  rw [List.length_set]

theorem load_bucket (h : heap) (array index : Nat) (heads : List (Option Nat))
    (hr : heap_read h array = some (block.array heads)) :
    load h (link.bucket array index) = heads.getD index none := by
  simp only [load, hr]

theorem load_next (h : heap) (item : Nat) (value : item_type) (key : Nat) (next : Option Nat)
    (hr : heap_read h item = some (block.node value key next)) :
    load h (link.next item) = next := by
  simp only [load, hr]

theorem store_bucket (h : heap) (p : Option Nat) (array index : Nat) (heads : List (Option Nat))
    (hr : heap_read h array = some (block.array heads)) :
    store h p (link.bucket array index) =
      heap_write h array (block.array (heads.set index p)) := by
  simp only [store, hr]

theorem store_next (h : heap) (p : Option Nat) (item : Nat) (value : item_type) (key : Nat)
    (next : Option Nat) (hr : heap_read h item = some (block.node value key next)) :
    store h p (link.next item) = heap_write h item (block.node value key p) := by
  simp only [store, hr]

theorem length_store (h : heap) (p : Option Nat) (prev : link) :
    (store h p prev).length = h.length := by
  cases prev with
  | bucket array index =>
    simp only [store]
    split
    · exact length_heap_write _ _ _
    · rfl
  | next item =>
    simp only [store]
    split
    · exact length_heap_write _ _ _
    · rfl

theorem heap_read_store_ne (h : heap) (p : Option Nat) (prev : link) (x : Nat)
    (hx : x ≠ link_cell prev) : heap_read (store h p prev) x = heap_read h x := by
  cases prev with
  | bucket array index =>
    simp only [store]
    split
    · exact heap_read_write_ne _ _ _ _ hx
    · rfl
  | next item =>
    simp only [store]
    split
    · exact heap_read_write_ne _ _ _ _ hx
    · rfl

/-! ## Chains in memory -/

theorem chain_blocks_append (c1 c2 : List (Nat × Nat)) :
    chain_blocks (c1 ++ c2) = chain_blocks c1 ++ chain_blocks c2 := by
  induction c1 with
  | nil => rfl
  | cons a c1 ih =>
    show a.1 :: a.2 :: chain_blocks (c1 ++ c2) = a.1 :: a.2 :: chain_blocks c1 ++ chain_blocks c2
    rw [ih]
    rfl

theorem length_chain_blocks (chain : List (Nat × Nat)) :
    (chain_blocks chain).length = 2 * chain.length := by
  induction chain with
  | nil => rfl
  | cons a chain ih =>
    simp only [chain_blocks, List.length_cons, ih]
    omega

theorem mem_chain_blocks (chain : List (Nat × Nat)) (x : Nat) :
    x ∈ chain_blocks chain ↔ ∃ a ∈ chain, x = a.1 ∨ x = a.2 := by
  induction chain with
  | nil => simp [chain_blocks]
  | cons a chain ih =>
    simp only [chain_blocks, List.mem_cons, ih]
    constructor
    · rintro (h | h | ⟨b, hb, h⟩)
      · exact ⟨a, Or.inl rfl, Or.inl h⟩
      · exact ⟨a, Or.inl rfl, Or.inr h⟩
      · exact ⟨b, Or.inr hb, h⟩
    · rintro ⟨b, hb | hb, h⟩
      · rw [hb] at h
        rcases h with h | h
        · exact Or.inl h
        · exact Or.inr (Or.inl h)
      · exact Or.inr (Or.inr ⟨b, hb, h⟩)

/-- A chain is read the same in two memories that agree on its blocks. -/
theorem chain_rep_agree (h1 h2 : heap) (chain : List (Nat × Nat)) :
    ∀ (p : Option Nat) (items : List hash_table_item),
      (∀ x ∈ chain_blocks chain, heap_read h2 x = heap_read h1 x) →
      chain_rep h1 p chain items → chain_rep h2 p chain items := by
  induction chain with
  | nil =>
    intro p items _ hrep
    cases items with
    | nil => exact hrep
    | cons item items => exact hrep
  | cons a chain ih =>
    intro p items hagree hrep
    cases items with
    | nil => exact hrep
    | cons item items =>
      obtain ⟨hp, hfreed, hkey, next, hnode, hrest⟩ := hrep
      refine ⟨hp, hfreed, ?_, next, ?_, ?_⟩
      · rw [hagree a.2 (by simp [chain_blocks])]
        exact hkey
      · rw [hagree a.1 (by simp [chain_blocks])]
        exact hnode
      · exact ih next items (fun x hx => hagree x (by simp [chain_blocks, hx])) hrest

theorem chain_rep_length (h : heap) (chain : List (Nat × Nat)) :
    ∀ (p : Option Nat) (items : List hash_table_item),
      chain_rep h p chain items → chain.length = items.length := by
  induction chain with
  | nil =>
    intro p items hrep
    cases items with
    | nil => rfl
    | cons item items => exact hrep.elim
  | cons a chain ih =>
    intro p items hrep
    cases items with
    | nil => exact hrep.elim
    | cons item items =>
      obtain ⟨_, _, _, next, _, hrest⟩ := hrep
      simp only [List.length_cons, ih next items hrest]

theorem chain_rep_lt (h : heap) (chain : List (Nat × Nat)) :
    ∀ (p : Option Nat) (items : List hash_table_item),
      chain_rep h p chain items → ∀ x ∈ chain_blocks chain, x < h.length := by
  induction chain with
  | nil =>
    intro p items _ x hx
    simp [chain_blocks] at hx
  | cons a chain ih =>
    intro p items hrep x hx
    cases items with
    | nil => exact hrep.elim
    | cons item items =>
      obtain ⟨_, _, hkey, next, hnode, hrest⟩ := hrep
      simp only [chain_blocks, List.mem_cons] at hx
      rcases hx with hx | hx | hx
      · rw [hx]; exact heap_read_lt h _ _ hnode
      · rw [hx]; exact heap_read_lt h _ _ hkey
      · exact ih next items hrest x hx

/-- The walk of `find` in memory stops at the link that the walk over the entries of the
chain counts to. -/
theorem find_walk_heap_eq (h : heap) (key : Key) (chain : List (Nat × Nat)) :
    ∀ (items : List hash_table_item) (fuel : Nat) (prev : link),
      chain_rep h (load h prev) chain items → items.length < fuel →
      find_walk_heap h key fuel prev = link_after prev chain (find_walk key items) := by
  induction chain with
  | nil =>
    intro items fuel prev hrep hfuel
    cases items with
    | cons item items => exact hrep.elim
    | nil =>
      cases fuel with
      | zero => exact absurd hfuel (Nat.lt_irrefl _)
      | succ fuel =>
        have hload : load h prev = none := hrep
        simp only [find_walk_heap, hload, link_after]
  | cons a chain ih =>
    intro items fuel prev hrep hfuel
    cases items with
    | nil => exact hrep.elim
    | cons item items =>
      obtain ⟨hp, _, hkey, next, hnode, hrest⟩ := hrep
      cases fuel with
      | zero => exact absurd hfuel (Nat.not_lt_zero _)
      | succ fuel =>
        have hrel : relation_heap h a.1 key = relation item key := by
          simp only [relation_heap, hnode, string_at, hkey, relation]
        simp only [find_walk_heap, hp, hrel, find_walk]
        by_cases hr : relation item key = true
        · simp only [hr, if_true, link_after]
        · simp only [hr, if_false]
          have hnext : load h (link.next a.1) = next := load_next h _ _ _ _ hnode
          rw [ih items fuel (link.next a.1) (by rw [hnext]; exact hrest)
            (by simp only [List.length_cons] at hfuel; omega)]
          rfl

/-- The pointer in the link reached after `n` items is the address of the next item. -/
theorem load_link_after (h : heap) (chain : List (Nat × Nat)) :
    ∀ (items : List hash_table_item) (prev : link) (n : Nat),
      chain_rep h (load h prev) chain items →
      load h (link_after prev chain n) = (chain.get? n).map Prod.fst := by
  induction chain with
  | nil =>
    intro items prev n hrep
    cases items with
    | cons item items => exact hrep.elim
    | nil =>
      have hload : load h prev = none := hrep
      simp only [link_after, hload, List.get?_nil, Option.map_none']
  | cons a chain ih =>
    intro items prev n hrep
    cases items with
    | nil => exact hrep.elim
    | cons item items =>
      obtain ⟨hp, _, _, next, hnode, hrest⟩ := hrep
      cases n with
      | zero => simp only [link_after, hp, List.get?_cons_zero, Option.map_some']
      | succ n =>
        have hnext : load h (link.next a.1) = next := load_next h _ _ _ _ hnode
        simp only [link_after, List.get?_cons_succ]
        exact ih items (link.next a.1) n (by rw [hnext]; exact hrest)

/-- The item at a position of a chain in memory holds the entry at that position. -/
theorem chain_rep_get (h : heap) (chain : List (Nat × Nat)) :
    ∀ (p : Option Nat) (items : List hash_table_item) (n : Nat) (a : Nat × Nat),
      chain_rep h p chain items → chain.get? n = some a →
      ∃ item next, items.get? n = some item ∧
        heap_read h a.1 = some (block.node item.value a.2 next) ∧
        heap_read h a.2 = some (block.chars item.key) := by
  induction chain with
  | nil =>
    intro p items n a _ hget
    simp at hget
  | cons b chain ih =>
    intro p items n a hrep hget
    cases items with
    | nil => exact hrep.elim
    | cons item items =>
      obtain ⟨_, _, hkey, next, hnode, hrest⟩ := hrep
      cases n with
      | zero =>
        simp only [List.get?_cons_zero, Option.some.injEq] at hget
        rw [← hget]
        exact ⟨item, next, rfl, hnode, hkey⟩
      | succ n =>
        simp only [List.get?_cons_succ] at hget ⊢
        exact ih next items n a hrest hget

/-! ## The blocks of a table -/

theorem chain_blocks_getD (chains : List (List (Nat × Nat))) (i : Nat)
    (hi : i < chains.length) :
    chain_blocks (chains.getD i []) = (chains.map chain_blocks).getD i [] := by
  rw [List.getD_eq_getElem _ _ hi,
    List.getD_eq_getElem _ _ (by rw [List.length_map]; exact hi), List.getElem_map]

theorem getD_mem (chains : List (List Nat)) (i : Nat) (hi : i < chains.length) :
    chains.getD i [] ∈ chains := by
  rw [List.getD_eq_getElem _ _ hi]
  exact List.getElem_mem _

theorem chain_blocks_mem_flatten (chains : List (List (Nat × Nat))) (i : Nat)
    (hi : i < chains.length) (x : Nat) (hx : x ∈ chain_blocks (chains.getD i [])) :
    x ∈ (chains.map chain_blocks).flatten := by
  rw [chain_blocks_getD chains i hi] at hx
  exact List.mem_flatten.mpr
    ⟨_, getD_mem _ i (by rw [List.length_map]; exact hi), hx⟩

theorem chain_blocks_nodup (chains : List (List (Nat × Nat))) (i : Nat)
    (hi : i < chains.length) (hnd : (chains.map chain_blocks).flatten.Nodup) :
    (chain_blocks (chains.getD i [])).Nodup := by
  rw [chain_blocks_getD chains i hi]
  exact (List.nodup_flatten.mp hnd).1 _ (getD_mem _ i (by rw [List.length_map]; exact hi))

theorem chain_blocks_disjoint (chains : List (List (Nat × Nat))) (i j : Nat)
    (hi : i < chains.length) (hj : j < chains.length) (hij : i ≠ j)
    (hnd : (chains.map chain_blocks).flatten.Nodup) (x : Nat)
    (hx : x ∈ chain_blocks (chains.getD i [])) : x ∉ chain_blocks (chains.getD j []) := by
  intro hx2
  have hi2 : i < (chains.map chain_blocks).length := by rw [List.length_map]; exact hi
  have hj2 : j < (chains.map chain_blocks).length := by rw [List.length_map]; exact hj
  rw [chain_blocks_getD chains i hi, List.getD_eq_getElem _ _ hi2] at hx
  rw [chain_blocks_getD chains j hj, List.getD_eq_getElem _ _ hj2] at hx2
  have hpw := List.pairwise_iff_getElem.mp (List.nodup_flatten.mp hnd).2
  rcases Nat.lt_or_gt_of_ne hij with hlt | hgt
  · exact hpw i j hi2 hj2 hlt hx hx2
  · exact hpw j i hj2 hi2 hgt hx2 hx

theorem nodup_length_le (l : List Nat) (n : Nat) (hnd : l.Nodup) (hlt : ∀ x ∈ l, x < n) :
    l.length ≤ n := by
  have hsub : l.toFinset ⊆ Finset.range n := by
    intro x hx
    rw [Finset.mem_range]
    exact hlt x (List.mem_toFinset.mp hx)
  have hcard := Finset.card_le_card hsub
  rw [List.toFinset_card_of_nodup hnd, Finset.card_range] at hcard
  exact hcard

theorem represents_lt (h : heap) (l : layout) (m : hash_table) (hrep : represents h l m) :
    ∀ x ∈ l.blocks, x < h.length := by
  obtain ⟨_, htable, hlen, _, heads, harray, _, hchains⟩ := hrep
  intro x hx
  simp only [layout.blocks, List.mem_cons] at hx
  rcases hx with hx | hx | hx
  · rw [hx]; exact heap_read_lt h _ _ htable
  · rw [hx]; exact heap_read_lt h _ _ harray
  · obtain ⟨c, hc, hxc⟩ := List.mem_flatten.mp hx
    obtain ⟨i, hi, hci⟩ := List.getElem_of_mem hc
    have hi2 : i < l.chains.length := by rw [List.length_map] at hi; exact hi
    rw [← hci, ← List.getD_eq_getElem _ [] hi, ← chain_blocks_getD l.chains i hi2] at hxc
    exact chain_rep_lt h _ _ _ (hchains i (by rw [← hlen]; exact hi2)) x hxc

/-- A chain of a table in memory has fewer items than the memory has addresses. -/
theorem chain_length_lt (h : heap) (l : layout) (m : hash_table) (hrep : represents h l m)
    (i : Nat) (hi : i < m.size) : (bucket_at m i).length < h.length := by
  have hlt := represents_lt h l m hrep
  obtain ⟨hnd, _, hlen, _, heads, _, _, hchains⟩ := hrep
  have hle := nodup_length_le l.blocks h.length hnd hlt
  have hi2 : i < l.chains.length := by rw [hlen]; exact hi
  have hsub : (chain_blocks (l.chains.getD i [])).length ≤
      ((l.chains.map chain_blocks).flatten).length := by
    rw [chain_blocks_getD l.chains i hi2]
    exact (List.sublist_flatten_of_mem
      (getD_mem _ i (by rw [List.length_map]; exact hi2))).length_le
  rw [length_chain_blocks, chain_rep_length h _ _ _ (hchains i hi)] at hsub
  simp only [layout.blocks, List.length_cons] at hle
  omega

/-- A table is read the same in two memories that agree on its blocks. -/
theorem represents_agree (h1 h2 : heap) (l : layout) (m : hash_table)
    (hagree : ∀ x ∈ l.blocks, heap_read h2 x = heap_read h1 x) (hrep : represents h1 l m) :
    represents h2 l m := by
  obtain ⟨hnd, htable, hlen, hblen, heads, harray, hheads, hchains⟩ := hrep
  refine ⟨hnd, ?_, hlen, hblen, heads, ?_, hheads, ?_⟩
  · rw [hagree l.table (by simp [layout.blocks])]
    exact htable
  · rw [hagree l.buckets (by simp [layout.blocks])]
    exact harray
  · intro i hi
    refine chain_rep_agree h1 h2 _ _ _ ?_ (hchains i hi)
    intro x hx
    refine hagree x ?_
    simp only [layout.blocks, List.mem_cons]
    exact Or.inr (Or.inr (chain_blocks_mem_flatten l.chains i (by rw [hlen]; exact hi) x hx))

/-- In memory `find` returns the link that `find` on the content counts to. -/
theorem find_heap_eq (h : heap) (l : layout) (m : hash_table) (hrep : represents h l m)
    (hsize : 0 < m.size) (key : Key) :
    find_heap h l.table key =
      link_after (link.bucket l.buckets (hash key % m.size))
        (l.chains.getD (hash key % m.size) []) (find m key).pos := by
  have hfuel := chain_length_lt h l m hrep _ (Nat.mod_lt (hash key) hsize)
  obtain ⟨_, htable, _, _, heads, harray, _, hchains⟩ := hrep
  simp only [find_heap, htable]
  refine find_walk_heap_eq h key _ _ _ _ ?_ hfuel
  rw [load_bucket h _ _ heads harray]
  exact hchains _ (Nat.mod_lt (hash key) hsize)

theorem load_find_heap (h : heap) (l : layout) (m : hash_table) (hrep : represents h l m)
    (hsize : 0 < m.size) (key : Key) :
    load h (find_heap h l.table key) =
      ((l.chains.getD (hash key % m.size) []).get? (find m key).pos).map Prod.fst := by
  rw [find_heap_eq h l m hrep hsize key]
  obtain ⟨_, _, _, _, heads, harray, _, hchains⟩ := hrep
  refine load_link_after h _ (bucket_at m (hash key % m.size)) _ _ ?_
  rw [load_bucket h _ _ heads harray]
  exact hchains _ (Nat.mod_lt (hash key) hsize)

/-- Whether `find` in memory finds an item, and which entry that item holds. -/
theorem load_find_heap_cases (h : heap) (l : layout) (m : hash_table)
    (hrep : represents h l m) (hsize : 0 < m.size) (key : Key) :
    (load h (find_heap h l.table key) = none ∧ slot_get m (find m key) = none) ∨
    ∃ a item next, load h (find_heap h l.table key) = some a.1 ∧
      (l.chains.getD (hash key % m.size) []).get? (find m key).pos = some a ∧
      slot_get m (find m key) = some item ∧
      heap_read h a.1 = some (block.node item.value a.2 next) ∧
      heap_read h a.2 = some (block.chars item.key) := by
  rw [load_find_heap h l m hrep hsize key]
  obtain ⟨_, _, _, _, heads, harray, _, hchains⟩ := hrep
  have hchain := hchains _ (Nat.mod_lt (hash key) hsize)
  cases hget : (l.chains.getD (hash key % m.size) []).get? (find m key).pos with
  | none =>
    left
    refine ⟨rfl, ?_⟩
    have hlen := chain_rep_length h _ _ _ hchain
    rw [List.get?_eq_none] at hget
    show (bucket_at m (hash key % m.size)).get? (find m key).pos = none
    rw [List.get?_eq_none]
    omega
  | some a =>
    right
    obtain ⟨item, next, hitem, hnode, hkey⟩ := chain_rep_get h _ _ _ _ a hchain hget
    exact ⟨a, item, next, rfl, rfl, hitem, hnode, hkey⟩

theorem search_heap_eq (h : heap) (l : layout) (m : hash_table) (hrep : represents h l m)
    (hsize : 0 < m.size) (key : Key) :
    hash_table_search_heap h l.table key = hash_table_search m key := by
  unfold hash_table_search_heap hash_table_search
  rcases load_find_heap_cases h l m hrep hsize key with ⟨hload, hslot⟩ |
    ⟨a, item, next, hload, _, hslot, hnode, _⟩
  · rw [hload, hslot]
  · rw [hload, hslot]
    simp only [hnode]

/-! ## Stores through a link -/

theorem load_congr (h1 h2 : heap) (prev : link)
    (hagree : heap_read h2 (link_cell prev) = heap_read h1 (link_cell prev)) :
    load h2 prev = load h1 prev := by
  cases prev with
  | bucket array index =>
    simp only [link_cell] at hagree
    simp only [load, hagree]
  | next item =>
    simp only [link_cell] at hagree
    simp only [load, hagree]

theorem heap_read_store_chars (h : heap) (p : Option Nat) (prev : link) (x : Nat) (bytes : Key)
    (hr : heap_read h x = some (block.chars bytes)) :
    heap_read (store h p prev) x = some (block.chars bytes) := by
  by_cases hx : x = link_cell prev
  · cases prev with
    | bucket array index =>
      simp only [link_cell] at hx
      rw [← hx]
      simp only [store, hr]
    | next item =>
      simp only [link_cell] at hx
      rw [← hx]
      simp only [store, hr]
  · rw [heap_read_store_ne h p prev x hx]
    exact hr

theorem heap_read_store_table (h : heap) (p : Option Nat) (prev : link) (x size buckets : Nat)
    (hr : heap_read h x = some (block.table size buckets)) :
    heap_read (store h p prev) x = some (block.table size buckets) := by
  by_cases hx : x = link_cell prev
  · cases prev with
    | bucket array index =>
      simp only [link_cell] at hx
      rw [← hx]
      simp only [store, hr]
    | next item =>
      simp only [link_cell] at hx
      rw [← hx]
      simp only [store, hr]
  · rw [heap_read_store_ne h p prev x hx]
    exact hr

theorem heap_read_store_node (h : heap) (p : Option Nat) (prev : link) (x : Nat)
    (value : item_type) (key : Nat) (next : Option Nat)
    (hr : heap_read h x = some (block.node value key next)) :
    ∃ next2, heap_read (store h p prev) x = some (block.node value key next2) := by
  by_cases hx : x = link_cell prev
  · cases prev with
    | bucket array index =>
      simp only [link_cell] at hx
      rw [← hx]
      simp only [store, hr]
      exact ⟨next, rfl⟩
    | next item =>
      simp only [link_cell] at hx
      rw [← hx, store_next h p x value key next hr,
        heap_read_write_self h x _ (heap_read_lt h x _ hr)]
      exact ⟨p, rfl⟩
  · rw [heap_read_store_ne h p prev x hx]
    exact ⟨next, hr⟩

theorem heap_read_store_array (h : heap) (p : Option Nat) (prev : link) (x : Nat)
    (heads : List (Option Nat)) (hr : heap_read h x = some (block.array heads)) :
    ∃ heads2, heap_read (store h p prev) x = some (block.array heads2) ∧
      heads2.length = heads.length ∧
      ∀ j, prev ≠ link.bucket x j → heads2.getD j none = heads.getD j none := by
  by_cases hx : x = link_cell prev
  · cases prev with
    | bucket array index =>
      simp only [link_cell] at hx
      rw [← hx, store_bucket h p x index heads hr,
        heap_read_write_self h x _ (heap_read_lt h x _ hr)]
      refine ⟨_, rfl, List.length_set _ _ _, ?_⟩
      intro j hj
      have hne : index ≠ j := by
        intro hij
        rw [hij] at hj
        exact hj rfl
      rw [List.getD_eq_getElem?_getD, List.getD_eq_getElem?_getD, List.getElem?_set_ne hne]
    | next item =>
      simp only [link_cell] at hx
      rw [← hx]
      simp only [store, hr]
      exact ⟨heads, rfl, rfl, fun _ _ => rfl⟩
  · rw [heap_read_store_ne h p prev x hx]
    exact ⟨heads, hr, rfl, fun _ _ => rfl⟩

theorem link_after_cases (prev : link) (chain : List (Nat × Nat)) :
    ∀ (n : Nat), link_after prev chain n = prev ∨
      ∃ a ∈ chain, link_after prev chain n = link.next a.1 := by
  induction chain generalizing prev with
  | nil =>
    intro n
    exact Or.inl rfl
  | cons b chain ih =>
    intro n
    cases n with
    | zero => exact Or.inl rfl
    | succ n =>
      rcases ih (link.next b.1) n with h | ⟨a, ha, h⟩
      · exact Or.inr ⟨b, List.mem_cons_self _ _, h⟩
      · exact Or.inr ⟨a, List.mem_cons_of_mem _ ha, h⟩

theorem link_cell_link_after (prev : link) (chain : List (Nat × Nat)) (n : Nat) :
    link_cell (link_after prev chain n) = link_cell prev ∨
      link_cell (link_after prev chain n) ∈ chain_blocks chain := by
  rcases link_after_cases prev chain n with h | ⟨a, ha, h⟩
  · rw [h]
    exact Or.inl rfl
  · rw [h]
    exact Or.inr ((mem_chain_blocks chain _).mpr ⟨a, ha, Or.inl rfl⟩)

/-- Linking a new item behind the last item of a chain: the chain in memory then holds the
old entries followed by the new one. -/
theorem chain_rep_snoc (g : heap) (a kb : Nat) (new : hash_table_item)
    (hnode : heap_read g a = some (block.node new.value kb none))
    (hkey : heap_read g kb = some (block.chars new.key)) (hfreed : new.freed = false)
    (chain : List (Nat × Nat)) :
    ∀ (items : List hash_table_item) (prev : link),
      chain_rep g (load g prev) chain items →
      load (store g (some a) prev) prev = some a →
      (chain_blocks chain).Nodup → link_cell prev ∉ chain_blocks chain →
      a ∉ chain_blocks chain → link_cell prev ≠ a →
      chain_rep (store g (some a) (link_after prev chain chain.length))
        (load (store g (some a) (link_after prev chain chain.length)) prev)
        (chain ++ [(a, kb)]) (items ++ [new]) := by
  induction chain with
  | nil =>
    intro items prev hrep hvalid _ _ _ hpa
    cases items with
    | cons item items => exact hrep.elim
    | nil =>
      show chain_rep (store g (some a) prev) (load (store g (some a) prev) prev) [(a, kb)] [new]
      refine ⟨hvalid, hfreed, heap_read_store_chars g _ _ _ _ hkey, none, ?_, rfl⟩
      rw [heap_read_store_ne g _ _ _ (Ne.symm hpa)]
      exact hnode
  | cons b chain ih =>
    intro items prev hrep hvalid hnd hprev ha hpa
    cases items with
    | nil => exact hrep.elim
    | cons item items =>
      obtain ⟨hp, hfr, hk, next, hn, hrest⟩ := hrep
      simp only [chain_blocks, List.nodup_cons, List.mem_cons, not_or] at hnd hprev ha
      have hnext : load g (link.next b.1) = next := load_next g _ _ _ _ hn
      have hih := ih items (link.next b.1) (by rw [hnext]; exact hrest)
        (by
          rw [store_next g _ _ _ _ _ hn]
          exact load_next _ _ _ _ _ (heap_read_write_self g _ _ (heap_read_lt g _ _ hn)))
        hnd.2.2 hnd.1.2 ha.2.2 (by simp only [link_cell]; exact Ne.symm ha.1)
      show chain_rep (store g (some a) (link_after (link.next b.1) chain chain.length))
        (load (store g (some a) (link_after (link.next b.1) chain chain.length)) prev)
        (b :: (chain ++ [(a, kb)])) (item :: (items ++ [new]))
      have hw : link_cell (link_after (link.next b.1) chain chain.length) ≠ link_cell prev := by
        rcases link_cell_link_after (link.next b.1) chain chain.length with h | h
        · rw [h]
          simp only [link_cell]
          exact Ne.symm hprev.1
        · intro heq
          rw [heq] at h
          exact hprev.2.2 h
      obtain ⟨next2, hn2⟩ := heap_read_store_node g (some a)
        (link_after (link.next b.1) chain chain.length) _ _ _ _ hn
      refine ⟨?_, hfr, heap_read_store_chars g _ _ _ _ hk, next2, hn2, ?_⟩
      · rw [load_congr g _ prev (heap_read_store_ne g _ _ _ (Ne.symm hw))]
        exact hp
      · rw [load_next _ _ _ _ _ hn2] at hih
        exact hih

/-! ## Insert in memory -/

theorem alloc_item_heap_eq (h : heap) (prev : link) (key : Key) (length : Nat)
    (value : item_type) :
    alloc_item_heap h prev key length value =
      (true, store (h ++ [some (block.node value (h.length + 1) none),
        some (block.chars (strcpy_s (length + 1) key))]) (some h.length) prev) := by
  unfold alloc_item_heap malloc heap_write
  simp only [List.length_append, List.length_singleton, List.append_assoc, List.singleton_append]
  rw [List.set_append_right _ _ (le_refl _)]
  simp

theorem insert_heap_of_found (h : heap) (table : Nat) (key : Key) (value : item_type)
    (hk : valid_key key) (item : Nat) (hload : load h (find_heap h table key) = some item) :
    hash_table_insert_heap h table key value = (false, h) := by
  unfold hash_table_insert_heap
  simp only [if_neg (key_check_of_valid key hk), hload]

theorem insert_heap_of_absent (h : heap) (table : Nat) (key : Key) (value : item_type)
    (hk : valid_key key) (hload : load h (find_heap h table key) = none) :
    hash_table_insert_heap h table key value =
      (true, store (h ++ [some (block.node value (h.length + 1) none),
        some (block.chars key)]) (some h.length) (find_heap h table key)) := by
  unfold hash_table_insert_heap
  simp only [if_neg (key_check_of_valid key hk), hload]
  rw [alloc_item_heap_eq, strnlen_of_valid key hk]
  unfold strcpy_s
  rw [if_pos (Nat.lt_succ_self _)]

theorem link_after_of_le (chain : List (Nat × Nat)) :
    ∀ (prev : link) (n : Nat), chain.length ≤ n →
      link_after prev chain n = link_after prev chain chain.length := by
  induction chain with
  | nil =>
    intro prev n _
    rfl
  | cons b chain ih =>
    intro prev n hn
    cases n with
    | zero => simp at hn
    | succ n =>
      show link_after (link.next b.1) chain n = link_after (link.next b.1) chain chain.length
      exact ih _ n (by simp only [List.length_cons] at hn; omega)

theorem flatten_set_perm (chains : List (List Nat)) :
    ∀ (i : Nat), i < chains.length → ∀ (ys : List Nat),
      List.Perm (chains.set i (chains.getD i [] ++ ys)).flatten (chains.flatten ++ ys) := by
  induction chains with
  | nil =>
    intro i hi
    simp at hi
  | cons c chains ih =>
    intro i hi ys
    cases i with
    | zero =>
      simp only [List.set_cons_zero, List.flatten_cons, List.getD_cons_zero, List.append_assoc]
      exact List.Perm.append_left c List.perm_append_comm
    | succ i =>
      simp only [List.set_cons_succ, List.flatten_cons, List.getD_cons_succ, List.append_assoc]
      exact List.Perm.append_left c
        (ih i (by simp only [List.length_cons] at hi; omega) ys)

/-- The blocks of a table after one more item was linked into chain `i`. -/
theorem blocks_set_perm (l : layout) (i : Nat) (hi : i < l.chains.length) (a : Nat × Nat) :
    List.Perm
      (layout.blocks { l with chains := l.chains.set i (l.chains.getD i [] ++ [a]) })
      (l.blocks ++ [a.1, a.2]) := by
  unfold layout.blocks
  simp only [List.cons_append]
  refine List.Perm.cons _ (List.Perm.cons _ ?_)
  rw [List.map_set, chain_blocks_append, chain_blocks_getD l.chains i hi]
  exact flatten_set_perm _ i (by rw [List.length_map]; exact hi) _

theorem blocks_table_not_mem (l : layout) (hnd : l.blocks.Nodup) :
    l.table ≠ l.buckets ∧ l.table ∉ (l.chains.map chain_blocks).flatten ∧
    l.buckets ∉ (l.chains.map chain_blocks).flatten ∧
    (l.chains.map chain_blocks).flatten.Nodup := by
  unfold layout.blocks at hnd
  simp only [List.nodup_cons, List.mem_cons, not_or] at hnd
  exact ⟨hnd.1.1, hnd.1.2, hnd.2.1, hnd.2.2⟩

/-- One insert in memory does to the content what `hash_table_insert` does to it: the same
flag, and the table in memory holds the resulting content.  It stores only into blocks of
the table and into blocks it has allocated. -/
theorem insert_heap_sim (h : heap) (l : layout) (m : hash_table) (hrep : represents h l m)
    (hsize : 0 < m.size) (key : Key) (value : item_type) (hk : valid_key key) :
    ∃ l2, represents (hash_table_insert_heap h l.table key value).2 l2
        (hash_table_insert m key value).2 ∧
      (hash_table_insert_heap h l.table key value).1 = (hash_table_insert m key value).1 ∧
      l2.table = l.table ∧
      h.length ≤ (hash_table_insert_heap h l.table key value).2.length ∧
      (∀ x, x < h.length → x ∉ l.blocks →
        heap_read (hash_table_insert_heap h l.table key value).2 x = heap_read h x) ∧
      ∀ x ∈ l2.blocks, x ∈ l.blocks ∨ h.length ≤ x := by
  have hi : hash key % m.size < m.size := Nat.mod_lt _ hsize
  rcases load_find_heap_cases h l m hrep hsize key with ⟨hload, hslot⟩ |
    ⟨a, item, next, hload, _, hslot, _, _⟩
  · -- the key is absent: a new item is linked behind the chain
    have hsearch : hash_table_search m key = none := (search_eq_none_iff m key).mpr hslot
    rw [insert_heap_of_absent h l.table key value hk hload,
      insert_of_absent m key value hk hsearch]
    have hlt := represents_lt h l m hrep
    have hfind := find_heap_eq h l m hrep hsize key
    -- the memory with the two new blocks
    have hagree : ∀ x, x < h.length →
        heap_read (h ++ [some (block.node value (h.length + 1) none),
          some (block.chars key)]) x = heap_read h x :=
      fun x hx => heap_read_append h _ x hx
    have hrepg := represents_agree h _ l m (fun x hx => hagree x (hlt x hx)) hrep
    have hnode : heap_read (h ++ [some (block.node value (h.length + 1) none),
        some (block.chars key)]) h.length = some (block.node value (h.length + 1) none) :=
      heap_read_append_new h _ _
    have hkey : heap_read (h ++ [some (block.node value (h.length + 1) none),
        some (block.chars key)]) (h.length + 1) = some (block.chars key) := by
      have := heap_read_append_new (h ++ [some (block.node value (h.length + 1) none)])
        (some (block.chars key)) []
      rw [List.append_assoc, List.length_append, List.length_singleton] at this
      exact this
    generalize hg : h ++ [some (block.node value (h.length + 1) none),
      some (block.chars key)] = g at hagree hrepg hnode hkey
    have hglen : g.length = h.length + 2 := by
      rw [← hg, List.length_append]
      rfl
    obtain ⟨hnd, htable, hlen, hblen, heads, harray, hheads, hchains⟩ := hrepg
    obtain ⟨htb, htf, hbf, hfnd⟩ := blocks_table_not_mem l hnd
    have hi2 : hash key % m.size < l.chains.length := by rw [hlen]; exact hi
    have hchain := hchains _ hi
    have hclen := chain_rep_length g _ _ _ hchain
    -- the link `find` returned is the end of the chain
    have hpos : (l.chains.getD (hash key % m.size) []).length ≤ (find m key).pos := by
      have hs : (bucket_at m (hash key % m.size)).get? (find m key).pos = none := hslot
      rw [List.get?_eq_none] at hs
      omega
    rw [hfind, link_after_of_le _ _ _ hpos]
    have hload0 : load g (link.bucket l.buckets (hash key % m.size)) =
        heads.getD (hash key % m.size) none := load_bucket g _ _ heads harray
    have hcb : ∀ x ∈ chain_blocks (l.chains.getD (hash key % m.size) []), x < h.length :=
      fun x hx => hlt x (by
        simp only [layout.blocks, List.mem_cons]
        exact Or.inr (Or.inr (chain_blocks_mem_flatten l.chains _ hi2 x hx)))
    have hbl : l.buckets < h.length := hlt _ (by simp [layout.blocks])
    have hsnoc := chain_rep_snoc g h.length (h.length + 1) (new_item key value) hnode hkey rfl
      (l.chains.getD (hash key % m.size) []) (bucket_at m (hash key % m.size))
      (link.bucket l.buckets (hash key % m.size)) (by rw [hload0]; exact hchain)
      (by
        rw [store_bucket g _ _ _ heads harray]
        rw [load_bucket _ _ _ _ (heap_read_write_self g _ _ (heap_read_lt g _ _ harray))]
        rw [List.getD_eq_getElem?_getD, List.getElem?_set_self (by rw [hheads]; exact hi)]
        rfl)
      (chain_blocks_nodup l.chains _ hi2 hfnd)
      (fun hmem => hbf (chain_blocks_mem_flatten l.chains _ hi2 _ hmem))
      (fun hmem => Nat.lt_irrefl _ (hcb _ hmem))
      (by simp only [link_cell]; omega)
    -- the cell that the store changes is a block of the table
    have hw : link_cell (link_after (link.bucket l.buckets (hash key % m.size))
          (l.chains.getD (hash key % m.size) [])
          (l.chains.getD (hash key % m.size) []).length) = l.buckets ∨
        link_cell (link_after (link.bucket l.buckets (hash key % m.size))
          (l.chains.getD (hash key % m.size) [])
          (l.chains.getD (hash key % m.size) []).length) ∈
          chain_blocks (l.chains.getD (hash key % m.size) []) :=
      link_cell_link_after _ _ _
    have hwl : ∀ j, j ≠ hash key % m.size →
        link_after (link.bucket l.buckets (hash key % m.size))
          (l.chains.getD (hash key % m.size) [])
          (l.chains.getD (hash key % m.size) []).length ≠ link.bucket l.buckets j := by
      intro j hj
      rcases link_after_cases (link.bucket l.buckets (hash key % m.size))
        (l.chains.getD (hash key % m.size) [])
        (l.chains.getD (hash key % m.size) []).length with h1 | ⟨b, _, h1⟩
      · rw [h1]
        intro heq
        exact hj (link.bucket.inj heq).2.symm
      · rw [h1]
        intro heq
        exact link.noConfusion heq
    generalize hwdef : link_after (link.bucket l.buckets (hash key % m.size))
      (l.chains.getD (hash key % m.size) [])
      (l.chains.getD (hash key % m.size) []).length = w at hsnoc hw hwl
    obtain ⟨heads2, harray2, hheads2, hsame⟩ :=
      heap_read_store_array g (some h.length) w l.buckets heads harray
    have hperm := blocks_set_perm l _ hi2 (h.length, h.length + 1)
    have hnd2 : (l.blocks ++ [h.length, h.length + 1]).Nodup := by
      rw [List.nodup_append]
      refine ⟨hnd, by simp, ?_⟩
      intro x hx1 hx2
      have := hlt x hx1
      simp only [List.mem_cons, List.mem_singleton, List.not_mem_nil, or_false] at hx2
      omega
    refine ⟨{ l with chains := (l.chains.set (hash key % m.size)
        (l.chains.getD (hash key % m.size) [] ++ [(h.length, h.length + 1)])) },
      ⟨hperm.nodup_iff.mpr hnd2, heap_read_store_table g _ _ _ _ _ htable, ?_, ?_,
        heads2, harray2, by rw [hheads2, hheads], ?_⟩, rfl, rfl, ?_, ?_, ?_⟩
    · show (l.chains.set _ _).length = m.size
      rw [List.length_set, hlen]
    · show (m.buckets.set _ _).length = m.size
      rw [List.length_set, hblen]
    · intro j hj
      have hj1 : j < m.size := hj
      show chain_rep _ (heads2.getD j none) ((l.chains.set _ _).getD j []) _
      rw [bucket_at_set m _ j _ (by rw [hblen]; exact hi)]
      by_cases hji : j = hash key % m.size
      · rw [if_pos hji, hji, List.getD_eq_getElem?_getD (l.chains.set _ _),
          List.getElem?_set_self hi2]
        have hl2 : load (store g (some h.length) w)
            (link.bucket l.buckets (hash key % m.size)) =
            heads2.getD (hash key % m.size) none := load_bucket _ _ _ heads2 harray2
        rw [← hl2]
        exact hsnoc
      · rw [if_neg hji, List.getD_eq_getElem?_getD (l.chains.set _ _),
          List.getElem?_set_ne (Ne.symm hji), ← List.getD_eq_getElem?_getD,
          hsame j (hwl j hji)]
        refine chain_rep_agree g _ _ _ _ ?_ (hchains j hj1)
        intro x hx
        have hj2 : j < l.chains.length := by rw [hlen]; exact hj1
        refine heap_read_store_ne g _ w x ?_
        intro hxw
        rcases hw with hw | hw
        · rw [← hxw] at hw
          rw [hw] at hx
          exact hbf (chain_blocks_mem_flatten l.chains j hj2 _ hx)
        · rw [← hxw] at hw
          exact chain_blocks_disjoint l.chains j _ hj2 hi2 hji hfnd x hx hw
    · show h.length ≤ (store g (some h.length) w).length
      rw [length_store, hglen]
      omega
    · intro x hx hxl
      show heap_read (store g (some h.length) w) x = heap_read h x
      rw [heap_read_store_ne g _ w x ?_, hagree x hx]
      intro hxw
      apply hxl
      simp only [layout.blocks, List.mem_cons]
      rcases hw with hw | hw
      · exact Or.inr (Or.inl (hxw.trans hw))
      · rw [← hxw] at hw
        exact Or.inr (Or.inr (chain_blocks_mem_flatten l.chains _ hi2 x hw))
    · intro x hx
      have hx2 := hperm.mem_iff.mp hx
      rw [List.mem_append] at hx2
      rcases hx2 with hx2 | hx2
      · exact Or.inl hx2
      · simp only [List.mem_cons, List.mem_singleton, List.not_mem_nil, or_false] at hx2
        right
        omega
  · -- the key is found: nothing is stored
    have hsearch : hash_table_search m key ≠ none := by
      rw [Ne, search_eq_none_iff, hslot]
      exact Option.some_ne_none item
    rw [insert_heap_of_found h l.table key value hk a.1 hload,
      insert_of_found m key value hsearch]
    exact ⟨l, hrep, rfl, rfl, le_refl _, fun _ _ _ => rfl, fun x hx => Or.inl hx⟩

/-! ## Copy in memory -/

theorem copy_loop_append (fn : hash_table → Key → item_type → Bool × hash_table)
    (l1 l2 : List hash_table_item) :
    ∀ (dest : hash_table), copy_loop fn dest (l1 ++ l2) =
      if (copy_loop fn dest l1).1 = false then copy_loop fn dest l1
      else copy_loop fn (copy_loop fn dest l1).2 l2 := by
  induction l1 with
  | nil =>
    intro dest
    simp [copy_loop]
  | cons item l1 ih =>
    intro dest
    simp only [List.cons_append, copy_loop]
    by_cases hr : (fn dest item.key item.value).1 = false
    · simp only [hr, if_true]
    · simp only [hr, if_false]
      exact ih _

theorem size_copy_loop_insert (items : List hash_table_item) :
    ∀ (dest : hash_table), (copy_loop hash_table_insert dest items).2.size = dest.size := by
  induction items with
  | nil =>
    intro dest
    rfl
  | cons item items ih =>
    intro dest
    simp only [copy_loop]
    by_cases hr : (hash_table_insert dest item.key item.value).1 = false
    · rw [if_pos hr]
      exact size_insert dest item.key item.value
    · rw [if_neg hr, ih, size_insert]

/-- The inner loop of the copy on one chain of the source does to the content of `dest`
what the loop over the entries of that chain does, and leaves the source as it is.  Source
and destination are tables with no block in common. -/
theorem copy_chain_heap_sim (ls : layout) (ms : hash_table) (chain : List (Nat × Nat)) :
    ∀ (items : List hash_table_item) (h : heap) (ld : layout) (md : hash_table)
      (p : Option Nat) (fuel : Nat),
      represents h ls ms → represents h ld md → 0 < md.size →
      (∀ x ∈ ls.blocks, x ∉ ld.blocks) →
      chain_rep h p chain items → (∀ x ∈ chain_blocks chain, x ∈ ls.blocks) →
      (∀ item ∈ items, valid_key item.key) → items.length < fuel →
      ∃ ld2,
        (copy_chain_heap hash_table_insert_heap ld.table fuel h p).1 =
          (copy_loop hash_table_insert md items).1 ∧
        represents (copy_chain_heap hash_table_insert_heap ld.table fuel h p).2 ld2
          (copy_loop hash_table_insert md items).2 ∧
        ld2.table = ld.table ∧
        represents (copy_chain_heap hash_table_insert_heap ld.table fuel h p).2 ls ms ∧
        (∀ x ∈ ls.blocks, x ∉ ld2.blocks) ∧
        h.length ≤ (copy_chain_heap hash_table_insert_heap ld.table fuel h p).2.length ∧
        (∀ x, x < h.length → x ∉ ld.blocks →
          heap_read (copy_chain_heap hash_table_insert_heap ld.table fuel h p).2 x =
            heap_read h x) ∧
        ∀ x ∈ ld2.blocks, x ∈ ld.blocks ∨ h.length ≤ x := by
  induction chain with
  | nil =>
    intro items h ld md p fuel hs hd _ hdisj hrep _ _ _
    cases items with
    | cons item items => exact hrep.elim
    | nil =>
      have hp : p = none := hrep
      rw [hp]
      cases fuel with
      | zero =>
        exact ⟨ld, rfl, hd, rfl, hs, hdisj, le_refl _, fun _ _ _ => rfl, fun x hx => Or.inl hx⟩
      | succ fuel =>
        exact ⟨ld, rfl, hd, rfl, hs, hdisj, le_refl _, fun _ _ _ => rfl, fun x hx => Or.inl hx⟩
  | cons a chain ih =>
    intro items h ld md p fuel hs hd hsize hdisj hrep hsub hvalid hfuel
    cases items with
    | nil => exact hrep.elim
    | cons item items =>
      obtain ⟨hp, _, hkey, next, hnode, hrest⟩ := hrep
      cases fuel with
      | zero => exact absurd hfuel (Nat.not_lt_zero _)
      | succ fuel =>
        have hstr : string_at h a.2 = item.key := by simp only [string_at, hkey]
        obtain ⟨ld1, hd1, hflag, htab1, hlen1, hframe1, hblocks1⟩ :=
          insert_heap_sim h ld md hd hsize item.key item.value
            (hvalid item (List.mem_cons_self _ _))
        have hlts := represents_lt h ls ms hs
        have hagree : ∀ x ∈ ls.blocks,
            heap_read (hash_table_insert_heap h ld.table item.key item.value).2 x =
              heap_read h x :=
          fun x hx => hframe1 x (hlts x hx) (hdisj x hx)
        have hs1 := represents_agree h _ ls ms hagree hs
        have hdisj1 : ∀ x ∈ ls.blocks, x ∉ ld1.blocks := by
          intro x hx hx1
          rcases hblocks1 x hx1 with h1 | h1
          · exact hdisj x hx h1
          · have := hlts x hx
            omega
        rw [hp]
        simp only [copy_chain_heap, hnode, hstr, copy_loop]
        by_cases hr : (hash_table_insert md item.key item.value).1 = false
        · have hr1 : (hash_table_insert_heap h ld.table item.key item.value).1 = false := by
            rw [hflag]; exact hr
          simp only [hr, hr1, if_true]
          exact ⟨ld1, trivial, hd1, htab1, hs1, hdisj1, hlen1, hframe1, hblocks1⟩
        · have hr1 : ¬ (hash_table_insert_heap h ld.table item.key item.value).1 = false := by
            rw [hflag]; exact hr
          have hnode1 := hnode
          rw [← hagree a.1 (hsub a.1 (by simp [chain_blocks]))] at hnode1
          simp only [hr, hr1, if_false, hnode1]
          have hrest1 : chain_rep (hash_table_insert_heap h ld.table item.key item.value).2
              next chain items :=
            chain_rep_agree h _ chain next items
              (fun x hx => hagree x (hsub x (by simp [chain_blocks, hx]))) hrest
          obtain ⟨ld2, hflag2, hd2, htab2, hs2, hdisj2, hlen2, hframe2, hblocks2⟩ :=
            ih items _ ld1 _ next fuel hs1 hd1
              (by rw [size_insert]; exact hsize) hdisj1 hrest1
              (fun x hx => hsub x (by simp [chain_blocks, hx]))
              (fun it hit => hvalid it (List.mem_cons_of_mem _ hit))
              (by simp only [List.length_cons] at hfuel; omega)
          rw [htab1] at hflag2 hd2 hs2 hlen2 hframe2
          refine ⟨ld2, hflag2, hd2, htab2.trans htab1, hs2, hdisj2, le_trans hlen1 hlen2,
            ?_, ?_⟩
          · intro x hx hxl
            have hx1 : x ∉ ld1.blocks := by
              intro hx1
              rcases hblocks1 x hx1 with h1 | h1
              · exact hxl h1
              · omega
            exact (hframe2 x (by omega) hx1).trans (hframe1 x hx hxl)
          · intro x hx
            rcases hblocks2 x hx with h2 | h2
            · exact hblocks1 x h2
            · right
              omega

/-- The outer loop of the copy over bucket indices of the source. -/
theorem copy_buckets_heap_sim (ls : layout) (ms : hash_table)
    (hvalid : ∀ i < ms.size, ∀ item ∈ bucket_at ms i, valid_key item.key)
    (indices : List Nat) :
    ∀ (h : heap) (ld : layout) (md : hash_table),
      represents h ls ms → represents h ld md → 0 < md.size →
      (∀ x ∈ ls.blocks, x ∉ ld.blocks) → (∀ i ∈ indices, i < ms.size) →
      ∃ ld2,
        (copy_buckets_heap hash_table_insert_heap ld.table ls.buckets indices h).1 =
          (copy_loop hash_table_insert md (indices.map (bucket_at ms)).flatten).1 ∧
        represents (copy_buckets_heap hash_table_insert_heap ld.table ls.buckets indices h).2
          ld2 (copy_loop hash_table_insert md (indices.map (bucket_at ms)).flatten).2 ∧
        ld2.table = ld.table ∧
        represents (copy_buckets_heap hash_table_insert_heap ld.table ls.buckets indices h).2
          ls ms ∧
        (∀ x ∈ ls.blocks, x ∉ ld2.blocks) ∧
        h.length ≤
          (copy_buckets_heap hash_table_insert_heap ld.table ls.buckets indices h).2.length ∧
        (∀ x, x < h.length → x ∉ ld.blocks →
          heap_read
              (copy_buckets_heap hash_table_insert_heap ld.table ls.buckets indices h).2 x =
            heap_read h x) ∧
        ∀ x ∈ ld2.blocks, x ∈ ld.blocks ∨ h.length ≤ x := by
  induction indices with
  | nil =>
    intro h ld md hs hd _ hdisj _
    exact ⟨ld, rfl, hd, rfl, hs, hdisj, le_refl _, fun _ _ _ => rfl, fun x hx => Or.inl hx⟩
  | cons i indices ih =>
    intro h ld md hs hd hsize hdisj hidx
    have hi : i < ms.size := hidx i (List.mem_cons_self _ _)
    have hfuel := chain_length_lt h ls ms hs i hi
    have hs0 := hs
    obtain ⟨_, _, hlen, _, heads, harray, _, hchains⟩ := hs0
    have hload : load h (link.bucket ls.buckets i) = heads.getD i none :=
      load_bucket h _ _ heads harray
    obtain ⟨ld1, hflag1, hd1, htab1, hs1, hdisj1, hlen1, hframe1, hblocks1⟩ :=
      copy_chain_heap_sim ls ms (ls.chains.getD i []) (bucket_at ms i) h ld md
        (load h (link.bucket ls.buckets i)) h.length hs hd hsize hdisj
        (by rw [hload]; exact hchains i hi)
        (fun x hx => by
          simp only [layout.blocks, List.mem_cons]
          exact Or.inr (Or.inr
            (chain_blocks_mem_flatten ls.chains i (by rw [hlen]; exact hi) x hx)))
        (hvalid i hi) hfuel
    simp only [copy_buckets_heap, List.map_cons, List.flatten_cons]
    rw [copy_loop_append]
    by_cases hr : (copy_loop hash_table_insert md (bucket_at ms i)).1 = false
    · have hr1 : (copy_chain_heap hash_table_insert_heap ld.table h.length h
          (load h (link.bucket ls.buckets i))).1 = false := by
        rw [hflag1]; exact hr
      simp only [hr, hr1, if_true]
      exact ⟨ld1, trivial, hd1, htab1, hs1, hdisj1, hlen1, hframe1, hblocks1⟩
    · have hr1 : ¬ (copy_chain_heap hash_table_insert_heap ld.table h.length h
          (load h (link.bucket ls.buckets i))).1 = false := by
        rw [hflag1]; exact hr
      simp only [hr, hr1, if_false]
      obtain ⟨ld2, hflag2, hd2, htab2, hs2, hdisj2, hlen2, hframe2, hblocks2⟩ :=
        ih _ ld1 _ hs1 hd1 (by rw [size_copy_loop_insert]; exact hsize) hdisj1
          (fun j hj => hidx j (List.mem_cons_of_mem _ hj))
      rw [htab1] at hflag2 hd2 hs2 hlen2 hframe2
      refine ⟨ld2, hflag2, hd2, htab2.trans htab1, hs2, hdisj2, le_trans hlen1 hlen2, ?_, ?_⟩
      · intro x hx hxl
        have hx1 : x ∉ ld1.blocks := by
          intro hx1
          rcases hblocks1 x hx1 with h1 | h1
          · exact hxl h1
          · omega
        exact (hframe2 x (by omega) hx1).trans (hframe1 x hx hxl)
      · intro x hx
        rcases hblocks2 x hx with h2 | h2
        · exact hblocks1 x h2
        · right
          omega

/-! ## Init, copy and clone in memory -/

theorem init_heap_eq (h : heap) (table_addr : Option Nat) (size : Nat) (hsize : 2 ≤ size) :
    hash_table_init_heap h table_addr size =
      (h ++ [some (block.table size (h.length + 1)),
        some (block.array (List.replicate size none))], some h.length) := by
  unfold hash_table_init_heap malloc heap_write
  rw [if_neg (by omega)]
  simp only [List.length_append, List.length_singleton, List.append_assoc,
    List.singleton_append]
  rw [List.set_append_right _ _ (le_refl _)]
  simp

theorem getD_replicate {α : Type} (n : Nat) (a : α) (i : Nat) :
    (List.replicate n a).getD i a = a := by
  rw [List.getD_eq_getElem?_getD, List.getElem?_replicate]
  split <;> rfl

theorem flatten_replicate_nil (n : Nat) :
    ((List.replicate n ([] : List (Nat × Nat))).map chain_blocks).flatten = [] := by
  induction n with
  | zero => rfl
  | succ n ih =>
    rw [List.replicate_succ, List.map_cons, List.flatten_cons, ih]
    rfl

/-- The table that `hash_table_init` builds in memory is the empty table, in two new
blocks. -/
theorem represents_init (h : heap) (size : Nat) :
    represents
      (h ++ [some (block.table size (h.length + 1)),
        some (block.array (List.replicate size none))])
      ⟨h.length, h.length + 1, List.replicate size []⟩ ⟨size, List.replicate size []⟩ := by
  refine ⟨?_, heap_read_append_new h _ _, List.length_replicate _ _,
    List.length_replicate _ _, List.replicate size none, ?_, List.length_replicate _ _, ?_⟩
  · simp only [layout.blocks, flatten_replicate_nil]
    simp
  · have := heap_read_append_new (h ++ [some (block.table size (h.length + 1))])
      (some (block.array (List.replicate size none))) []
    rw [List.append_assoc, List.length_append, List.length_singleton] at this
    exact this
  · intro i hi
    have h3 : bucket_at ⟨size, List.replicate size []⟩ i = [] := getD_replicate size [] i
    rw [getD_replicate, getD_replicate, h3]
    rfl

/-- The copy without overwrite in memory, between two tables with no block in common, does
to the content of `dest` what `hash_table_copy` does to it, and leaves the source as it
is. -/
theorem copy_heap_sim (h : heap) (ls ld : layout) (ms md : hash_table)
    (hs : represents h ls ms) (hd : represents h ld md) (hwf : well_formed ms)
    (hsize : 0 < md.size) (hdisj : ∀ x ∈ ls.blocks, x ∉ ld.blocks) :
    ∃ ld2,
      (hash_table_copy_heap h ld.table ls.table false).1 = (hash_table_copy md ms false).1 ∧
      represents (hash_table_copy_heap h ld.table ls.table false).2 ld2
        (hash_table_copy md ms false).2 ∧
      ld2.table = ld.table ∧
      represents (hash_table_copy_heap h ld.table ls.table false).2 ls ms ∧
      (∀ x ∈ ls.blocks, x ∉ ld2.blocks) ∧
      h.length ≤ (hash_table_copy_heap h ld.table ls.table false).2.length ∧
      (∀ x, x < h.length → x ∉ ld.blocks →
        heap_read (hash_table_copy_heap h ld.table ls.table false).2 x = heap_read h x) ∧
      ∀ x ∈ ld2.blocks, x ∈ ld.blocks ∨ h.length ≤ x := by
  have hcopy : hash_table_copy_heap h ld.table ls.table false =
      copy_buckets_heap hash_table_insert_heap ld.table ls.buckets (List.range ms.size) h := by
    unfold hash_table_copy_heap
    simp only [Bool.false_eq_true, if_false, hs.2.1]
  have hcopy2 : hash_table_copy md ms false =
      copy_loop hash_table_insert md ((List.range ms.size).map (bucket_at ms)).flatten := by
    unfold hash_table_copy items
    simp only [Bool.false_eq_true, if_false]
  rw [hcopy, hcopy2]
  exact copy_buckets_heap_sim ls ms
    (fun i hi item hitem => ((hwf.2.2 i hi).2 item hitem).1) (List.range ms.size) h ld md
    hs hd hsize hdisj (fun i hi => List.mem_range.mp hi)

theorem copy_fresh_eq_source (source : hash_table) (h : well_formed source) :
    hash_table_copy ⟨source.size, List.replicate source.size []⟩ source false =
      (true, source) := by
  have hclone := clone_eq_source none none source h
  unfold hash_table_clone at hclone
  rw [init_of_two_le none source.size h.1] at hclone
  simp only at hclone
  by_cases hr : (hash_table_copy ⟨source.size, List.replicate source.size []⟩ source false).1 =
      false
  · rw [if_pos hr] at hclone
    exact Option.noConfusion hclone
  · rw [if_neg hr] at hclone
    have h1 : (hash_table_copy ⟨source.size, List.replicate source.size []⟩ source false).1 =
        true := by
      simpa using hr
    exact Prod.ext h1 (Option.some.inj hclone)

/-- Clone in memory: for a well-formed source, `*dest_addr` receives a pointer to a table
that holds the content of the source in blocks of its own, all of them new; every block
that was live before is read as before. -/
theorem clone_heap_sim (h : heap) (ls : layout) (ms : hash_table) (hs : represents h ls ms)
    (hwf : well_formed ms) (dest_addr table : Option Nat) :
    ∃ ld,
      hash_table_clone_heap h dest_addr ls.table table =
        ((hash_table_clone_heap h dest_addr ls.table table).1, some ld.table) ∧
      represents (hash_table_clone_heap h dest_addr ls.table table).1 ld ms ∧
      represents (hash_table_clone_heap h dest_addr ls.table table).1 ls ms ∧
      (∀ x ∈ ld.blocks, h.length ≤ x) ∧
      ∀ x, x < h.length →
        heap_read (hash_table_clone_heap h dest_addr ls.table table).1 x = heap_read h x := by
  have hsz : hash_table_size_heap h ls.table = ms.size := by
    unfold hash_table_size_heap
    simp only [hs.2.1]
  have hlts := represents_lt h ls ms hs
  have hagree : ∀ x, x < h.length →
      heap_read (h ++ [some (block.table ms.size (h.length + 1)),
        some (block.array (List.replicate ms.size none))]) x = heap_read h x :=
    fun x hx => heap_read_append h _ x hx
  have hs1 := represents_agree h _ ls ms (fun x hx => hagree x (hlts x hx)) hs
  have hd1 := represents_init h ms.size
  have hdisj1 : ∀ x ∈ ls.blocks,
      x ∉ layout.blocks ⟨h.length, h.length + 1, List.replicate ms.size []⟩ := by
    intro x hx hx1
    have := hlts x hx
    simp only [layout.blocks, flatten_replicate_nil, List.mem_cons, List.not_mem_nil,
      or_false] at hx1
    omega
  obtain ⟨ld, hflag, hd2, htab, hs2, hdisj2, hlen2, hframe2, hblocks2⟩ :=
    copy_heap_sim _ ls ⟨h.length, h.length + 1, List.replicate ms.size []⟩ ms
      ⟨ms.size, List.replicate ms.size []⟩ hs1 hd1 hwf (by have := hwf.1; show 0 < ms.size; omega)
      hdisj1
  rw [copy_fresh_eq_source ms hwf] at hflag hd2
  have hclone : hash_table_clone_heap h dest_addr ls.table table =
      ((hash_table_copy_heap
        (h ++ [some (block.table ms.size (h.length + 1)),
          some (block.array (List.replicate ms.size none))]) h.length ls.table false).2,
        some h.length) := by
    unfold hash_table_clone_heap
    rw [hsz, init_heap_eq h table ms.size hwf.1]
    simp only
    rw [if_neg (by rw [hflag]; simp)]
  rw [hclone]
  refine ⟨ld, by rw [htab], hd2, hs2, ?_, ?_⟩
  · intro x hx
    rcases hblocks2 x hx with h1 | h1
    · simp only [layout.blocks, flatten_replicate_nil, List.mem_cons, List.not_mem_nil,
        or_false] at h1
      omega
    · rw [List.length_append] at h1
      omega
  · intro x hx
    rw [hframe2 x (by rw [List.length_append]; omega) ?_, hagree x hx]
    intro hx1
    simp only [layout.blocks, flatten_replicate_nil, List.mem_cons, List.not_mem_nil,
      or_false] at hx1
    omega

/-! ## Delete in memory -/

/-- Delete through a pointer to a table returns what `hash_table_delete` returns on the
content, and stores into and frees only blocks of that table. -/
theorem delete_heap_frame (h : heap) (l : layout) (m : hash_table) (hrep : represents h l m)
    (hsize : 0 < m.size) (key : Key) :
    (hash_table_delete_heap h l.table key).1 = (hash_table_delete m key).1 ∧
    (hash_table_delete_heap h l.table key).2.length = h.length ∧
    ∀ x, x ∉ l.blocks →
      heap_read (hash_table_delete_heap h l.table key).2 x = heap_read h x := by
  have hi : hash key % m.size < m.size := Nat.mod_lt _ hsize
  have hfind := find_heap_eq h l m hrep hsize key
  rcases load_find_heap_cases h l m hrep hsize key with ⟨hload, hslot⟩ |
    ⟨a, item, next, hload, hget, hslot, hnode, _⟩
  · have hd : hash_table_delete_heap h l.table key = (false, h) := by
      unfold hash_table_delete_heap
      simp only [hload]
    rw [hd, delete_of_absent m key ((search_eq_none_iff m key).mpr hslot)]
    exact ⟨rfl, rfl, fun _ _ => rfl⟩
  · have hd : hash_table_delete_heap h l.table key =
        (true, free (free (store h next (find_heap h l.table key)) a.2) a.1) := by
      unfold hash_table_delete_heap
      simp only [hload, hnode]
    rw [hd, delete_of_found m key item hslot]
    refine ⟨rfl, ?_, ?_⟩
    · show (free (free (store h next (find_heap h l.table key)) a.2) a.1).length = h.length
      rw [length_free, length_free, length_store]
    · intro x hx
      show heap_read (free (free (store h next (find_heap h l.table key)) a.2) a.1) x =
        heap_read h x
      have hi2 : hash key % m.size < l.chains.length := by rw [hrep.2.2.1]; exact hi
      have hmem : ∀ y ∈ chain_blocks (l.chains.getD (hash key % m.size) []), y ∈ l.blocks := by
        intro y hy
        simp only [layout.blocks, List.mem_cons]
        exact Or.inr (Or.inr (chain_blocks_mem_flatten l.chains _ hi2 y hy))
      have ha : a ∈ l.chains.getD (hash key % m.size) [] := List.get?_mem hget
      have ha1 : x ≠ a.1 := by
        intro hxa
        exact hx (hmem x ((mem_chain_blocks _ x).mpr ⟨a, ha, Or.inl hxa⟩))
      have ha2 : x ≠ a.2 := by
        intro hxa
        exact hx (hmem x ((mem_chain_blocks _ x).mpr ⟨a, ha, Or.inr hxa⟩))
      have hw : x ≠ link_cell (find_heap h l.table key) := by
        intro hxw
        rw [hfind] at hxw
        rcases link_cell_link_after (link.bucket l.buckets (hash key % m.size))
          (l.chains.getD (hash key % m.size) []) (find m key).pos with h1 | h1
        · rw [h1] at hxw
          exact hx (by rw [hxw]; simp [layout.blocks, link_cell])
        · rw [← hxw] at h1
          exact hx (hmem x h1)
      rw [heap_read_free_ne _ _ _ ha1, heap_read_free_ne _ _ _ ha2,
        heap_read_store_ne _ _ _ _ hw]

/-! ## Clone, then delete in the clone -/

theorem search_ne_none_of_present (table : hash_table) (h : well_formed table) (key : Key)
    (hp : present table key) : hash_table_search table key ≠ none :=
  ((mem_keys_iff table h key).mp hp).2

theorem split_of_get? {α : Type} (l : List α) :
    ∀ (n : Nat) (a : α), l.get? n = some a →
      ∃ pre post, l = pre ++ a :: post ∧ pre.length = n := by
  induction l with
  | nil =>
    intro n a h
    simp at h
  | cons b l ih =>
    intro n a h
    cases n with
    | zero =>
      simp only [List.get?_cons_zero, Option.some.injEq] at h
      exact ⟨[], l, by rw [h]; rfl, rfl⟩
    | succ n =>
      simp only [List.get?_cons_succ] at h
      obtain ⟨pre, post, hsplit, hlen⟩ := ih n a h
      exact ⟨b :: pre, post, by rw [hsplit]; rfl, by simp only [List.length_cons, hlen]⟩

theorem flatten_set_sublist (chains : List (List Nat)) :
    ∀ (i : Nat) (c : List Nat), List.Sublist c (chains.getD i []) →
      List.Sublist (chains.set i c).flatten chains.flatten := by
  induction chains with
  | nil =>
    intro i c _
    exact List.Sublist.refl _
  | cons b chains ih =>
    intro i c hsub
    cases i with
    | zero =>
      simp only [List.set_cons_zero, List.flatten_cons]
      exact List.Sublist.append hsub (List.Sublist.refl _)
    | succ i =>
      simp only [List.set_cons_succ, List.flatten_cons]
      exact List.Sublist.append (List.Sublist.refl _) (ih i c hsub)

/-- Unlinking an item and freeing it and its key buffer: the chain in memory then holds
the entries before and after it. -/
theorem chain_rep_unlink (g : heap) (a : Nat × Nat) (value : item_type) (next : Option Nat)
    (hread : heap_read g a.1 = some (block.node value a.2 next)) (pre : List (Nat × Nat)) :
    ∀ (post : List (Nat × Nat)) (ipre : List hash_table_item) (item : hash_table_item)
      (ipost : List hash_table_item) (prev : link),
      pre.length = ipre.length →
      chain_rep g (load g prev) (pre ++ a :: post) (ipre ++ item :: ipost) →
      (∀ p, load (store g p prev) prev = p) →
      (chain_blocks (pre ++ a :: post)).Nodup →
      link_cell prev ∉ chain_blocks (pre ++ a :: post) →
      chain_rep
        (free (free (store g next (link_after prev (pre ++ a :: post) pre.length)) a.2) a.1)
        (load
          (free (free (store g next (link_after prev (pre ++ a :: post) pre.length)) a.2) a.1)
          prev)
        (pre ++ post) (ipre ++ ipost) := by
  induction pre with
  | nil =>
    intro post ipre item ipost prev hlen hrep hvalid hnd hprev
    cases ipre with
    | cons ib ipre => simp at hlen
    | nil =>
      obtain ⟨_, _, _, next2, hn, hrest⟩ := hrep
      rw [hread] at hn
      have hnext : next = next2 := by
        injection hn with hn
        injection hn
      rw [← hnext] at hrest
      simp only [List.nil_append, chain_blocks, List.nodup_cons, List.mem_cons, not_or] at hnd hprev
      show chain_rep (free (free (store g next prev) a.2) a.1)
        (load (free (free (store g next prev) a.2) a.1) prev) post ipost
      have hl : load (free (free (store g next prev) a.2) a.1) prev = next := by
        rw [load_congr (store g next prev) _ prev
          (by rw [heap_read_free_ne _ _ _ hprev.1, heap_read_free_ne _ _ _ hprev.2.1])]
        exact hvalid next
      rw [hl]
      refine chain_rep_agree g _ post next ipost ?_ hrest
      intro x hx
      have h1 : x ≠ a.1 := fun hxa => hnd.1.2 (hxa ▸ hx)
      have h2 : x ≠ a.2 := fun hxa => hnd.2.1 (hxa ▸ hx)
      have h3 : x ≠ link_cell prev := fun hxa => hprev.2.2 (hxa ▸ hx)
      rw [heap_read_free_ne _ _ _ h1, heap_read_free_ne _ _ _ h2, heap_read_store_ne _ _ _ _ h3]
  | cons b pre ih =>
    intro post ipre item ipost prev hlen hrep hvalid hnd hprev
    cases ipre with
    | nil => simp at hlen
    | cons ib ipre =>
      obtain ⟨hp, hfr, hk, n, hn, hrest⟩ := hrep
      simp only [List.cons_append, chain_blocks, List.nodup_cons, List.mem_cons, not_or]
        at hnd hprev
      have hamem : a.1 ∈ chain_blocks (pre ++ a :: post) ∧
          a.2 ∈ chain_blocks (pre ++ a :: post) := by
        rw [chain_blocks_append]
        simp [chain_blocks]
      have hnext : load g (link.next b.1) = n := load_next g _ _ _ _ hn
      have hih := ih post ipre item ipost (link.next b.1)
        (by simp only [List.length_cons] at hlen; omega)
        (by rw [hnext]; exact hrest)
        (fun p => by
          rw [store_next g _ _ _ _ _ hn]
          exact load_next _ _ _ _ _ (heap_read_write_self g _ _ (heap_read_lt g _ _ hn)))
        hnd.2.2 hnd.1.2
      show chain_rep
        (free (free (store g next
          (link_after (link.next b.1) (pre ++ a :: post) pre.length)) a.2) a.1)
        (load (free (free (store g next
          (link_after (link.next b.1) (pre ++ a :: post) pre.length)) a.2) a.1) prev)
        (b :: (pre ++ post)) (ib :: (ipre ++ ipost))
      have hw := link_cell_link_after (link.next b.1) (pre ++ a :: post) pre.length
      generalize link_after (link.next b.1) (pre ++ a :: post) pre.length = w at hih hw ⊢
      have hwp : link_cell prev ≠ link_cell w := by
        intro heq
        rcases hw with hw | hw
        · rw [← heq] at hw
          simp only [link_cell] at hw
          exact hprev.1 hw
        · rw [← heq] at hw
          exact hprev.2.2 hw
      have hp1 : link_cell prev ≠ a.1 := fun hpa => hprev.2.2 (hpa ▸ hamem.1)
      have hp2 : link_cell prev ≠ a.2 := fun hpa => hprev.2.2 (hpa ▸ hamem.2)
      have hb1 : b.1 ≠ a.1 := fun hba => hnd.1.2 (hba ▸ hamem.1)
      have hb2 : b.1 ≠ a.2 := fun hba => hnd.1.2 (hba ▸ hamem.2)
      have hb3 : b.2 ≠ a.1 := fun hba => hnd.2.1 (hba ▸ hamem.1)
      have hb4 : b.2 ≠ a.2 := fun hba => hnd.2.1 (hba ▸ hamem.2)
      obtain ⟨n2, hn2⟩ := heap_read_store_node g next w _ _ _ _ hn
      have hn3 : heap_read (free (free (store g next w) a.2) a.1) b.1 =
          some (block.node ib.value b.2 n2) := by
        rw [heap_read_free_ne _ _ _ hb1, heap_read_free_ne _ _ _ hb2]
        exact hn2
      refine ⟨?_, hfr, ?_, n2, hn3, ?_⟩
      · rw [load_congr g _ prev
          (by rw [heap_read_free_ne _ _ _ hp1, heap_read_free_ne _ _ _ hp2,
            heap_read_store_ne _ _ _ _ hwp])]
        exact hp
      · rw [heap_read_free_ne _ _ _ hb3, heap_read_free_ne _ _ _ hb4]
        exact heap_read_store_chars g _ _ _ _ hk
      · rw [load_next _ _ _ _ _ hn3] at hih
        exact hih

theorem chain_blocks_sublist (pre post : List (Nat × Nat)) (a : Nat × Nat) :
    List.Sublist (chain_blocks (pre ++ post)) (chain_blocks (pre ++ a :: post)) := by
  rw [chain_blocks_append, chain_blocks_append]
  refine List.Sublist.append (List.Sublist.refl _) ?_
  show List.Sublist (chain_blocks post) (a.1 :: a.2 :: chain_blocks post)
  exact List.Sublist.cons _ (List.Sublist.cons _ (List.Sublist.refl _))

/-- One delete in memory does to the content what `hash_table_delete` does to it, and the
blocks of the table afterwards are among its blocks before. -/
theorem delete_heap_sim (h : heap) (l : layout) (m : hash_table) (hrep : represents h l m)
    (hsize : 0 < m.size) (key : Key) :
    ∃ l2, represents (hash_table_delete_heap h l.table key).2 l2 (hash_table_delete m key).2 ∧
      l2.table = l.table ∧ ∀ x ∈ l2.blocks, x ∈ l.blocks := by
  have hi : hash key % m.size < m.size := Nat.mod_lt _ hsize
  have hfind := find_heap_eq h l m hrep hsize key
  rcases load_find_heap_cases h l m hrep hsize key with ⟨hload, hslot⟩ |
    ⟨a, item, next, hload, hget, hslot, hnode, _⟩
  · have hd : hash_table_delete_heap h l.table key = (false, h) := by
      unfold hash_table_delete_heap
      simp only [hload]
    rw [hd, delete_of_absent m key ((search_eq_none_iff m key).mpr hslot)]
    exact ⟨l, hrep, rfl, fun x hx => hx⟩
  · have hd : hash_table_delete_heap h l.table key =
        (true, free (free (store h next (find_heap h l.table key)) a.2) a.1) := by
      unfold hash_table_delete_heap
      simp only [hload, hnode]
    obtain ⟨ipre, ipost, hsplit, hpos, _, _⟩ := found_split m key item hslot
    obtain ⟨pre, post, hcsplit, hprelen⟩ := split_of_get? _ _ a hget
    rw [hd, delete_of_found m key item hslot, slot_set_found m key ipre ipost item hsplit hpos,
      hfind, hcsplit, ← hprelen]
    obtain ⟨hnd, htable, hlen, hblen, heads, harray, hheads, hchains⟩ := hrep
    obtain ⟨htb, htf, hbf, hfnd⟩ := blocks_table_not_mem l hnd
    have hi2 : hash key % m.size < l.chains.length := by rw [hlen]; exact hi
    have hchain := hchains _ hi
    rw [hcsplit, hsplit] at hchain
    have hcnd := chain_blocks_nodup l.chains _ hi2 hfnd
    rw [hcsplit] at hcnd
    have hmemf : ∀ x ∈ chain_blocks (pre ++ a :: post),
        x ∈ (l.chains.map chain_blocks).flatten := by
      intro x hx
      rw [← hcsplit] at hx
      exact chain_blocks_mem_flatten l.chains _ hi2 x hx
    have hamem : a.1 ∈ chain_blocks (pre ++ a :: post) ∧
        a.2 ∈ chain_blocks (pre ++ a :: post) := by
      rw [chain_blocks_append]
      simp [chain_blocks]
    have hload0 : load h (link.bucket l.buckets (hash key % m.size)) =
        heads.getD (hash key % m.size) none := load_bucket h _ _ heads harray
    have hunlink := chain_rep_unlink h a item.value next hnode pre post ipre item ipost
      (link.bucket l.buckets (hash key % m.size))
      (by rw [hprelen]; exact hpos)
      (by rw [hload0]; exact hchain)
      (fun p => by
        rw [store_bucket h _ _ _ heads harray]
        rw [load_bucket _ _ _ _ (heap_read_write_self h _ _ (heap_read_lt h _ _ harray))]
        rw [List.getD_eq_getElem?_getD, List.getElem?_set_self (by rw [hheads]; exact hi)]
        rfl)
      hcnd (fun hmem => hbf (hmemf _ hmem))
    have hw := link_cell_link_after (link.bucket l.buckets (hash key % m.size))
      (pre ++ a :: post) pre.length
    have hwl : ∀ j, j ≠ hash key % m.size →
        link_after (link.bucket l.buckets (hash key % m.size)) (pre ++ a :: post) pre.length ≠
          link.bucket l.buckets j := by
      intro j hj
      rcases link_after_cases (link.bucket l.buckets (hash key % m.size))
        (pre ++ a :: post) pre.length with h1 | ⟨b, _, h1⟩
      · rw [h1]
        intro heq
        exact hj (link.bucket.inj heq).2.symm
      · rw [h1]
        intro heq
        exact link.noConfusion heq
    generalize link_after (link.bucket l.buckets (hash key % m.size)) (pre ++ a :: post)
      pre.length = w at hunlink hw hwl
    have hw : link_cell w = l.buckets ∨ link_cell w ∈ chain_blocks (pre ++ a :: post) := hw
    have hta1 : l.table ≠ a.1 := fun heq => htf (heq ▸ hmemf _ hamem.1)
    have hta2 : l.table ≠ a.2 := fun heq => htf (heq ▸ hmemf _ hamem.2)
    have hba1 : l.buckets ≠ a.1 := fun heq => hbf (heq ▸ hmemf _ hamem.1)
    have hba2 : l.buckets ≠ a.2 := fun heq => hbf (heq ▸ hmemf _ hamem.2)
    obtain ⟨heads2, harray2, hheads2, hsame⟩ :=
      heap_read_store_array h next w l.buckets heads harray
    have harray3 : heap_read (free (free (store h next w) a.2) a.1) l.buckets =
        some (block.array heads2) := by
      rw [heap_read_free_ne _ _ _ hba1, heap_read_free_ne _ _ _ hba2]
      exact harray2
    have hsub : List.Sublist
        (layout.blocks { l with chains := (l.chains.set (hash key % m.size) (pre ++ post)) })
        l.blocks := by
      unfold layout.blocks
      refine List.Sublist.cons₂ _ (List.Sublist.cons₂ _ ?_)
      show List.Sublist ((l.chains.set _ _).map chain_blocks).flatten _
      rw [List.map_set]
      refine flatten_set_sublist _ _ _ ?_
      rw [← chain_blocks_getD l.chains _ hi2, hcsplit]
      exact chain_blocks_sublist pre post a
    refine ⟨{ l with chains := (l.chains.set (hash key % m.size) (pre ++ post)) },
      ⟨hnd.sublist hsub, ?_, ?_, ?_, heads2, harray3, by rw [hheads2, hheads], ?_⟩, rfl,
      fun x hx => hsub.subset hx⟩
    · show heap_read (free (free (store h next w) a.2) a.1) l.table = _
      rw [heap_read_free_ne _ _ _ hta1, heap_read_free_ne _ _ _ hta2]
      exact heap_read_store_table h _ _ _ _ _ htable
    · show (l.chains.set _ _).length = m.size
      rw [List.length_set, hlen]
    · show (m.buckets.set _ _).length = m.size
      rw [List.length_set, hblen]
    · intro j hj
      have hj1 : j < m.size := hj
      show chain_rep _ (heads2.getD j none) ((l.chains.set _ _).getD j []) _
      rw [bucket_at_set m _ j _ (by rw [hblen]; exact hi)]
      by_cases hji : j = hash key % m.size
      · rw [if_pos hji, hji, List.getD_eq_getElem?_getD (l.chains.set _ _),
          List.getElem?_set_self hi2]
        have hl2 : load (free (free (store h next w) a.2) a.1)
            (link.bucket l.buckets (hash key % m.size)) =
            heads2.getD (hash key % m.size) none := load_bucket _ _ _ heads2 harray3
        rw [← hl2]
        exact hunlink
      · rw [if_neg hji, List.getD_eq_getElem?_getD (l.chains.set _ _),
          List.getElem?_set_ne (Ne.symm hji), ← List.getD_eq_getElem?_getD,
          hsame j (hwl j hji)]
        refine chain_rep_agree h _ _ _ _ ?_ (hchains j hj1)
        intro x hx
        have hj2 : j < l.chains.length := by rw [hlen]; exact hj1
        have hxi : x ∉ chain_blocks (pre ++ a :: post) := by
          rw [← hcsplit]
          exact chain_blocks_disjoint l.chains j _ hj2 hi2 hji hfnd x hx
        have h1 : x ≠ a.1 := fun heq => hxi (heq ▸ hamem.1)
        have h2 : x ≠ a.2 := fun heq => hxi (heq ▸ hamem.2)
        have h3 : x ≠ link_cell w := by
          intro hxw
          rcases hw with hw | hw
          · rw [← hxw] at hw
            rw [hw] at hx
            exact hbf (chain_blocks_mem_flatten l.chains j hj2 _ hx)
          · rw [← hxw] at hw
            exact hxi hw
        rw [heap_read_free_ne _ _ _ h1, heap_read_free_ne _ _ _ h2,
          heap_read_store_ne _ _ _ _ h3]

/-- C8: a well-formed table lies in memory (`source` says where its blocks are, `content`
what it holds) and is cloned.  `*dest_addr` receives a pointer to a table with the same
bucket count that holds the same content, so a search in it returns what the search in the
source returns, for every key and in particular for every key present in the source, which
is found.  No block of the clone is a block of the source, and the source is read as
before the call.  A delete in the clone afterwards does to the clone what
`hash_table_delete` does to its content (a present key is removed and no longer found
there) and leaves the result of every search in the source unchanged. -/
theorem clone_preserves_search (h : heap) (source : layout) (content : hash_table)
    (dest_addr table : Option Nat) (hrep : represents h source content)
    (hwf : well_formed content) :
    ∃ (h2 : heap) (clone : layout),
      hash_table_clone_heap h dest_addr source.table table = (h2, some clone.table) ∧
      represents h2 clone content ∧ represents h2 source content ∧
      (∀ x ∈ clone.blocks, x ∉ source.blocks) ∧
      hash_table_size_heap h2 clone.table = hash_table_size_heap h2 source.table ∧
      (∀ key, hash_table_search_heap h2 source.table key =
        hash_table_search_heap h source.table key) ∧
      (∀ key, hash_table_search_heap h2 clone.table key =
        hash_table_search_heap h2 source.table key) ∧
      (∀ key, present content key → hash_table_search_heap h2 source.table key ≠ none) ∧
      ∀ key,
        (∀ key2,
          hash_table_search_heap (hash_table_delete_heap h2 clone.table key).2 source.table
              key2 =
            hash_table_search_heap h2 source.table key2) ∧
        (hash_table_delete_heap h2 clone.table key).1 = (hash_table_delete content key).1 ∧
        (∀ key2,
          hash_table_search_heap (hash_table_delete_heap h2 clone.table key).2 clone.table
              key2 =
            hash_table_search (hash_table_delete content key).2 key2) ∧
        (present content key →
          (hash_table_delete_heap h2 clone.table key).1 = true ∧
          hash_table_search_heap (hash_table_delete_heap h2 clone.table key).2 clone.table
            key = none ∧
          hash_table_search_heap (hash_table_delete_heap h2 clone.table key).2 source.table
            key ≠ none) := by
  have hsize : 0 < content.size := by have := hwf.1; omega
  obtain ⟨clone, hclone, hd, hs, hnew, hframe⟩ :=
    clone_heap_sim h source content hrep hwf dest_addr table
  have hlts := represents_lt h source content hrep
  have hdisj : ∀ x ∈ clone.blocks, x ∉ source.blocks := by
    intro x hx hxs
    have h1 := hnew x hx
    have h2 := hlts x hxs
    omega
  have hsrc : ∀ key,
      hash_table_search_heap (hash_table_clone_heap h dest_addr source.table table).1
        source.table key = hash_table_search content key :=
    fun key => search_heap_eq _ source content hs hsize key
  have hfound : ∀ key, present content key →
      hash_table_search_heap (hash_table_clone_heap h dest_addr source.table table).1
        source.table key ≠ none := by
    intro key hp
    rw [hsrc key]
    exact search_ne_none_of_present content hwf key hp
  refine ⟨_, clone, hclone, hd, hs, hdisj, ?_, ?_, ?_, hfound, ?_⟩
  · unfold hash_table_size_heap
    simp only [hd.2.1, hs.2.1]
  · intro key
    rw [hsrc key, search_heap_eq h source content hrep hsize key]
  · intro key
    rw [hsrc key, search_heap_eq _ clone content hd hsize key]
  · intro key
    obtain ⟨hflag, _, hdframe⟩ := delete_heap_frame _ clone content hd hsize key
    obtain ⟨clone2, hd2, htab2, _⟩ := delete_heap_sim _ clone content hd hsize key
    have hs2 : represents
        (hash_table_delete_heap (hash_table_clone_heap h dest_addr source.table table).1
          clone.table key).2 source content :=
      represents_agree _ _ source content
        (fun x hx => hdframe x (fun hxc => hdisj x hxc hx)) hs
    have hsame : ∀ key2,
        hash_table_search_heap
            (hash_table_delete_heap (hash_table_clone_heap h dest_addr source.table table).1
              clone.table key).2 source.table key2 =
          hash_table_search_heap (hash_table_clone_heap h dest_addr source.table table).1
            source.table key2 := by
      intro key2
      rw [hsrc key2, search_heap_eq _ source content hs2 hsize key2]
    have hclone2 : ∀ key2,
        hash_table_search_heap
            (hash_table_delete_heap (hash_table_clone_heap h dest_addr source.table table).1
              clone.table key).2 clone.table key2 =
          hash_table_search (hash_table_delete content key).2 key2 := by
      intro key2
      have h1 := search_heap_eq _ clone2 _ hd2
        (by rw [size_delete]; exact hsize) key2
      rw [htab2] at h1
      exact h1
    refine ⟨hsame, hflag, hclone2, ?_⟩
    intro hp
    refine ⟨?_, ?_, ?_⟩
    · rw [hflag]
      exact delete_returns_true content key (search_ne_none_of_present content hwf key hp)
    · rw [hclone2 key]
      exact search_after_delete content key hwf
    · rw [hsame key]
      exact hfound key hp

theorem represents_sample : represents sample_heap sample_layout sample_content := by
  refine ⟨by decide, rfl, rfl, rfl, [some 2, some 4], rfl, rfl, ?_⟩
  intro i hi
  have hi2 : i < 2 := hi
  interval_cases i
  · exact ⟨rfl, rfl, rfl, some 6, rfl, rfl, rfl, rfl, none, rfl, rfl⟩
  · exact ⟨rfl, rfl, rfl, none, rfl, rfl⟩

theorem clone_preserves_search_witness :
    (hash_table_insert_heap
      (hash_table_insert_heap
        (hash_table_insert_heap (hash_table_init_heap [] none 2).1 0 [107, 48] 7).2
        0 [107, 49] 8).2
      0 [107, 50] 9).2 = sample_heap ∧
    represents sample_heap sample_layout sample_content ∧ well_formed sample_content ∧
    (∃ (h2 : heap) (clone : layout),
      hash_table_clone_heap sample_heap none sample_layout.table none =
        (h2, some clone.table) ∧
      (∀ x ∈ clone.blocks, x ∉ sample_layout.blocks) ∧
      (∀ key, hash_table_search_heap h2 clone.table key =
        hash_table_search_heap h2 sample_layout.table key) ∧
      ∀ key key2,
        hash_table_search_heap (hash_table_delete_heap h2 clone.table key).2
            sample_layout.table key2 =
          hash_table_search_heap h2 sample_layout.table key2) ∧
    (hash_table_clone_heap sample_heap none 0 none).2 = some 8 ∧
    hash_table_search_heap (hash_table_clone_heap sample_heap none 0 none).1 8 [107, 50] =
      some 9 ∧
    hash_table_search_heap
      (hash_table_delete_heap (hash_table_clone_heap sample_heap none 0 none).1 8
        [107, 50]).2 8 [107, 50] = none ∧
    hash_table_search_heap
      (hash_table_delete_heap (hash_table_clone_heap sample_heap none 0 none).1 8
        [107, 50]).2 0 [107, 50] = some 9 :=
  have h := clone_preserves_search sample_heap sample_layout sample_content none none
    represents_sample (by decide)
  ⟨by decide, represents_sample, by decide,
    h.imp fun _ h1 => h1.imp fun _ h2 =>
      ⟨h2.1, h2.2.2.2.1, h2.2.2.2.2.2.2.1, fun key key2 => (h2.2.2.2.2.2.2.2.2 key).1 key2⟩,
    by decide, by decide, by decide, by decide⟩


/-! ## Tables built in memory -/

/-- The table that `hash_table_init` followed by inserts of valid keys builds in memory is
laid out in pairwise distinct blocks and holds a well-formed content: the one the same
calls build by value. -/
theorem represents_after_inserts (h : heap) (table_addr : Option Nat) (size : Nat)
    (hsize : 2 ≤ size) (pairs : List (Key × item_type))
    (hvalid : ∀ kv ∈ pairs, valid_key kv.1) :
    ∃ l,
      (hash_table_init_heap h table_addr size).2 = some l.table ∧
      represents
        (pairs.foldl (fun g kv => (hash_table_insert_heap g l.table kv.1 kv.2).2)
          (hash_table_init_heap h table_addr size).1)
        l (insert_each ⟨size, List.replicate size []⟩ pairs).2 ∧
      well_formed (insert_each ⟨size, List.replicate size []⟩ pairs).2 := by
  rw [init_heap_eq h table_addr size hsize]
  have hgen : ∀ (pairs : List (Key × item_type)) (g : heap) (l : layout) (m : hash_table),
      (∀ kv ∈ pairs, valid_key kv.1) → represents g l m → well_formed m →
      ∃ l2, l2.table = l.table ∧
        represents
          (pairs.foldl (fun g kv => (hash_table_insert_heap g l.table kv.1 kv.2).2) g)
          l2 (insert_each m pairs).2 ∧
        well_formed (insert_each m pairs).2 := by
    intro pairs
    induction pairs with
    | nil =>
      intro g l m _ hrep hwf
      exact ⟨l, rfl, hrep, hwf⟩
    | cons kv pairs ih =>
      intro g l m hv hrep hwf
      have hk := hv kv (List.mem_cons_self _ _)
      obtain ⟨l1, hrep1, _, htab1, _, _, _⟩ :=
        insert_heap_sim g l m hrep (by have := hwf.1; omega) kv.1 kv.2 hk
      obtain ⟨l2, htab2, hrep2, hwf2⟩ := ih _ l1 _
        (fun kv2 hkv2 => hv kv2 (List.mem_cons_of_mem _ hkv2)) hrep1
        (well_formed_insert_valid m kv.1 kv.2 hwf hk)
      rw [htab1] at hrep2
      exact ⟨l2, htab2.trans htab1, hrep2, hwf2⟩
  obtain ⟨l2, htab2, hrep2, hwf2⟩ := hgen pairs _ _ _ hvalid (represents_init h size)
    (well_formed_fresh size hsize)
  refine ⟨l2, by rw [htab2], ?_, hwf2⟩
  rw [htab2]
  exact hrep2

end HashTable
